import Mathlib

/-!
# Window mean / standard deviation from a patch integral image

Verification development for `calc_mean_std/main.cpp`.

Embedding conventions.

* A C pointer is a total map from the `int` offset to the value stored there: `img : Int → Nat`
  for the `UINT8_G` backing buffer, `Int → Int` for a `UINT32_G` table.  The three buffers are
  distinct allocations (they do not alias).
* `UINT32_G` arithmetic is the mathematical operation followed by reduction modulo `2^32`
  (`wrapU32`), applied after every single operation in the order C++ evaluates them.
* `int` / `long long` values are mathematical integers (signed overflow has no defined result in
  C++, so none is assigned).  `CalcMeanStd_int_range` shows that the evaluator's `int` values stay
  in the 32-bit range for every valid window in tables of at most `2^31 - 1` cells.
* The `double` arithmetic of `CalcMeanStd` (lines 45, 62, 63) is embedded twice.
  - `ceoff`, `CalcMeanStd_mean`, `CalcMeanStd_var`, `sqrtDouble` and `CalcMeanStd` are the *exact
    reading*: every `double` operation returns its mathematical result (in `ℚ`, the final square
    root in `ℝ`).  These are the values the source lines denote before rounding, not the values
    a machine stores.  `std::sqrt` of a negative argument is not a number (NaN): `sqrtDouble`
    returns `none` there.
  - `ceoffDouble`, `meanDouble`, `argDouble`, `sqrtD` and `CalcMeanStd_double` are the *rounded
    reading*: IEEE 754 binary64 with round-to-nearest, ties-to-even, every operation rounded on
    its own in the order of the source (no fused multiply-add).  A `double` is a `Dyadic`
    `m * 2^e`; the exponent range is not bounded, which is immaterial for the magnitudes the
    evaluator meets (32-bit sums, their squares, and reciprocals of window areas).
  Statements about the returned `double`s say which reading they are about.  The rounded
  operations are proved to round correctly (`roundRatio_rounds`, `mulD_rounds`, `subD_rounds`,
  `ofIntD_exact`, `sqrtD_pos`).
* For statements about the execution of `CalcMeanStd` itself, its body is also embedded statement
  by statement (`CalcMeanStd_exec`) on a machine state with the memory behind the two pointers,
  the locals and the log of memory accesses.
-/

namespace MeanStd

/-! ## Machine arithmetic and memory -/

/-- Result of an operation on `UINT32_G` (unsigned 32-bit): the value modulo `2^32`. -/
def wrapU32 (z : Int) : Int := z % 4294967296

/-- Memory after the assignment `t[k] = v`. -/
def store (t : Int → Int) (k v : Int) : Int → Int := fun q => if q = k then v else t q

/-- The two output tables of the builder, `patch_integ` and `patch_pow_integ`. -/
structure Tables where
  patch_integ : Int → Int
  patch_pow_integ : Int → Int

/-! ## `IntegralPatch` (main.cpp, lines 80-101) -/

/-- Body of the inner loop of `IntegralPatch` (lines 88-98) for loop variables `i`, `j`.
`img[pos]` is promoted to `int`; every `+` and `-` with a `UINT32_G` operand is unsigned 32-bit. -/
def IntegralPatch_body (img : Int → Nat) (x0 y0 w_integ w_full : Int) (i j : Int)
    (T : Tables) : Tables :=
  let pos : Int := (y0 + i) * w_full + x0 + j
  { patch_integ :=
      store T.patch_integ (i * w_integ + j)
        (wrapU32 (wrapU32 (wrapU32 ((img pos : Int)
              + T.patch_integ (i * w_integ + j - 1))
            + T.patch_integ ((i - 1) * w_integ + j))
          - T.patch_integ ((i - 1) * w_integ + j - 1)))
    patch_pow_integ :=
      store T.patch_pow_integ (i * w_integ + j)
        (wrapU32 (wrapU32 (wrapU32 ((img pos : Int) * (img pos : Int)
              + T.patch_pow_integ (i * w_integ + j - 1))
            + T.patch_pow_integ ((i - 1) * w_integ + j))
          - T.patch_pow_integ ((i - 1) * w_integ + j - 1))) }

/-- Inner loop `for (int j = 1; j < w_integ; ++j)` of row `i`: the tables after its first `n`
iterations (`j = 1, ..., n`). -/
def IntegralPatch_row (img : Int → Nat) (x0 y0 w_integ w_full : Int) (i : Int) :
    Nat → Tables → Tables
  | 0, T => T
  | n + 1, T =>
      IntegralPatch_body img x0 y0 w_integ w_full i ((n : Int) + 1)
        (IntegralPatch_row img x0 y0 w_integ w_full i n T)

/-- Outer loop `for (int i = 1; i < h_integ; ++i)`: the tables after its first `m` iterations
(`i = 1, ..., m`), each running the whole inner loop (`w_integ - 1` iterations, none when
`w_integ <= 1`). -/
def IntegralPatch_rows (img : Int → Nat) (x0 y0 w_integ w_full : Int) :
    Nat → Tables → Tables
  | 0, T => T
  | m + 1, T =>
      IntegralPatch_row img x0 y0 w_integ w_full ((m : Int) + 1) (w_integ - 1).toNat
        (IntegralPatch_rows img x0 y0 w_integ w_full m T)

/-- The builder `IntegralPatch(img, patch_integ, patch_pow_integ, x0, y0, h_integ, w_integ, w_full)`:
the outer loop runs `h_integ - 1` times (not at all when `h_integ <= 1`).  The tables on entry are
`T`, the result is the tables on return. -/
def IntegralPatch (img : Int → Nat) (T : Tables) (x0 y0 h_integ w_integ w_full : Int) : Tables :=
  IntegralPatch_rows img x0 y0 w_integ w_full (h_integ - 1).toNat T

/-- Tables after `memset(..., 0, ...)` (main.cpp, lines 141 and 143). -/
def zeroTables : Tables := ⟨fun _ => 0, fun _ => 0⟩

/-! ## `CalcMeanStd` (main.cpp, lines 42-65) -/

/-- Line 48: `d_pos = (py + 1 + win_r) * w_integ + (px + 1 + win_r)`. -/
def d_pos (w_integ px py win_r : Int) : Int := (py + 1 + win_r) * w_integ + (px + 1 + win_r)

/-- Line 49: `a_pos = (py - win_r) * w_integ + (px - win_r)`. -/
def a_pos (w_integ px py win_r : Int) : Int := (py - win_r) * w_integ + (px - win_r)

/-- Line 50: `b_pos = (py - win_r) * w_integ + (px + 1 + win_r)`. -/
def b_pos (w_integ px py win_r : Int) : Int := (py - win_r) * w_integ + (px + 1 + win_r)

/-- Line 51: `c_pos = (py + 1 + win_r) * w_integ + (px - win_r)`. -/
def c_pos (w_integ px py win_r : Int) : Int := (py + 1 + win_r) * w_integ + (px - win_r)

/-- Lines 53-56 and 57-60: `t[d_pos] + t[a_pos] - t[b_pos] - t[c_pos]`, evaluated left to right in
`UINT32_G` arithmetic; the 32-bit result is then converted to `long long`, which keeps its value. -/
def cornerSum (t : Int → Int) (w_integ px py win_r : Int) : Int :=
  wrapU32 (wrapU32 (wrapU32 (t (d_pos w_integ px py win_r) + t (a_pos w_integ px py win_r))
      - t (b_pos w_integ px py win_r))
    - t (c_pos w_integ px py win_r))

/-- The `long long s1` of line 53. -/
def CalcMeanStd_s1 (patch_integ : Int → Int) (w_integ px py win_r : Int) : Int :=
  cornerSum patch_integ w_integ px py win_r

/-- The `long long s2` of line 57. -/
def CalcMeanStd_s2 (patch_pow_integ : Int → Int) (w_integ px py win_r : Int) : Int :=
  cornerSum patch_pow_integ w_integ px py win_r

/-- The `int` value `((win_r << 1) + 1) * ((win_r << 1) + 1)` of line 45, the pixel count `n`. -/
def winArea (win_r : Int) : Int := (win_r * 2 + 1) * (win_r * 2 + 1)

/-- Line 45, `ceoff = 1.0 / n`, in the exact reading: the rational number `1 / n`.  The `double`
the machine stores is `ceoffDouble`; the two differ unless `n` is a power of two. -/
def ceoff (win_r : Int) : ℚ := 1 / (winArea win_r : ℚ)

/-- Line 62, `mean = s1 * ceoff`, in the exact reading: the rational number `s1 / n`.  The
`double` the machine returns is `meanDouble`. -/
def CalcMeanStd_mean (patch_integ : Int → Int) (w_integ px py win_r : Int) : ℚ :=
  (CalcMeanStd_s1 patch_integ w_integ px py win_r : ℚ) * ceoff win_r

/-- Argument of `std::sqrt` on line 63, `ceoff * (s2 - s1 * s1 * ceoff)`, where `s1 * s1` is an
integer product, in the exact reading: the rational number `s2 / n - (s1 / n)^2`.  The `double`
the machine passes to `std::sqrt` is `argDouble`. -/
def CalcMeanStd_var (patch_integ patch_pow_integ : Int → Int) (w_integ px py win_r : Int) : ℚ :=
  ceoff win_r *
    ((CalcMeanStd_s2 patch_pow_integ w_integ px py win_r : ℚ)
      - ((CalcMeanStd_s1 patch_integ w_integ px py win_r
          * CalcMeanStd_s1 patch_integ w_integ px py win_r : Int) : ℚ) * ceoff win_r)

/-- Line 63: `std::sqrt` in the exact reading.  A non-negative argument has its real square
root; a negative argument gives NaN, which is `none`. -/
noncomputable def sqrtDouble (x : ℝ) : Option ℝ :=
  if 0 ≤ x then some (Real.sqrt x) else none

set_option linter.unusedVariables false in
/-- The evaluator `CalcMeanStd(patch_integ, patch_pow_integ, h_integ, w_integ, px, py, win_r)`
in the exact reading of its `double` arithmetic: the returned pair `{ mean, std }`, where `std` is
`none` when it is NaN.  The integer part (`s1`, `s2`) is the machine's.  The body never uses
`h_integ`. -/
noncomputable def CalcMeanStd (patch_integ patch_pow_integ : Int → Int)
    (h_integ w_integ px py win_r : Int) : ℝ × Option ℝ :=
  ((CalcMeanStd_mean patch_integ w_integ px py win_r : ℝ),
    sqrtDouble (CalcMeanStd_var patch_integ patch_pow_integ w_integ px py win_r : ℝ))

/-! ## The `double` arithmetic of `CalcMeanStd`, rounded

IEEE 754 binary64, round-to-nearest with ties to even.  A finite `double` is `m * 2^e`; a non-zero
result of a rounded operation has `2^52 ≤ |m| < 2^53`, and zero is `⟨0, 0⟩` (the sign of zero is
not tracked: `std::sqrt(-0.0)` is `-0.0`, a zero).  NaN occurs only as the result of `std::sqrt`
and is `none` there. -/

/-- A finite `double`: the number `m * 2^e`. -/
structure Dyadic where
  m : Int
  e : Int
  deriving DecidableEq

/-- The rational number a `Dyadic` stands for. -/
def Dyadic.toRat (x : Dyadic) : ℚ := (x.m : ℚ) * (2 : ℚ) ^ x.e

/-- The `double` `d` is a correct rounding of the exact value `q`: zero for zero, and otherwise a
normalised `double` (`2^52 ≤ |m| < 2^53`) of the sign of `q` that differs from `q` by at most
half a unit of its last place, `2^e / 2`. -/
def Dyadic.Rounds (d : Dyadic) (q : ℚ) : Prop :=
  (q = 0 ∧ d = ⟨0, 0⟩) ∨
  (q ≠ 0 ∧ 4503599627370496 ≤ |d.m| ∧ |d.m| < 9007199254740992 ∧ (0 < d.m ↔ 0 < q) ∧
    |q - d.toRat| ≤ (2 : ℚ) ^ d.e / 2)

/-- Number of binary digits of `n`, by repeated halving (at most `fuel` digits). -/
def bitLenFuel : Nat → Nat → Nat
  | 0, _ => 0
  | fuel + 1, n => if n = 0 then 0 else bitLenFuel fuel (n / 2) + 1

/-- Number of binary digits of `n`: `0` for `0`, otherwise `k` with `2^(k-1) ≤ n < 2^k`. -/
def bitLen (n : Nat) : Nat := bitLenFuel n n

/-- The integer nearest to `a / b`, the even one of the two on a tie (`b > 0`). -/
def roundHalfEven (a b : Nat) : Nat :=
  if 2 * (a % b) < b then a / b
  else if b < 2 * (a % b) then a / b + 1
  else if (a / b) % 2 = 0 then a / b else a / b + 1

/-- Exponent of the binade of `a / den` (`a, den > 0`): the `f` with
`2^f ≤ a / den < 2^(f + 1)`, found from the digit counts of `a` and `den` and one comparison. -/
def floorLog2Ratio (a den : Nat) : Int :=
  let e0 : Int := (bitLen a : Int) - (bitLen den : Int)
  let below : Bool := if 0 ≤ e0 then decide (a < den * 2 ^ e0.toNat)
    else decide (a * 2 ^ (-e0).toNat < den)
  if below then e0 - 1 else e0

/-- The integer nearest to `a / (den * 2^u)`, ties to even. -/
def roundQuot (a den : Nat) (u : Int) : Nat :=
  if 0 ≤ u then roundHalfEven a (den * 2 ^ u.toNat)
  else roundHalfEven (a * 2 ^ (-u).toNat) den

/-- The `double` nearest to the rational `num / den` (`den > 0`), ties to even: the exponent `u`
is chosen so that `|num| / (den * 2^u)` lies in `[2^52, 2^53)`, the quotient is rounded to an
integer, and a quotient rounded up to `2^53` is renormalised. -/
def roundRatio (num : Int) (den : Nat) : Dyadic :=
  if num.natAbs = 0 then ⟨0, 0⟩ else
    let u : Int := floorLog2Ratio num.natAbs den - 52
    let m : Nat := roundQuot num.natAbs den u
    let s : Int := if num < 0 then -1 else 1
    if m = 9007199254740992 then ⟨s * 4503599627370496, u + 1⟩ else ⟨s * (m : Int), u⟩

/-- The `double` nearest to `M * 2^E`. -/
def roundScaled (M E : Int) : Dyadic :=
  if 0 ≤ E then roundRatio (M * 2 ^ E.toNat) 1 else roundRatio M (2 ^ (-E).toNat)

/-- Conversion of an `int` or `long long` value to `double`. -/
def ofIntD (k : Int) : Dyadic := roundRatio k 1

/-- The `double` product `x * y`: the exact product, rounded. -/
def mulD (x y : Dyadic) : Dyadic := roundScaled (x.m * y.m) (x.e + y.e)

/-- The `double` difference `x - y`: the exact difference, rounded. -/
def subD (x y : Dyadic) : Dyadic :=
  roundScaled (x.m * 2 ^ (x.e - min x.e y.e).toNat - y.m * 2 ^ (y.e - min x.e y.e).toNat)
    (min x.e y.e)

/-- Bisection for the integer square root: keeps `lo^2 ≤ n < hi^2`. -/
def isqrtAux : Nat → Nat → Nat → Nat → Nat
  | 0, _, lo, _ => lo
  | fuel + 1, n, lo, hi =>
      if hi ≤ lo + 1 then lo
      else if ((lo + hi) / 2) * ((lo + hi) / 2) ≤ n then isqrtAux fuel n ((lo + hi) / 2) hi
      else isqrtAux fuel n lo ((lo + hi) / 2)

/-- Integer square root: the largest `f` with `f^2 ≤ n`. -/
def isqrt (n : Nat) : Nat := isqrtAux (bitLen n + 1) n 0 (n + 1)

/-- Rounding of the integer root `f` to its digits above position `p` (`p ≥ 1`), to nearest:
`f = q * 2^p + r` goes down to `q` when `r` is below half of `2^p` and up to `q + 1` when it is
above; when `r` is exactly half, the true root lies above `f` unless `f` is the exact root, so
the result is `q + 1`, or the even one of `q`, `q + 1` for an exact root. -/
def rootMantissa (f : Nat) (exact : Bool) (p : Nat) : Nat :=
  if 2 ^ (p - 1) < f % 2 ^ p then f / 2 ^ p + 1
  else if f % 2 ^ p < 2 ^ (p - 1) then f / 2 ^ p
  else if exact then (if (f / 2 ^ p) % 2 = 1 then f / 2 ^ p + 1 else f / 2 ^ p)
  else f / 2 ^ p + 1

/-- The `double` nearest to the square root of `m * 2^e` (`m > 0`).  With the exponent made even
(`m1 * 2^e1`), `f` is the integer square root of `m1 * 2^120`, which has at least `61` digits;
its leading `53` digits are rounded by the digits below them. -/
def sqrtPos (m : Nat) (e : Int) : Dyadic :=
  let k : Nat := if e % 2 = 0 then 0 else 1
  let y : Nat := m * 2 ^ k * 2 ^ 120
  let f : Nat := isqrt y
  let p : Nat := bitLen f - 53
  let mm : Nat := rootMantissa f (decide (f * f = y)) p
  let ee : Int := (e - k - 120) / 2 + p
  if mm = 9007199254740992 then ⟨4503599627370496, ee + 1⟩ else ⟨(mm : Int), ee⟩

/-- The call `std::sqrt(x)` on a `double`: NaN (`none`) for a negative argument, zero for zero,
the correctly rounded root otherwise. -/
def sqrtD (x : Dyadic) : Option Dyadic :=
  if x.m < 0 then none else if x.m = 0 then some ⟨0, 0⟩ else some (sqrtPos x.m.natAbs x.e)

/-- Line 45 as executed: the `double` quotient `1.0 / n`, the `int` `n` converted exactly. -/
def ceoffDouble (win_r : Int) : Dyadic := roundRatio 1 (winArea win_r).toNat

/-- Line 62 as executed for a given `s1`: `s1` converted to `double`, times `ceoff`. -/
def meanDouble (win_r s1 : Int) : Dyadic := mulD (ofIntD s1) (ceoffDouble win_r)

/-- Argument of `std::sqrt` on line 63 as executed for given `s1`, `s2`:
`ceoff * (s2 - s1 * s1 * ceoff)` with the `long long` product `s1 * s1` converted to `double`,
multiplied by `ceoff`, subtracted from the converted `s2`, and the difference multiplied by
`ceoff`; each of the three `double` operations rounds. -/
def argDouble (win_r s1 s2 : Int) : Dyadic :=
  mulD (ceoffDouble win_r) (subD (ofIntD s2) (mulD (ofIntD (s1 * s1)) (ceoffDouble win_r)))

set_option linter.unusedVariables false in
/-- The evaluator `CalcMeanStd(patch_integ, patch_pow_integ, h_integ, w_integ, px, py, win_r)`
as executed in binary64: the returned pair `{ mean, std }`, where `std` is `none` when it is
NaN. -/
def CalcMeanStd_double (patch_integ patch_pow_integ : Int → Int)
    (h_integ w_integ px py win_r : Int) : Dyadic × Option Dyadic :=
  (meanDouble win_r (CalcMeanStd_s1 patch_integ w_integ px py win_r),
    sqrtD (argDouble win_r (CalcMeanStd_s1 patch_integ w_integ px py win_r)
      (CalcMeanStd_s2 patch_pow_integ w_integ px py win_r)))

/-! ## Vocabulary of the specification -/

/-- Sample of the patch at patch-local column `x`, row `y`: the patch starts at column `x0 + 1`,
row `y0 + 1` of the backing buffer (lines 73-74, 83, 88). -/
def patchSample (img : Int → Nat) (x0 y0 w_full : Int) (x y : Int) : Int :=
  (img ((y0 + 1 + y) * w_full + x0 + 1 + x) : Int)

/-- Brute-force sum of the samples in the first `i` rows and first `j` columns of the patch. -/
def prefixSum (img : Int → Nat) (x0 y0 w_full : Int) (i j : Nat) : Int :=
  ∑ a ∈ Finset.range i, ∑ b ∈ Finset.range j, patchSample img x0 y0 w_full b a

/-- Brute-force sum of the squared samples in the first `i` rows and `j` columns of the patch. -/
def prefixSumSq (img : Int → Nat) (x0 y0 w_full : Int) (i j : Nat) : Int :=
  ∑ a ∈ Finset.range i, ∑ b ∈ Finset.range j,
    patchSample img x0 y0 w_full b a * patchSample img x0 y0 w_full b a

/-- Brute-force sum over the window `[px - r, px + r] x [py - r, py + r]` of the patch. -/
def windowSum (img : Int → Nat) (x0 y0 w_full : Int) (px py r : Int) : Int :=
  ∑ y ∈ Finset.Icc (py - r) (py + r), ∑ x ∈ Finset.Icc (px - r) (px + r),
    patchSample img x0 y0 w_full x y

/-- Brute-force sum of squares over the window `[px - r, px + r] x [py - r, py + r]`. -/
def windowSumSq (img : Int → Nat) (x0 y0 w_full : Int) (px py r : Int) : Int :=
  ∑ y ∈ Finset.Icc (py - r) (py + r), ∑ x ∈ Finset.Icc (px - r) (px + r),
    patchSample img x0 y0 w_full x y * patchSample img x0 y0 w_full x y

/-- The tables are zero-initialised: every cell of the `h_integ x w_integ` tables holds `0`. -/
def ZeroInit (T : Tables) (h_integ w_integ : Int) : Prop :=
  ∀ q : Int, 0 ≤ q → q < h_integ * w_integ → T.patch_integ q = 0 ∧ T.patch_pow_integ q = 0

/-- The tables of an `H x W` patch can be built without overflow: the largest value any cell has
to hold, the sum of squares of the whole patch, fits the unsigned 32-bit cell type. -/
def NoOverflow (img : Int → Nat) (x0 y0 w_full : Int) (H W : Nat) : Prop :=
  prefixSumSq img x0 y0 w_full H W < 4294967296

/-- The backing buffer holds 8-bit samples (`UINT8_G`): every value is at most `255`. -/
def EightBit (img : Int → Nat) : Prop := ∀ p : Int, img p ≤ 255

/-- Summed-area convention for a pair of `h_integ x w_integ` tables over a patch: cell `(i, j)`
holds the sum (resp. the sum of squares) of the patch samples in rows `0 .. i-1` and columns
`0 .. j-1`, and every value is below `2^32`. -/
def SummedArea (img : Int → Nat) (x0 y0 w_full : Int) (t1 t2 : Int → Int)
    (h_integ w_integ : Int) : Prop :=
  ∀ i j : Nat, (i : Int) ≤ h_integ - 1 → (j : Int) ≤ w_integ - 1 →
    (t1 ((i : Int) * w_integ + (j : Int)) = prefixSum img x0 y0 w_full i j ∧
      t1 ((i : Int) * w_integ + (j : Int)) < 4294967296) ∧
    (t2 ((i : Int) * w_integ + (j : Int)) = prefixSumSq img x0 y0 w_full i j ∧
      t2 ((i : Int) * w_integ + (j : Int)) < 4294967296)

/-- Every sample of the `H x W` patch equals `v`. -/
def UniformPatch (img : Int → Nat) (x0 y0 w_full : Int) (H W : Nat) (v : Int) : Prop :=
  ∀ a b : Nat, a < H → b < W → patchSample img x0 y0 w_full b a = v

/-- The value fits a 32-bit signed `int`. -/
def InIntRange (z : Int) : Prop := -2147483648 ≤ z ∧ z ≤ 2147483647

/-- Valid window (section 4.2): all four corner lookups stay inside the padded table. -/
def ValidWindow (h_integ w_integ px py win_r : Int) : Prop :=
  0 ≤ win_r ∧ 0 ≤ px - win_r ∧ 0 ≤ py - win_r ∧
    px + 1 + win_r ≤ w_integ - 1 ∧ py + 1 + win_r ≤ h_integ - 1

/-! ## Concrete inputs used to exercise the theorems -/

/-- Backing buffer of the uniform scenario: every sample is `100`. -/
def img100 : Int → Nat := fun _ => 100

/-- Backing buffer of the ramp scenario: sample `p` of the buffer holds `p` (as an 8-bit value), so
a `13 x 13` buffer holds `0, ..., 168` row-major. -/
def imgRamp : Int → Nat := fun p => p.toNat % 256

/-- Saturated backing buffer: every sample is `255`. -/
def img255 : Int → Nat := fun _ => 255

/-- Backing buffer whose every sample is `1`. -/
def img1 : Int → Nat := fun _ => 1

/-! ## One table at a time

Both tables are updated by the same loop, with the sample term `img[pos]` for `patch_integ` and
`img[pos] * img[pos]` for `patch_pow_integ`.  `cellStep`, `rowStep` and `rowsStep` are the loops
of `IntegralPatch` restricted to a single table whose sample term at `(i, j)` is `g i j`. -/

/-- One assignment of the loop body on a single table. -/
def cellStep (g : Int → Int → Int) (w : Int) (i j : Int) (t : Int → Int) : Int → Int :=
  store t (i * w + j)
    (wrapU32 (wrapU32 (wrapU32 (g i j + t (i * w + j - 1)) + t ((i - 1) * w + j))
      - t ((i - 1) * w + j - 1)))

/-- First `n` iterations of the inner loop on a single table. -/
def rowStep (g : Int → Int → Int) (w : Int) (i : Int) : Nat → (Int → Int) → (Int → Int)
  | 0, t => t
  | n + 1, t => cellStep g w i ((n : Int) + 1) (rowStep g w i n t)

/-- First `m` iterations of the outer loop on a single table. -/
def rowsStep (g : Int → Int → Int) (w : Int) : Nat → (Int → Int) → (Int → Int)
  | 0, t => t
  | m + 1, t => rowStep g w ((m : Int) + 1) (w - 1).toNat (rowsStep g w m t)

/-- Sample term of `patch_integ` at loop variables `i`, `j`: `img[pos]`. -/
def sampleTerm (img : Int → Nat) (x0 y0 w_full : Int) (i j : Int) : Int :=
  (img ((y0 + i) * w_full + x0 + j) : Int)

/-- Sample term of `patch_pow_integ` at loop variables `i`, `j`: `img[pos] * img[pos]`. -/
def sampleSqTerm (img : Int → Nat) (x0 y0 w_full : Int) (i j : Int) : Int :=
  (img ((y0 + i) * w_full + x0 + j) : Int) * (img ((y0 + i) * w_full + x0 + j) : Int)

/-- Sum of `f a b` over `a < i`, `b < j`. -/
def rectSum (f : Nat → Nat → Int) (i j : Nat) : Int :=
  ∑ a ∈ Finset.range i, ∑ b ∈ Finset.range j, f a b

/-! ## The evaluator on given sums (exact reading) -/

/-- Line 62 for a given value of `s1`: `s1 * ceoff`. -/
def meanOfSums (win_r s1 : Int) : ℚ := (s1 : ℚ) * ceoff win_r

/-- Argument of `std::sqrt` on line 63 for given values of `s1` and `s2`:
`ceoff * (s2 - s1 * s1 * ceoff)`. -/
def varOfSums (win_r s1 s2 : Int) : ℚ :=
  ceoff win_r * ((s2 : ℚ) - ((s1 * s1 : Int) : ℚ) * ceoff win_r)

/-! ## Memory accesses of the builder -/

/-- One memory access of `IntegralPatch`: a load from the backing buffer `img`, or a load or a
store on `patch_integ` or on `patch_pow_integ`, with the index used. -/
inductive Access where
  | imgRead (pos : Int)
  | integRead (idx : Int)
  | integWrite (idx : Int)
  | powRead (idx : Int)
  | powWrite (idx : Int)
  deriving DecidableEq

/-- Accesses of one execution of the loop body for loop variables `i`, `j`, in program order:
the assignment of lines 90-93 (one load of `img[pos]`, three loads and one store on
`patch_integ`) and the assignment of lines 95-98 (two loads of `img[pos]`, three loads and one
store on `patch_pow_integ`). -/
def IntegralPatch_body_accesses (x0 y0 w_integ w_full i j : Int) : List Access :=
  let pos : Int := (y0 + i) * w_full + x0 + j
  [Access.imgRead pos,
    Access.integRead (i * w_integ + j - 1),
    Access.integRead ((i - 1) * w_integ + j),
    Access.integRead ((i - 1) * w_integ + j - 1),
    Access.integWrite (i * w_integ + j),
    Access.imgRead pos,
    Access.imgRead pos,
    Access.powRead (i * w_integ + j - 1),
    Access.powRead ((i - 1) * w_integ + j),
    Access.powRead ((i - 1) * w_integ + j - 1),
    Access.powWrite (i * w_integ + j)]

/-- Accesses of the first `n` iterations of the inner loop of row `i`. -/
def IntegralPatch_row_accesses (x0 y0 w_integ w_full i : Int) : Nat → List Access
  | 0 => []
  | n + 1 =>
      IntegralPatch_row_accesses x0 y0 w_integ w_full i n
        ++ IntegralPatch_body_accesses x0 y0 w_integ w_full i ((n : Int) + 1)

/-- Accesses of the first `m` iterations of the outer loop. -/
def IntegralPatch_rows_accesses (x0 y0 w_integ w_full : Int) : Nat → List Access
  | 0 => []
  | m + 1 =>
      IntegralPatch_rows_accesses x0 y0 w_integ w_full m
        ++ IntegralPatch_row_accesses x0 y0 w_integ w_full ((m : Int) + 1) (w_integ - 1).toNat

/-- All memory accesses of a call of `IntegralPatch`, in program order. -/
def IntegralPatch_accesses (x0 y0 h_integ w_integ w_full : Int) : List Access :=
  IntegralPatch_rows_accesses x0 y0 w_integ w_full (h_integ - 1).toNat

/-- The access stays inside its array: `img` has `h_full * w_full` samples, each table has
`h_integ * w_integ` cells. -/
def Access.InBounds (h_full w_full h_integ w_integ : Int) : Access → Prop
  | Access.imgRead pos => 0 ≤ pos ∧ pos < h_full * w_full
  | Access.integRead idx => 0 ≤ idx ∧ idx < h_integ * w_integ
  | Access.integWrite idx => 0 ≤ idx ∧ idx < h_integ * w_integ
  | Access.powRead idx => 0 ≤ idx ∧ idx < h_integ * w_integ
  | Access.powWrite idx => 0 ≤ idx ∧ idx < h_integ * w_integ

/-! ## `CalcMeanStd` statement by statement

The body of `CalcMeanStd` (lines 45-64) as a sequence of state transformers, one per statement, on
a machine state that holds the memory behind the two pointer arguments, the locals, and the log of
memory accesses.  The `double` operations are the rounded ones.  Each transformer changes the
components its statement assigns: a statement that stored through one of the pointers would
change the memory component, as the body of `IntegralPatch` does with `store`; the statements of
`CalcMeanStd` assign locals only. -/

/-- Machine state during a call of `CalcMeanStd`: the memory behind `patch_integ` and
`patch_pow_integ`, the nine locals of the body, and the memory accesses performed so far.  On
entry the locals hold whatever the stack frame held before the call. -/
structure EvalState where
  patch_integ : Int → Int
  patch_pow_integ : Int → Int
  ceoff : Dyadic
  d_pos : Int
  a_pos : Int
  b_pos : Int
  c_pos : Int
  s1 : Int
  s2 : Int
  mean : Dyadic
  std : Option Dyadic
  accesses : List Access

/-- Line 45: `double ceoff = 1.0 / (((win_r << 1) + 1) * ((win_r << 1) + 1));`. -/
def CalcMeanStd_line45 (win_r : Int) (st : EvalState) : EvalState :=
  { st with ceoff := roundRatio 1 ((win_r * 2 + 1) * (win_r * 2 + 1)).toNat }

/-- Line 48: `int d_pos = (py + 1 + win_r) * w_integ + (px + 1 + win_r);`. -/
def CalcMeanStd_line48 (w_integ px py win_r : Int) (st : EvalState) : EvalState :=
  { st with d_pos := (py + 1 + win_r) * w_integ + (px + 1 + win_r) }

/-- Line 49: `int a_pos = (py - win_r) * w_integ + (px - win_r);`. -/
def CalcMeanStd_line49 (w_integ px py win_r : Int) (st : EvalState) : EvalState :=
  { st with a_pos := (py - win_r) * w_integ + (px - win_r) }

/-- Line 50: `int b_pos = (py - win_r) * w_integ + (px + 1 + win_r);`. -/
def CalcMeanStd_line50 (w_integ px py win_r : Int) (st : EvalState) : EvalState :=
  { st with b_pos := (py - win_r) * w_integ + (px + 1 + win_r) }

/-- Line 51: `int c_pos = (py + 1 + win_r) * w_integ + (px - win_r);`. -/
def CalcMeanStd_line51 (w_integ px py win_r : Int) (st : EvalState) : EvalState :=
  { st with c_pos := (py + 1 + win_r) * w_integ + (px - win_r) }

/-- Lines 53-56: `long long s1 = patch_integ[d_pos] + patch_integ[a_pos] - patch_integ[b_pos]
- patch_integ[c_pos];`, four loads and three `UINT32_G` operations. -/
def CalcMeanStd_line53 (st : EvalState) : EvalState :=
  { st with
    s1 := wrapU32 (wrapU32 (wrapU32 (st.patch_integ st.d_pos + st.patch_integ st.a_pos)
        - st.patch_integ st.b_pos)
      - st.patch_integ st.c_pos)
    accesses := st.accesses ++ [Access.integRead st.d_pos, Access.integRead st.a_pos,
      Access.integRead st.b_pos, Access.integRead st.c_pos] }

/-- Lines 57-60: `long long s2 = patch_pow_integ[d_pos] + patch_pow_integ[a_pos]
- patch_pow_integ[b_pos] - patch_pow_integ[c_pos];`. -/
def CalcMeanStd_line57 (st : EvalState) : EvalState :=
  { st with
    s2 := wrapU32 (wrapU32 (wrapU32 (st.patch_pow_integ st.d_pos + st.patch_pow_integ st.a_pos)
        - st.patch_pow_integ st.b_pos)
      - st.patch_pow_integ st.c_pos)
    accesses := st.accesses ++ [Access.powRead st.d_pos, Access.powRead st.a_pos,
      Access.powRead st.b_pos, Access.powRead st.c_pos] }

/-- Line 62: `double mean = s1 * ceoff;`. -/
def CalcMeanStd_line62 (st : EvalState) : EvalState :=
  { st with mean := mulD (ofIntD st.s1) st.ceoff }

/-- Line 63: `double std = std::sqrt(ceoff * (s2 - s1 * s1 * ceoff));`. -/
def CalcMeanStd_line63 (st : EvalState) : EvalState :=
  { st with
    std := sqrtD (mulD st.ceoff (subD (ofIntD st.s2) (mulD (ofIntD (st.s1 * st.s1)) st.ceoff))) }

set_option linter.unusedVariables false in
/-- The body of `CalcMeanStd`, lines 45-63 in program order, from the state on entry to the state
at the `return`.  No statement uses `h_integ`. -/
def CalcMeanStd_exec (h_integ w_integ px py win_r : Int) (st : EvalState) : EvalState :=
  CalcMeanStd_line63 (CalcMeanStd_line62 (CalcMeanStd_line57 (CalcMeanStd_line53
    (CalcMeanStd_line51 w_integ px py win_r (CalcMeanStd_line50 w_integ px py win_r
      (CalcMeanStd_line49 w_integ px py win_r (CalcMeanStd_line48 w_integ px py win_r
        (CalcMeanStd_line45 win_r st))))))))

/-- Line 64: `return { mean, std };`. -/
def CalcMeanStd_returned (st : EvalState) : Dyadic × Option Dyadic := (st.mean, st.std)

/-- A state on entry to `CalcMeanStd`: the given tables, every numeric local holding the leftover
value `g`, and the access log `log`. -/
def entryState (T : Tables) (g : Int) (log : List Access) : EvalState :=
  { patch_integ := T.patch_integ
    patch_pow_integ := T.patch_pow_integ
    ceoff := ⟨g, g⟩
    d_pos := g
    a_pos := g
    b_pos := g
    c_pos := g
    s1 := g
    s2 := g
    mean := ⟨g, g⟩
    std := if g = 0 then none else some ⟨g, g⟩
    accesses := log }

/-! ## Further vocabulary of the specification -/

/-- All samples of the window `[px - r, px + r] x [py - r, py + r]` of the patch are equal. -/
def WindowConstant (img : Int → Nat) (x0 y0 w_full px py r : Int) : Prop :=
  ∀ x y u v : Int, px - r ≤ x → x ≤ px + r → py - r ≤ y → y ≤ py + r →
    px - r ≤ u → u ≤ px + r → py - r ≤ v → v ≤ py + r →
    patchSample img x0 y0 w_full x y = patchSample img x0 y0 w_full u v

/-- Two backing buffers agree on every sample of the patch: rows `y0 + 1 .. y0 + H` and columns
`x0 + 1 .. x0 + W`, with `H = h_integ - 1`, `W = w_integ - 1`. -/
def PatchAgree (img1 img2 : Int → Nat) (x0 y0 h_integ w_integ w_full : Int) : Prop :=
  ∀ a b : Int, 1 ≤ a → a ≤ h_integ - 1 → 1 ≤ b → b ≤ w_integ - 1 →
    img1 ((y0 + a) * w_full + x0 + b) = img2 ((y0 + a) * w_full + x0 + b)

/-- Two pairs of tables agree on row `0` and on column `0`. -/
def BorderAgree (T1 T2 : Tables) (h_integ w_integ : Int) : Prop :=
  (∀ j : Int, 0 ≤ j → j < w_integ →
    T1.patch_integ j = T2.patch_integ j ∧ T1.patch_pow_integ j = T2.patch_pow_integ j) ∧
  (∀ i : Int, 0 ≤ i → i < h_integ →
    T1.patch_integ (i * w_integ) = T2.patch_integ (i * w_integ) ∧
    T1.patch_pow_integ (i * w_integ) = T2.patch_pow_integ (i * w_integ))

/-! ## Basic facts on memory and wrapping -/

theorem store_same (t : Int → Int) (k v : Int) : store t k v k = v := by
  simp [store]

theorem store_other (t : Int → Int) (k v q : Int) (h : q ≠ k) : store t k v q = t q := by
  simp [store, h]

theorem wrapU32_nonneg (z : Int) : 0 ≤ wrapU32 z := by
  unfold wrapU32; omega

theorem wrapU32_lt (z : Int) : wrapU32 z < 4294967296 := by
  unfold wrapU32; omega

theorem wrapU32_of_range (z : Int) (h0 : 0 ≤ z) (h1 : z < 4294967296) : wrapU32 z = z := by
  unfold wrapU32; omega

theorem wrapU32_modEq (z : Int) : wrapU32 z ≡ z [ZMOD 4294967296] := by
  unfold wrapU32; exact Int.mod_modEq z 4294967296

theorem wrapU32_congr {x y : Int} (h : x ≡ y [ZMOD 4294967296]) : wrapU32 x = wrapU32 y := h

/-- Three wrapped operations in a row give the wrapped exact value, whatever representatives of
the operands are used. -/
theorem wrap_chain (x a b c A B C : Int) (ha : a ≡ A [ZMOD 4294967296])
    (hb : b ≡ B [ZMOD 4294967296]) (hc : c ≡ C [ZMOD 4294967296]) :
    wrapU32 (wrapU32 (wrapU32 (x + a) + b) - c) = wrapU32 (x + A + B - C) := by
  apply wrapU32_congr
  exact (((wrapU32_modEq _).trans (Int.ModEq.add_left x ha)).add hb |> (wrapU32_modEq _).trans).sub hc

/-- Row-major cell indices are injective as long as the column stays below the stride. -/
theorem idx_inj (w i k j l : Int) (hj : 0 ≤ j) (hjw : j < w) (hl : 0 ≤ l) (hlw : l < w)
    (h : i * w + j = k * w + l) : i = k ∧ j = l := by
  have hik : i = k := by
    by_contra hne
    rcases lt_or_gt_of_ne hne with hlt | hgt
    · have h1 : 1 ≤ k - i := by omega
      have h2 : w ≤ (k - i) * w := by nlinarith
      nlinarith
    · have h1 : 1 ≤ i - k := by omega
      have h2 : w ≤ (i - k) * w := by nlinarith
      nlinarith
  subst hik
  exact ⟨rfl, by omega⟩

/-! ## Frame lemmas: which cells the loops leave alone -/

theorem rowStep_frame (g : Int → Int → Int) (w i : Int) (n : Nat) (t : Int → Int) (q : Int)
    (h : ∀ j : Nat, 1 ≤ j → j ≤ n → q ≠ i * w + (j : Int)) : rowStep g w i n t q = t q := by
  induction n with
  | zero => rfl
  | succ n ih =>
    have hq : q ≠ i * w + ((n : Int) + 1) := by
      have := h (n + 1) (by omega) (by omega)
      push_cast at this
      exact this
    simp only [rowStep, cellStep]
    rw [store_other _ _ _ _ hq]
    exact ih (fun j h1 h2 => h j h1 (by omega))

theorem rowsStep_frame (g : Int → Int → Int) (w : Int) (m : Nat) (t : Int → Int) (q : Int)
    (h : ∀ i j : Nat, 1 ≤ i → i ≤ m → 1 ≤ j → j ≤ (w - 1).toNat → q ≠ (i : Int) * w + (j : Int)) :
    rowsStep g w m t q = t q := by
  induction m with
  | zero => rfl
  | succ m ih =>
    simp only [rowsStep]
    rw [rowStep_frame]
    · exact ih (fun i j h1 h2 h3 h4 => h i j h1 (by omega) h3 h4)
    · intro j h1 h2
      have := h (m + 1) j (by omega) (by omega) h1 h2
      push_cast at this
      exact this

/-! ## The recurrence computes the summed-area function modulo `2^32` -/

/-- One full or partial row: if the row above and the left border cell hold a function `G`
modulo `2^32`, and `G` obeys the summed-area recurrence, the first `n` cells written in row
`k + 1` hold `G` reduced modulo `2^32`. -/
theorem rowStep_value (g : Int → Int → Int) (w : Int) (k : Nat) (G : Nat → Nat → Int)
    (hrec : ∀ j : Nat, G (k + 1) (j + 1)
      = g ((k : Int) + 1) ((j : Int) + 1) + G (k + 1) j + G k (j + 1) - G k j)
    (t : Int → Int) (n : Nat) (hn : (n : Int) < w)
    (hup : ∀ j : Nat, j ≤ n → t ((k : Int) * w + (j : Int)) ≡ G k j [ZMOD 4294967296])
    (hleft : t (((k : Int) + 1) * w) ≡ G (k + 1) 0 [ZMOD 4294967296]) :
    ∀ j : Nat, 1 ≤ j → j ≤ n →
      rowStep g w ((k : Int) + 1) n t (((k : Int) + 1) * w + (j : Int)) = wrapU32 (G (k + 1) j) := by
  induction n with
  | zero => intro j h1 h2; omega
  | succ n ih =>
    have hn1 : (n : Int) + 1 < w := by push_cast at hn; exact hn
    have ih1 := ih (by omega) (fun j hj => hup j (by omega))
    have habove : ∀ l : Nat, l ≤ n + 1 →
        rowStep g w ((k : Int) + 1) n t ((k : Int) * w + (l : Int)) ≡ G k l [ZMOD 4294967296] := by
      intro l hl
      rw [rowStep_frame]
      · exact hup l hl
      · intro j _ hj2 heq
        have : ((k : Int) + 1) * w = (k : Int) * w + w := by ring
        rw [this] at heq
        omega
    have hprev : rowStep g w ((k : Int) + 1) n t (((k : Int) + 1) * w + (n : Int))
        ≡ G (k + 1) n [ZMOD 4294967296] := by
      rcases Nat.eq_zero_or_pos n with h0 | hpos
      · subst h0
        simpa [rowStep] using hleft
      · rw [ih1 n hpos le_rfl]
        exact wrapU32_modEq _
    intro j h1 h2
    simp only [rowStep, cellStep]
    rcases Nat.lt_or_ge j (n + 1) with hlt | hge
    · have hne : ((k : Int) + 1) * w + (j : Int) ≠ ((k : Int) + 1) * w + ((n : Int) + 1) := by
        omega
      rw [store_other _ _ _ _ hne]
      exact ih1 j h1 (by omega)
    · have hj : j = n + 1 := by omega
      subst hj
      push_cast
      rw [store_same]
      have e1 : ((k : Int) + 1) * w + ((n : Int) + 1) - 1 = ((k : Int) + 1) * w + (n : Int) := by
        ring
      have e2 : ((k : Int) + 1 - 1) * w + ((n : Int) + 1)
          = (k : Int) * w + ((n + 1 : Nat) : Int) := by push_cast; ring
      have e3 : ((k : Int) + 1 - 1) * w + ((n : Int) + 1) - 1 = (k : Int) * w + (n : Int) := by
        ring
      rw [e1, e3, e2, wrap_chain _ _ _ _ _ _ _ hprev (habove (n + 1) le_rfl) (habove n (by omega)),
        hrec n]

/-- All rows: if the top row and the left column of the table on entry hold `G` modulo `2^32`
and `G` obeys the summed-area recurrence, then after `m` rows every written cell `(i, j)` holds
`G i j` reduced modulo `2^32`. -/
theorem rowsStep_value (g : Int → Int → Int) (w : Int) (G : Nat → Nat → Int)
    (hrec : ∀ i j : Nat, G (i + 1) (j + 1)
      = g ((i : Int) + 1) ((j : Int) + 1) + G (i + 1) j + G i (j + 1) - G i j)
    (t : Int → Int) (m : Nat)
    (htop : ∀ j : Nat, (j : Int) < w → t (j : Int) ≡ G 0 j [ZMOD 4294967296])
    (hleft : ∀ i : Nat, i ≤ m → t ((i : Int) * w) ≡ G i 0 [ZMOD 4294967296]) :
    ∀ i j : Nat, 1 ≤ i → i ≤ m → 1 ≤ j → (j : Int) < w →
      rowsStep g w m t ((i : Int) * w + (j : Int)) = wrapU32 (G i j) := by
  induction m with
  | zero => intro i j h1 h2; omega
  | succ m ih =>
    have ih1 := ih (fun i hi => hleft i (by omega))
    intro i j hi1 hi2 hj1 hjw
    have hW : ((w - 1).toNat : Int) = w - 1 := Int.toNat_of_nonneg (by omega)
    simp only [rowsStep]
    rcases Nat.lt_or_ge i (m + 1) with hlt | hge
    · rw [rowStep_frame]
      · exact ih1 i j hi1 (by omega) hj1 hjw
      · intro l hl1 hl2 heq
        have hl : (l : Int) < w := by omega
        have := (idx_inj w (i : Int) ((m : Int) + 1) (j : Int) (l : Int) (by omega) hjw
          (by omega) hl heq).1
        omega
    · have him : i = m + 1 := by omega
      subst him
      have key := rowStep_value g w m G (hrec m) (rowsStep g w m t) (w - 1).toNat (by omega)
        (by
          intro l hl
          have hlw : (l : Int) < w := by omega
          rcases Nat.eq_zero_or_pos m with h0 | hmpos
          · subst h0
            simpa [rowsStep] using htop l hlw
          · rcases Nat.eq_zero_or_pos l with hl0 | hlpos
            · subst hl0
              rw [rowsStep_frame]
              · simpa using hleft m (by omega)
              · intro a b _ _ hb1 hb2 heq
                have := (idx_inj w (m : Int) (a : Int) (0 : Int) (b : Int) le_rfl (by omega)
                  (by omega) (by omega) (by simpa using heq)).2
                omega
            · rw [ih1 m l hmpos le_rfl hlpos hlw]
              exact wrapU32_modEq _)
        (by
          rw [rowsStep_frame]
          · simpa using hleft (m + 1) le_rfl
          · intro a b _ _ hb1 hb2 heq
            have := (idx_inj w ((m : Int) + 1) (a : Int) (0 : Int) (b : Int) le_rfl (by omega)
              (by omega) (by omega) (by simpa using heq)).2
            omega)
      have := key j hj1 (by omega)
      push_cast
      exact this

/-! ## Brute-force sums -/

theorem rectSum_zero_left (f : Nat → Nat → Int) (j : Nat) : rectSum f 0 j = 0 := by
  simp [rectSum]

theorem rectSum_zero_right (f : Nat → Nat → Int) (i : Nat) : rectSum f i 0 = 0 := by
  simp [rectSum]

/-- The summed-area recurrence, on exact integers. -/
theorem rectSum_rec (f : Nat → Nat → Int) (i j : Nat) :
    rectSum f (i + 1) (j + 1) = f i j + rectSum f (i + 1) j + rectSum f i (j + 1) - rectSum f i j := by
  simp only [rectSum, Finset.sum_range_succ, Finset.sum_add_distrib]
  ring

theorem rectSum_nonneg (f : Nat → Nat → Int) (hf : ∀ a b, 0 ≤ f a b) (i j : Nat) :
    0 ≤ rectSum f i j :=
  Finset.sum_nonneg (fun a _ => Finset.sum_nonneg (fun b _ => hf a b))

theorem rectSum_le_const (f : Nat → Nat → Int) (c : Int) (hf : ∀ a b, f a b ≤ c) (i j : Nat) :
    rectSum f i j ≤ c * i * j := by
  have h1 : ∀ a, ∑ b ∈ Finset.range j, f a b ≤ c * j := by
    intro a
    calc ∑ b ∈ Finset.range j, f a b ≤ ∑ _b ∈ Finset.range j, c :=
          Finset.sum_le_sum (fun b _ => hf a b)
      _ = c * j := by simp [mul_comm]
  calc rectSum f i j ≤ ∑ _a ∈ Finset.range i, c * (j : Int) :=
        Finset.sum_le_sum (fun a _ => h1 a)
    _ = c * i * j := by simp; ring

theorem rectSum_mono (f : Nat → Nat → Int) (hf : ∀ a b, 0 ≤ f a b) {i j k l : Nat}
    (hik : i ≤ k) (hjl : j ≤ l) : rectSum f i j ≤ rectSum f k l := by
  unfold rectSum
  calc ∑ a ∈ Finset.range i, ∑ b ∈ Finset.range j, f a b
      ≤ ∑ a ∈ Finset.range i, ∑ b ∈ Finset.range l, f a b :=
        Finset.sum_le_sum (fun a _ => Finset.sum_le_sum_of_subset_of_nonneg
          (Finset.range_mono hjl) (fun b _ _ => hf a b))
    _ ≤ ∑ a ∈ Finset.range k, ∑ b ∈ Finset.range l, f a b :=
        Finset.sum_le_sum_of_subset_of_nonneg (Finset.range_mono hik)
          (fun a _ _ => Finset.sum_nonneg (fun b _ => hf a b))

theorem rectSum_le_of_le (f g : Nat → Nat → Int) (hfg : ∀ a b, f a b ≤ g a b) (i j : Nat) :
    rectSum f i j ≤ rectSum g i j :=
  Finset.sum_le_sum (fun a _ => Finset.sum_le_sum (fun b _ => hfg a b))

/-- Inclusion-exclusion on the summed-area function: four corners give the sum over the
rectangle of rows `i .. i + n - 1` and columns `j .. j + m - 1`. -/
theorem rectSum_corners (f : Nat → Nat → Int) (i j n m : Nat) :
    rectSum f (i + n) (j + m) + rectSum f i j - rectSum f i (j + m) - rectSum f (i + n) j
      = ∑ a ∈ Finset.range n, ∑ b ∈ Finset.range m, f (i + a) (j + b) := by
  simp only [rectSum, Finset.sum_range_add, Finset.sum_add_distrib]
  ring

theorem sum_Icc_one_eq_range (F : Nat → Int) (n : Nat) :
    ∑ a ∈ Finset.Icc 1 n, F a = ∑ a ∈ Finset.range n, F (a + 1) := by
  induction n with
  | zero => simp
  | succ n ih => rw [Finset.sum_Icc_succ_top (by omega), Finset.sum_range_succ, ih]

theorem sum_IccInt_eq_range (F : Int → Int) (lo : Int) (n : Nat) :
    ∑ y ∈ Finset.Icc lo (lo + n - 1), F y = ∑ a ∈ Finset.range n, F (lo + (a : Int)) := by
  rw [Int.Icc_eq_finset_map, Finset.sum_map]
  have : (lo + (n : Int) - 1 + 1 - lo).toNat = n := by
    have : lo + (n : Int) - 1 + 1 - lo = (n : Int) := by ring
    rw [this]; exact Int.toNat_natCast n
  rw [this]
  apply Finset.sum_congr rfl
  intro a _
  simp

/-! ## The tables of `IntegralPatch`, one at a time -/

theorem IntegralPatch_row_integ (img : Int → Nat) (x0 y0 w_integ w_full i : Int) (n : Nat)
    (T : Tables) :
    (IntegralPatch_row img x0 y0 w_integ w_full i n T).patch_integ
      = rowStep (sampleTerm img x0 y0 w_full) w_integ i n T.patch_integ := by
  induction n with
  | zero => rfl
  | succ n ih => simp only [IntegralPatch_row, IntegralPatch_body, rowStep, cellStep, sampleTerm, ih]

theorem IntegralPatch_row_pow (img : Int → Nat) (x0 y0 w_integ w_full i : Int) (n : Nat)
    (T : Tables) :
    (IntegralPatch_row img x0 y0 w_integ w_full i n T).patch_pow_integ
      = rowStep (sampleSqTerm img x0 y0 w_full) w_integ i n T.patch_pow_integ := by
  induction n with
  | zero => rfl
  | succ n ih =>
    simp only [IntegralPatch_row, IntegralPatch_body, rowStep, cellStep, sampleSqTerm, ih]

theorem IntegralPatch_rows_integ (img : Int → Nat) (x0 y0 w_integ w_full : Int) (m : Nat)
    (T : Tables) :
    (IntegralPatch_rows img x0 y0 w_integ w_full m T).patch_integ
      = rowsStep (sampleTerm img x0 y0 w_full) w_integ m T.patch_integ := by
  induction m with
  | zero => rfl
  | succ m ih => simp only [IntegralPatch_rows, rowsStep, IntegralPatch_row_integ, ih]

theorem IntegralPatch_rows_pow (img : Int → Nat) (x0 y0 w_integ w_full : Int) (m : Nat)
    (T : Tables) :
    (IntegralPatch_rows img x0 y0 w_integ w_full m T).patch_pow_integ
      = rowsStep (sampleSqTerm img x0 y0 w_full) w_integ m T.patch_pow_integ := by
  induction m with
  | zero => rfl
  | succ m ih => simp only [IntegralPatch_rows, rowsStep, IntegralPatch_row_pow, ih]

theorem IntegralPatch_integ (img : Int → Nat) (T : Tables) (x0 y0 h_integ w_integ w_full : Int) :
    (IntegralPatch img T x0 y0 h_integ w_integ w_full).patch_integ
      = rowsStep (sampleTerm img x0 y0 w_full) w_integ (h_integ - 1).toNat T.patch_integ :=
  IntegralPatch_rows_integ img x0 y0 w_integ w_full _ T

theorem IntegralPatch_pow (img : Int → Nat) (T : Tables) (x0 y0 h_integ w_integ w_full : Int) :
    (IntegralPatch img T x0 y0 h_integ w_integ w_full).patch_pow_integ
      = rowsStep (sampleSqTerm img x0 y0 w_full) w_integ (h_integ - 1).toNat T.patch_pow_integ :=
  IntegralPatch_rows_pow img x0 y0 w_integ w_full _ T

theorem prefixSum_eq_rectSum (img : Int → Nat) (x0 y0 w_full : Int) (i j : Nat) :
    prefixSum img x0 y0 w_full i j
      = rectSum (fun a b => sampleTerm img x0 y0 w_full ((a : Int) + 1) ((b : Int) + 1)) i j := by
  unfold prefixSum rectSum patchSample sampleTerm
  apply Finset.sum_congr rfl; intro a _
  apply Finset.sum_congr rfl; intro b _
  congr 2; ring

theorem prefixSumSq_eq_rectSum (img : Int → Nat) (x0 y0 w_full : Int) (i j : Nat) :
    prefixSumSq img x0 y0 w_full i j
      = rectSum (fun a b => sampleSqTerm img x0 y0 w_full ((a : Int) + 1) ((b : Int) + 1)) i j := by
  unfold prefixSumSq rectSum patchSample sampleSqTerm
  apply Finset.sum_congr rfl; intro a _
  apply Finset.sum_congr rfl; intro b _
  have e : (y0 + 1 + (a : Int)) * w_full + x0 + 1 + (b : Int)
      = (y0 + ((a : Int) + 1)) * w_full + x0 + ((b : Int) + 1) := by ring
  rw [e]

/-! ## Cells of the built tables -/

/-- Flat indices of table cells stay inside the table. -/
theorem idx_bounds (h w i j : Int) (hi0 : 0 ≤ i) (hi : i ≤ h - 1) (hj0 : 0 ≤ j) (hj : j ≤ w - 1) :
    0 ≤ i * w + j ∧ i * w + j < h * w := by
  have hw : 0 ≤ w := by omega
  have h1 : 0 ≤ i * w := mul_nonneg hi0 hw
  have h2 : i * w ≤ (h - 1) * w := mul_le_mul_of_nonneg_right hi hw
  have h3 : (h - 1) * w = h * w - w := by ring
  constructor
  · omega
  · omega

/-- The loops never write a cell of row `0` or column `0`. -/
theorem rowsStep_border (g : Int → Int → Int) (w : Int) (m : Nat) (t : Int → Int) (i j : Int)
    (hj0 : 0 ≤ j) (hjw : j < w) (hb : i = 0 ∨ j = 0) :
    rowsStep g w m t (i * w + j) = t (i * w + j) := by
  apply rowsStep_frame
  intro a b ha1 _ hb1 hb2 heq
  have hbw : (b : Int) < w := by omega
  have := idx_inj w i (a : Int) j (b : Int) hj0 hjw (by omega) hbw heq
  omega

/-- With a zero table on entry, every cell of the table holds on return the brute-force sum of
the sample terms above and to the left of it, reduced modulo `2^32`. -/
theorem rowsStep_zero_border (g : Int → Int → Int) (h w : Int) (t : Int → Int)
    (hz : ∀ q : Int, 0 ≤ q → q < h * w → t q = 0) (i j : Nat)
    (hi : (i : Int) ≤ h - 1) (hj : (j : Int) ≤ w - 1) :
    rowsStep g w (h - 1).toNat t ((i : Int) * w + (j : Int))
      = wrapU32 (rectSum (fun a b => g ((a : Int) + 1) ((b : Int) + 1)) i j) := by
  have hcell : ∀ a b : Nat, (a : Int) ≤ h - 1 → (b : Int) ≤ w - 1 →
      t ((a : Int) * w + (b : Int)) = 0 := by
    intro a b ha hb
    have := idx_bounds h w a b (by omega) ha (by omega) hb
    exact hz _ this.1 this.2
  rcases Nat.eq_zero_or_pos i with hi0 | hipos
  · subst hi0
    rw [rowsStep_border g w _ t _ _ (by omega) (by omega) (Or.inl (by simp)), hcell 0 j hi hj,
      rectSum_zero_left]
    rfl
  rcases Nat.eq_zero_or_pos j with hj0 | hjpos
  · subst hj0
    rw [rowsStep_border g w _ t _ _ (by simp) (by omega) (Or.inr (by simp)), hcell i 0 hi hj,
      rectSum_zero_right]
    rfl
  have hH : (((h - 1).toNat : Nat) : Int) = h - 1 := Int.toNat_of_nonneg (by omega)
  exact rowsStep_value g w (rectSum (fun a b => g ((a : Int) + 1) ((b : Int) + 1)))
    (fun a b => rectSum_rec _ a b) t (h - 1).toNat
    (by
      intro b hb
      have := hcell 0 b (by omega) (by omega)
      simp only [Nat.cast_zero, zero_mul, zero_add] at this
      rw [this, rectSum_zero_left])
    (by
      intro a ha
      have := hcell a 0 (by omega) (by omega)
      simp only [Nat.cast_zero, add_zero] at this
      rw [this, rectSum_zero_right])
    i j hipos (by omega) hjpos (by omega)

/-- Every cell of the tables built from zero-initialised tables holds the brute-force prefix sum
(resp. sum of squares) of the patch, reduced modulo `2^32`. -/
theorem IntegralPatch_cell_mod (img : Int → Nat) (T : Tables) (x0 y0 h_integ w_integ w_full : Int)
    (hz : ZeroInit T h_integ w_integ) (i j : Nat)
    (hi : (i : Int) ≤ h_integ - 1) (hj : (j : Int) ≤ w_integ - 1) :
    (IntegralPatch img T x0 y0 h_integ w_integ w_full).patch_integ ((i : Int) * w_integ + (j : Int))
        = wrapU32 (prefixSum img x0 y0 w_full i j) ∧
    (IntegralPatch img T x0 y0 h_integ w_integ w_full).patch_pow_integ
        ((i : Int) * w_integ + (j : Int))
        = wrapU32 (prefixSumSq img x0 y0 w_full i j) := by
  rw [IntegralPatch_integ, IntegralPatch_pow, prefixSum_eq_rectSum, prefixSumSq_eq_rectSum]
  exact ⟨rowsStep_zero_border _ h_integ w_integ _ (fun q h0 h1 => (hz q h0 h1).1) i j hi hj,
    rowsStep_zero_border _ h_integ w_integ _ (fun q h0 h1 => (hz q h0 h1).2) i j hi hj⟩

theorem zeroTables_zeroInit (h_integ w_integ : Int) : ZeroInit zeroTables h_integ w_integ :=
  fun _ _ _ => ⟨rfl, rfl⟩

theorem patchSample_nonneg (img : Int → Nat) (x0 y0 w_full x y : Int) :
    0 ≤ patchSample img x0 y0 w_full x y := by
  unfold patchSample; exact Int.natCast_nonneg _

theorem prefixSum_nonneg (img : Int → Nat) (x0 y0 w_full : Int) (i j : Nat) :
    0 ≤ prefixSum img x0 y0 w_full i j :=
  rectSum_nonneg _ (fun _ _ => patchSample_nonneg _ _ _ _ _ _) i j

theorem prefixSumSq_nonneg (img : Int → Nat) (x0 y0 w_full : Int) (i j : Nat) :
    0 ≤ prefixSumSq img x0 y0 w_full i j :=
  rectSum_nonneg _ (fun _ _ => mul_self_nonneg _) i j

/-- A sum of natural-number samples is at most the sum of their squares. -/
theorem prefixSum_le_prefixSumSq (img : Int → Nat) (x0 y0 w_full : Int) (i j : Nat) :
    prefixSum img x0 y0 w_full i j ≤ prefixSumSq img x0 y0 w_full i j := by
  apply rectSum_le_of_le
  intro a b
  unfold patchSample
  have h0 : (0 : Int) ≤ (img ((y0 + 1 + (b : Int)) * w_full + x0 + 1 + (a : Int)) : Int) :=
    Int.natCast_nonneg _
  nlinarith

theorem prefixSumSq_mono (img : Int → Nat) (x0 y0 w_full : Int) {i j k l : Nat}
    (hik : i ≤ k) (hjl : j ≤ l) :
    prefixSumSq img x0 y0 w_full i j ≤ prefixSumSq img x0 y0 w_full k l :=
  rectSum_mono _ (fun _ _ => mul_self_nonneg _) hik hjl

theorem prefixSum_mono (img : Int → Nat) (x0 y0 w_full : Int) {i j k l : Nat}
    (hik : i ≤ k) (hjl : j ≤ l) :
    prefixSum img x0 y0 w_full i j ≤ prefixSum img x0 y0 w_full k l :=
  rectSum_mono _ (fun _ _ => patchSample_nonneg _ _ _ _ _ _) hik hjl

/-- Tables built from zero-initialised tables without overflow hold the exact prefix sums. -/
theorem IntegralPatch_cell_exact (img : Int → Nat) (T : Tables)
    (x0 y0 h_integ w_integ w_full : Int) (hz : ZeroInit T h_integ w_integ)
    (hno : NoOverflow img x0 y0 w_full (h_integ - 1).toNat (w_integ - 1).toNat) (i j : Nat)
    (hi : (i : Int) ≤ h_integ - 1) (hj : (j : Int) ≤ w_integ - 1) :
    (IntegralPatch img T x0 y0 h_integ w_integ w_full).patch_integ ((i : Int) * w_integ + (j : Int))
        = prefixSum img x0 y0 w_full i j ∧
    (IntegralPatch img T x0 y0 h_integ w_integ w_full).patch_pow_integ
        ((i : Int) * w_integ + (j : Int))
        = prefixSumSq img x0 y0 w_full i j := by
  have hmod := IntegralPatch_cell_mod img T x0 y0 h_integ w_integ w_full hz i j hi hj
  have hle : prefixSumSq img x0 y0 w_full i j < 4294967296 :=
    lt_of_le_of_lt (prefixSumSq_mono img x0 y0 w_full (by omega) (by omega)) hno
  have h1 := prefixSum_le_prefixSumSq img x0 y0 w_full i j
  rw [hmod.1, hmod.2,
    wrapU32_of_range _ (prefixSum_nonneg img x0 y0 w_full i j) (by omega),
    wrapU32_of_range _ (prefixSumSq_nonneg img x0 y0 w_full i j) hle]
  exact ⟨rfl, rfl⟩

/-- The sizing rule of the specification (`65025 * H * W` fits 32 bits, samples are 8-bit)
rules out overflow. -/
theorem noOverflow_of_size (img : Int → Nat) (x0 y0 w_full : Int) (H W : Nat)
    (h8 : ∀ p : Int, img p ≤ 255) (hov : 65025 * (H : Int) * (W : Int) < 4294967296) :
    NoOverflow img x0 y0 w_full H W := by
  unfold NoOverflow
  refine lt_of_le_of_lt ?_ hov
  apply rectSum_le_const
  intro a b
  unfold patchSample
  have h1 : (img ((y0 + 1 + (a : Int)) * w_full + x0 + 1 + (b : Int)) : Int) ≤ 255 := by
    exact_mod_cast h8 _
  have h0 : (0 : Int) ≤ (img ((y0 + 1 + (a : Int)) * w_full + x0 + 1 + (b : Int)) : Int) :=
    Int.natCast_nonneg _
  nlinarith

/-! ## The four-corner lookup -/

theorem cornerSum_wrap (t : Int → Int) (w_integ px py win_r : Int) :
    cornerSum t w_integ px py win_r
      = wrapU32 (t (d_pos w_integ px py win_r) + t (a_pos w_integ px py win_r)
          - t (b_pos w_integ px py win_r) - t (c_pos w_integ px py win_r)) := by
  unfold cornerSum
  apply wrapU32_congr
  exact (((wrapU32_modEq _).trans ((wrapU32_modEq _).sub_right _))).sub_right _

/-- Brute-force sum over a window, written with the summed-area function at the four corners. -/
theorem window_corners (F : Int → Int → Int) (px py r : Int) (hr : 0 ≤ r) (hx : 0 ≤ px - r)
    (hy : 0 ≤ py - r) :
    ∑ y ∈ Finset.Icc (py - r) (py + r), ∑ x ∈ Finset.Icc (px - r) (px + r), F x y
      = rectSum (fun a b => F b a) (py + 1 + r).toNat (px + 1 + r).toNat
        + rectSum (fun a b => F b a) (py - r).toNat (px - r).toNat
        - rectSum (fun a b => F b a) (py - r).toNat (px + 1 + r).toNat
        - rectSum (fun a b => F b a) (py + 1 + r).toNat (px - r).toNat := by
  obtain ⟨n, hn⟩ : ∃ n : Nat, (n : Int) = 2 * r + 1 := ⟨(2 * r + 1).toNat, Int.toNat_of_nonneg (by omega)⟩
  obtain ⟨i, hi⟩ : ∃ i : Nat, (i : Int) = py - r := ⟨(py - r).toNat, Int.toNat_of_nonneg hy⟩
  obtain ⟨j, hj⟩ : ∃ j : Nat, (j : Int) = px - r := ⟨(px - r).toNat, Int.toNat_of_nonneg hx⟩
  have e1 : py + r = (py - r) + (n : Int) - 1 := by omega
  have e2 : px + r = (px - r) + (n : Int) - 1 := by omega
  have e3 : (py + 1 + r).toNat = i + n := by omega
  have e4 : (px + 1 + r).toNat = j + n := by omega
  have e5 : (py - r).toNat = i := by omega
  have e6 : (px - r).toNat = j := by omega
  rw [e3, e4, e5, e6, rectSum_corners, e1, sum_IccInt_eq_range]
  apply Finset.sum_congr rfl
  intro a _
  rw [e2, sum_IccInt_eq_range]
  apply Finset.sum_congr rfl
  intro b _
  rw [← hi, ← hj]
  push_cast
  rfl

theorem IntegralPatch_summedArea (img : Int → Nat) (T : Tables)
    (x0 y0 h_integ w_integ w_full : Int) (hz : ZeroInit T h_integ w_integ)
    (hno : NoOverflow img x0 y0 w_full (h_integ - 1).toNat (w_integ - 1).toNat) :
    SummedArea img x0 y0 w_full (IntegralPatch img T x0 y0 h_integ w_integ w_full).patch_integ
      (IntegralPatch img T x0 y0 h_integ w_integ w_full).patch_pow_integ h_integ w_integ := by
  intro i j hi hj
  have hex := IntegralPatch_cell_exact img T x0 y0 h_integ w_integ w_full hz hno i j hi hj
  have hle : prefixSumSq img x0 y0 w_full i j < 4294967296 :=
    lt_of_le_of_lt (prefixSumSq_mono img x0 y0 w_full (by omega) (by omega)) hno
  have h1 := prefixSum_le_prefixSumSq img x0 y0 w_full i j
  rw [hex.1, hex.2]
  exact ⟨⟨rfl, by omega⟩, ⟨rfl, hle⟩⟩

/-- Four-corner lookup in a table that holds a non-negative summed-area function without
overflow: the unsigned 32-bit result is the exact window sum. -/
theorem cornerSum_of_table (F : Int → Int → Int) (hF : ∀ x y, 0 ≤ F x y) (t : Int → Int)
    (h_integ w_integ px py win_r : Int)
    (htab : ∀ i j : Nat, (i : Int) ≤ h_integ - 1 → (j : Int) ≤ w_integ - 1 →
      t ((i : Int) * w_integ + (j : Int)) = rectSum (fun a b => F b a) i j ∧
      t ((i : Int) * w_integ + (j : Int)) < 4294967296)
    (hv : ValidWindow h_integ w_integ px py win_r) :
    cornerSum t w_integ px py win_r
      = ∑ y ∈ Finset.Icc (py - win_r) (py + win_r), ∑ x ∈ Finset.Icc (px - win_r) (px + win_r),
          F x y := by
  obtain ⟨hr, hx, hy, hxw, hyh⟩ := hv
  have hnn : ∀ a b : Nat, 0 ≤ (fun a b : Nat => F b a) a b := fun a b => hF _ _
  have hD := htab (py + 1 + win_r).toNat (px + 1 + win_r).toNat (by omega) (by omega)
  have hA := htab (py - win_r).toNat (px - win_r).toNat (by omega) (by omega)
  have hB := htab (py - win_r).toNat (px + 1 + win_r).toNat (by omega) (by omega)
  have hC := htab (py + 1 + win_r).toNat (px - win_r).toNat (by omega) (by omega)
  have c1 : (((py + 1 + win_r).toNat : Nat) : Int) = py + 1 + win_r :=
    Int.toNat_of_nonneg (by omega)
  have c2 : (((px + 1 + win_r).toNat : Nat) : Int) = px + 1 + win_r :=
    Int.toNat_of_nonneg (by omega)
  have c3 : (((py - win_r).toNat : Nat) : Int) = py - win_r := Int.toNat_of_nonneg hy
  have c4 : (((px - win_r).toNat : Nat) : Int) = px - win_r := Int.toNat_of_nonneg hx
  rw [c1, c2] at hD
  rw [c3, c4] at hA
  rw [c3, c2] at hB
  rw [c1, c4] at hC
  have hwin := window_corners F px py win_r hr hx hy
  have h0 : 0 ≤ ∑ y ∈ Finset.Icc (py - win_r) (py + win_r),
      ∑ x ∈ Finset.Icc (px - win_r) (px + win_r), F x y :=
    Finset.sum_nonneg (fun y _ => Finset.sum_nonneg (fun x _ => hF x y))
  have hAB : rectSum (fun a b => F b a) (py - win_r).toNat (px - win_r).toNat
      ≤ rectSum (fun a b => F b a) (py - win_r).toNat (px + 1 + win_r).toNat :=
    rectSum_mono _ hnn le_rfl (by omega)
  have hC0 : 0 ≤ rectSum (fun a b => F b a) (py + 1 + win_r).toNat (px - win_r).toNat :=
    rectSum_nonneg _ hnn _ _
  rw [cornerSum_wrap]
  unfold d_pos a_pos b_pos c_pos
  rw [hD.1, hA.1, hB.1, hC.1, ← hwin]
  have hDlt := hD.2
  rw [hD.1] at hDlt
  exact wrapU32_of_range _ h0 (by omega)

/-- In tables that follow the summed-area convention, `s1` and `s2` are the brute-force sum and
sum of squares of the window. -/
theorem cornerSums_of_summedArea (img : Int → Nat) (x0 y0 w_full : Int) (t1 t2 : Int → Int)
    (h_integ w_integ px py win_r : Int)
    (hsa : SummedArea img x0 y0 w_full t1 t2 h_integ w_integ)
    (hv : ValidWindow h_integ w_integ px py win_r) :
    CalcMeanStd_s1 t1 w_integ px py win_r = windowSum img x0 y0 w_full px py win_r ∧
    CalcMeanStd_s2 t2 w_integ px py win_r = windowSumSq img x0 y0 w_full px py win_r := by
  constructor
  · exact cornerSum_of_table (fun x y => patchSample img x0 y0 w_full x y)
      (fun x y => patchSample_nonneg img x0 y0 w_full x y) t1 h_integ w_integ px py win_r
      (fun i j hi hj => (hsa i j hi hj).1) hv
  · exact cornerSum_of_table
      (fun x y => patchSample img x0 y0 w_full x y * patchSample img x0 y0 w_full x y)
      (fun x y => mul_self_nonneg _) t2 h_integ w_integ px py win_r
      (fun i j hi hj => (hsa i j hi hj).2) hv

/-- Cauchy-Schwarz on a window: the square of the sum of the samples is at most the pixel
count times the sum of their squares. -/
theorem windowSum_sq_le (img : Int → Nat) (x0 y0 w_full px py r : Int) (hr : 0 ≤ r) :
    windowSum img x0 y0 w_full px py r * windowSum img x0 y0 w_full px py r
      ≤ (2 * r + 1) * (2 * r + 1) * windowSumSq img x0 y0 w_full px py r := by
  unfold windowSum windowSumSq
  rw [← Finset.sum_product', ← Finset.sum_product']
  have hcs := sq_sum_le_card_mul_sum_sq
    (s := Finset.Icc (py - r) (py + r) ×ˢ Finset.Icc (px - r) (px + r))
    (f := fun p : Int × Int => patchSample img x0 y0 w_full p.2 p.1)
  have hcard : ((Finset.Icc (py - r) (py + r) ×ˢ Finset.Icc (px - r) (px + r)).card : Int)
      = (2 * r + 1) * (2 * r + 1) := by
    rw [Finset.card_product, Int.card_Icc, Int.card_Icc]
    push_cast
    rw [Int.toNat_of_nonneg (by omega), Int.toNat_of_nonneg (by omega)]
    ring
  rw [hcard] at hcs
  simp only [sq] at hcs
  exact hcs

/-- The returned pair in terms of the two integer sums: when `s1^2 ≤ n * s2` (`n = (2 r + 1)^2`),
`mean = s1 / n` and `std` is the number `sqrt (s2 / n - (s1 / n)^2)`. -/
theorem CalcMeanStd_of_sums (t1 t2 : Int → Int) (h_integ w_integ px py win_r S Q : Int)
    (hS : CalcMeanStd_s1 t1 w_integ px py win_r = S)
    (hQ : CalcMeanStd_s2 t2 w_integ px py win_r = Q)
    (hvar : S * S ≤ (2 * win_r + 1) * (2 * win_r + 1) * Q) :
    CalcMeanStd t1 t2 h_integ w_integ px py win_r
      = ((S : ℝ) / (2 * (win_r : ℝ) + 1) ^ 2,
          some (Real.sqrt ((Q : ℝ) / (2 * (win_r : ℝ) + 1) ^ 2
            - ((S : ℝ) / (2 * (win_r : ℝ) + 1) ^ 2) ^ 2))) := by
  have hn : (2 * (win_r : ℝ) + 1) ≠ 0 := by
    have : (2 * win_r + 1 : Int) ≠ 0 := by omega
    exact_mod_cast this
  have hn2 : (2 * (win_r : ℝ) + 1) ^ 2 ≠ 0 := pow_ne_zero 2 hn
  have hpos : 0 < (2 * (win_r : ℝ) + 1) ^ 2 := lt_of_le_of_ne (sq_nonneg _) (Ne.symm hn2)
  have hc : ((ceoff win_r : ℚ) : ℝ) = ((2 * (win_r : ℝ) + 1) ^ 2)⁻¹ := by
    unfold ceoff winArea
    push_cast
    rw [one_div]
    congr 1
    ring
  have hvarR : (S : ℝ) * (S : ℝ) ≤ (2 * (win_r : ℝ) + 1) ^ 2 * (Q : ℝ) := by
    have : ((S * S : Int) : ℝ) ≤ (((2 * win_r + 1) * (2 * win_r + 1) * Q : Int) : ℝ) := by
      exact_mod_cast hvar
    push_cast at this
    rw [sq]
    exact this
  have harg : ((2 * (win_r : ℝ) + 1) ^ 2)⁻¹
        * ((Q : ℝ) - (S : ℝ) * (S : ℝ) * ((2 * (win_r : ℝ) + 1) ^ 2)⁻¹)
      = (Q : ℝ) / (2 * (win_r : ℝ) + 1) ^ 2 - ((S : ℝ) / (2 * (win_r : ℝ) + 1) ^ 2) ^ 2 := by
    field_simp
    ring
  have hnonneg : 0 ≤ (Q : ℝ) / (2 * (win_r : ℝ) + 1) ^ 2
      - ((S : ℝ) / (2 * (win_r : ℝ) + 1) ^ 2) ^ 2 := by
    have e : (Q : ℝ) / (2 * (win_r : ℝ) + 1) ^ 2 - ((S : ℝ) / (2 * (win_r : ℝ) + 1) ^ 2) ^ 2
        = ((2 * (win_r : ℝ) + 1) ^ 2 * (Q : ℝ) - (S : ℝ) * (S : ℝ))
          / ((2 * (win_r : ℝ) + 1) ^ 2) ^ 2 := by
      field_simp
      ring
    rw [e]
    exact div_nonneg (by linarith) (sq_nonneg _)
  unfold CalcMeanStd CalcMeanStd_mean CalcMeanStd_var sqrtDouble
  rw [hS, hQ]
  push_cast
  rw [hc, harg, if_pos hnonneg]
  exact Prod.ext (div_eq_mul_inv _ _).symm rfl

theorem prefixSum_eq_Icc (img : Int → Nat) (x0 y0 w_full : Int) (i j : Nat) :
    prefixSum img x0 y0 w_full i j
      = ∑ a ∈ Finset.Icc 1 i, ∑ b ∈ Finset.Icc 1 j,
          (img ((y0 + (a : Int)) * w_full + x0 + (b : Int)) : Int) := by
  unfold prefixSum patchSample
  rw [sum_Icc_one_eq_range]
  apply Finset.sum_congr rfl; intro a _
  rw [sum_Icc_one_eq_range]
  apply Finset.sum_congr rfl; intro b _
  have e : (y0 + 1 + (a : Int)) * w_full + x0 + 1 + (b : Int)
      = (y0 + ((a + 1 : Nat) : Int)) * w_full + x0 + ((b + 1 : Nat) : Int) := by push_cast; ring
  rw [e]

theorem prefixSumSq_eq_Icc (img : Int → Nat) (x0 y0 w_full : Int) (i j : Nat) :
    prefixSumSq img x0 y0 w_full i j
      = ∑ a ∈ Finset.Icc 1 i, ∑ b ∈ Finset.Icc 1 j,
          (img ((y0 + (a : Int)) * w_full + x0 + (b : Int)) : Int) ^ 2 := by
  unfold prefixSumSq patchSample
  rw [sum_Icc_one_eq_range]
  apply Finset.sum_congr rfl; intro a _
  rw [sum_Icc_one_eq_range]
  apply Finset.sum_congr rfl; intro b _
  have e : (y0 + 1 + (a : Int)) * w_full + x0 + 1 + (b : Int)
      = (y0 + ((a + 1 : Nat) : Int)) * w_full + x0 + ((b + 1 : Nat) : Int) := by push_cast; ring
  rw [e, sq]

/-- Prefix sums of a patch whose samples all equal `v`. -/
theorem prefixSum_uniform (img : Int → Nat) (x0 y0 w_full : Int) (H W : Nat) (v : Int)
    (hu : UniformPatch img x0 y0 w_full H W v) (i j : Nat)
    (hi : i ≤ H) (hj : j ≤ W) :
    prefixSum img x0 y0 w_full i j = v * i * j ∧
    prefixSumSq img x0 y0 w_full i j = v * v * i * j := by
  unfold prefixSum prefixSumSq
  constructor
  · rw [Finset.sum_congr rfl (fun a ha => Finset.sum_congr rfl (fun b hb =>
      hu a b (by have := Finset.mem_range.1 ha; omega) (by have := Finset.mem_range.1 hb; omega)))]
    simp only [Finset.sum_const, Finset.card_range, nsmul_eq_mul]
    ring
  · rw [Finset.sum_congr rfl (fun a ha => Finset.sum_congr rfl (fun b hb => by
      rw [hu a b (by have := Finset.mem_range.1 ha; omega)
        (by have := Finset.mem_range.1 hb; omega)]))]
    simp only [Finset.sum_const, Finset.card_range, nsmul_eq_mul]
    ring

/-- The window that covers a whole square patch of side `2 r + 1` sums the whole patch. -/
theorem windowSum_whole (F : Int → Int → Int) (r : Nat) :
    ∑ y ∈ Finset.Icc ((r : Int) - r) ((r : Int) + r),
        ∑ x ∈ Finset.Icc ((r : Int) - r) ((r : Int) + r), F x y
      = rectSum (fun a b => F b a) (2 * r + 1) (2 * r + 1) := by
  rw [window_corners F r r r (by omega) (by omega) (by omega)]
  have e1 : ((r : Int) + 1 + r).toNat = 2 * r + 1 := by omega
  have e2 : ((r : Int) - r).toNat = 0 := by omega
  rw [e1, e2, rectSum_zero_left, rectSum_zero_left, rectSum_zero_right]
  ring

/-- Flat index of a cell: row and column are recovered by division by the stride. -/
theorem idx_div_mod (w i j : Int) (hj0 : 0 ≤ j) (hjw : j < w) :
    (i * w + j) / w = i ∧ (i * w + j) % w = j := by
  have hw : w ≠ 0 := by omega
  constructor
  · rw [add_comm, Int.add_mul_ediv_right _ _ hw, Int.ediv_eq_zero_of_lt hj0 hjw, zero_add]
  · rw [add_comm, Int.add_mul_emod_self, Int.emod_eq_of_lt hj0 hjw]

/-- No signed overflow in the evaluator's `int` arithmetic: for a valid window in tables of at
most `2^31 - 1` cells, every intermediate `int` value of lines 45-51 fits a 32-bit `int`, so the
mathematical integers of the embedding are the machine values. -/
theorem CalcMeanStd_int_range (h_integ w_integ px py win_r : Int)
    (hv : ValidWindow h_integ w_integ px py win_r) (hsz : h_integ * w_integ ≤ 2147483647) :
    (InIntRange (py + 1 + win_r) ∧ InIntRange ((py + 1 + win_r) * w_integ) ∧
      InIntRange (px + 1 + win_r) ∧ InIntRange (d_pos w_integ px py win_r)) ∧
    (InIntRange (py - win_r) ∧ InIntRange ((py - win_r) * w_integ) ∧
      InIntRange (px - win_r) ∧ InIntRange (a_pos w_integ px py win_r)) ∧
    (InIntRange (b_pos w_integ px py win_r) ∧ InIntRange (c_pos w_integ px py win_r)) ∧
    (InIntRange (win_r * 2) ∧ InIntRange (win_r * 2 + 1) ∧ InIntRange (winArea win_r)) := by
  obtain ⟨hr, hx, hy, hxw, hyh⟩ := hv
  have hw0 : 0 ≤ w_integ := by omega
  have hrow : ∀ i : Int, 0 ≤ i → i ≤ h_integ - 1 →
      0 ≤ i * w_integ ∧ i * w_integ ≤ h_integ * w_integ - w_integ := by
    intro i hi0 hi
    have h1 : i * w_integ ≤ (h_integ - 1) * w_integ := mul_le_mul_of_nonneg_right hi hw0
    have h2 : (h_integ - 1) * w_integ = h_integ * w_integ - w_integ := by ring
    exact ⟨mul_nonneg hi0 hw0, by omega⟩
  have hlo := hrow (py - win_r) hy (by omega)
  have hhi := hrow (py + 1 + win_r) (by omega) hyh
  have harea : 0 ≤ winArea win_r ∧ winArea win_r ≤ h_integ * w_integ := by
    unfold winArea
    have h1 : 0 ≤ win_r * 2 + 1 := by omega
    have h2 : win_r * 2 + 1 ≤ w_integ - 1 := by omega
    have h3 : win_r * 2 + 1 ≤ h_integ - 1 := by omega
    constructor
    · exact mul_nonneg h1 h1
    · nlinarith
  have hhb : h_integ ≤ h_integ * w_integ := by nlinarith
  have hwb : w_integ ≤ h_integ * w_integ := by nlinarith
  unfold InIntRange a_pos b_pos c_pos d_pos
  refine ⟨⟨⟨by omega, by omega⟩, ⟨by omega, by omega⟩, ⟨by omega, by omega⟩, ⟨by omega, by omega⟩⟩,
    ⟨⟨by omega, by omega⟩, ⟨by omega, by omega⟩, ⟨by omega, by omega⟩, ⟨by omega, by omega⟩⟩,
    ⟨⟨by omega, by omega⟩, ⟨by omega, by omega⟩⟩,
    ⟨⟨by omega, by omega⟩, ⟨by omega, by omega⟩, ⟨by omega, by omega⟩⟩⟩

/-- Window sums of a patch whose samples all equal `v`. -/
theorem windowSum_uniform (img : Int → Nat) (x0 y0 w_full : Int) (H W : Nat) (v : Int)
    (hu : UniformPatch img x0 y0 w_full H W v)
    (px py win_r : Int) (hv : ValidWindow ((H : Int) + 1) ((W : Int) + 1) px py win_r) :
    windowSum img x0 y0 w_full px py win_r = v * ((2 * win_r + 1) * (2 * win_r + 1)) ∧
    windowSumSq img x0 y0 w_full px py win_r = v * v * ((2 * win_r + 1) * (2 * win_r + 1)) := by
  obtain ⟨hr, hx, hy, hxw, hyh⟩ := hv
  have hval : ∀ y ∈ Finset.Icc (py - win_r) (py + win_r),
      ∀ x ∈ Finset.Icc (px - win_r) (px + win_r), patchSample img x0 y0 w_full x y = v := by
    intro y hy1 x hx1
    rw [Finset.mem_Icc] at hy1 hx1
    have := hu y.toNat x.toNat (by omega) (by omega)
    rwa [Int.toNat_of_nonneg (by omega), Int.toNat_of_nonneg (by omega)] at this
  have hcx : ((Finset.Icc (px - win_r) (px + win_r)).card : Int) = 2 * win_r + 1 := by
    rw [Int.card_Icc, Int.toNat_of_nonneg (by omega)]; ring
  have hcy : ((Finset.Icc (py - win_r) (py + win_r)).card : Int) = 2 * win_r + 1 := by
    rw [Int.card_Icc, Int.toNat_of_nonneg (by omega)]; ring
  unfold windowSum windowSumSq
  constructor
  · rw [Finset.sum_congr rfl (fun y hy1 => Finset.sum_congr rfl (fun x hx1 => hval y hy1 x hx1))]
    simp only [Finset.sum_const, nsmul_eq_mul, hcx, hcy]
    ring
  · rw [Finset.sum_congr rfl (fun y hy1 => Finset.sum_congr rfl (fun x hx1 => by
      rw [hval y hy1 x hx1]))]
    simp only [Finset.sum_const, nsmul_eq_mul, hcx, hcy]
    ring

/-! ## The rounded operations round correctly

Each operation of the rounded reading returns a normalised `double` within half a unit in the
last place of the exact result (`Dyadic.Rounds`); conversions of integers below `2^53` are exact;
`sqrtD` is NaN exactly on negative arguments and otherwise within half a unit in the last place of
the real square root. -/

theorem bitLenFuel_zero (fuel : Nat) : bitLenFuel fuel 0 = 0 := by
  cases fuel <;> simp [bitLenFuel]

theorem bitLenFuel_spec (fuel : Nat) : ∀ n : Nat, n ≤ fuel → 0 < n →
    n < 2 ^ bitLenFuel fuel n ∧ 2 ^ bitLenFuel fuel n ≤ 2 * n := by
  induction fuel with
  | zero => intro n h1 h2; omega
  | succ fuel ih =>
    intro n h1 h2
    have hn : n ≠ 0 := by omega
    simp only [bitLenFuel, if_neg hn]
    by_cases h : n / 2 = 0
    · have : n = 1 := by omega
      subst this
      simp [bitLenFuel_zero]
    · obtain ⟨a, b⟩ := ih (n / 2) (by omega) (by omega)
      rw [pow_succ]
      omega

/-- The digit count brackets the number: `n < 2^(bitLen n) ≤ 2 n` for `n > 0`. -/
theorem bitLen_spec (n : Nat) (hn : 0 < n) : n < 2 ^ bitLen n ∧ 2 ^ bitLen n ≤ 2 * n :=
  bitLenFuel_spec n n le_rfl hn

/-- The rounded quotient is within one half of `a / b`. -/
theorem roundHalfEven_spec (a b : Nat) (hb : 0 < b) :
    2 * a ≤ 2 * (b * roundHalfEven a b) + b ∧ 2 * (b * roundHalfEven a b) ≤ 2 * a + b := by
  have h := Nat.div_add_mod a b
  have hr := Nat.mod_lt a hb
  unfold roundHalfEven
  have e : b * (a / b + 1) = b * (a / b) + b := by ring
  split_ifs <;> (try rw [e]) <;> omega

/-- The exponent found by `floorLog2Ratio` is the one of the binade of `a / den`. -/
theorem floorLog2Ratio_spec (a den : Nat) (ha : 0 < a) (hd : 0 < den) :
    (2 : ℚ) ^ floorLog2Ratio a den ≤ (a : ℚ) / den ∧
    (a : ℚ) / den < (2 : ℚ) ^ (floorLog2Ratio a den + 1) := by
  obtain ⟨a1, a2⟩ := bitLen_spec a ha
  obtain ⟨d1, d2⟩ := bitLen_spec den hd
  have hdq : (0 : ℚ) < den := by exact_mod_cast hd
  unfold floorLog2Ratio
  simp only
  by_cases h0 : 0 ≤ (bitLen a : Int) - (bitLen den : Int)
  · obtain ⟨k, hk⟩ : ∃ k : Nat, bitLen a = bitLen den + k := ⟨bitLen a - bitLen den, by omega⟩
    have ek : ((bitLen a : Int) - (bitLen den : Int)) = (k : Int) := by omega
    rw [ek] at h0 ⊢
    simp only [if_pos h0, Int.toNat_ofNat]
    rw [hk, pow_add] at a1 a2
    by_cases hb : a < den * 2 ^ k
    · simp only [hb, decide_True, if_true]
      have e1 : ((k : Int) - 1 + 1) = (k : Int) := by ring
      rw [e1, zpow_natCast, zpow_sub_one₀ (by norm_num), zpow_natCast, le_div_iff₀ hdq,
        div_lt_iff₀ hdq]
      have h1 : den * 2 ^ k ≤ 2 * a := by
        have : den * 2 ^ k < 2 ^ bitLen den * 2 ^ k :=
          Nat.mul_lt_mul_of_pos_right d1 (by positivity)
        omega
      have h1q : ((den * 2 ^ k : Nat) : ℚ) ≤ ((2 * a : Nat) : ℚ) := by exact_mod_cast h1
      have h2q : ((a : Nat) : ℚ) < ((den * 2 ^ k : Nat) : ℚ) := by exact_mod_cast hb
      push_cast at h1q h2q
      constructor
      · nlinarith
      · nlinarith
    · simp only [hb, decide_False, Bool.false_eq_true, if_false]
      rw [zpow_natCast, zpow_add_one₀ (by norm_num), zpow_natCast, le_div_iff₀ hdq,
        div_lt_iff₀ hdq]
      have h1 : den * 2 ^ k ≤ a := by omega
      have h2 : a < 2 * (den * 2 ^ k) := by
        have : 2 ^ bitLen den * 2 ^ k ≤ (2 * den) * 2 ^ k := Nat.mul_le_mul_right _ d2
        have e : (2 * den) * 2 ^ k = 2 * (den * 2 ^ k) := by ring
        omega
      have h1q : ((den * 2 ^ k : Nat) : ℚ) ≤ ((a : Nat) : ℚ) := by exact_mod_cast h1
      have h2q : ((a : Nat) : ℚ) < ((2 * (den * 2 ^ k) : Nat) : ℚ) := by exact_mod_cast h2
      push_cast at h1q h2q
      constructor
      · nlinarith
      · nlinarith
  · obtain ⟨k, hk⟩ : ∃ k : Nat, bitLen den = bitLen a + k := ⟨bitLen den - bitLen a, by omega⟩
    have ek : ((bitLen a : Int) - (bitLen den : Int)) = -(k : Int) := by omega
    rw [ek] at h0 ⊢
    simp only [if_neg h0, neg_neg, Int.toNat_ofNat]
    rw [hk, pow_add] at d1 d2
    have hkq : (0 : ℚ) < 2 ^ k := by positivity
    by_cases hb : a * 2 ^ k < den
    · simp only [hb, decide_True, if_true]
      have e1 : (-(k : Int) - 1 + 1) = -(k : Int) := by ring
      rw [e1, zpow_sub_one₀ (by norm_num), zpow_neg, zpow_natCast, le_div_iff₀ hdq,
        div_lt_iff₀ hdq]
      have h1 : den ≤ 2 * (a * 2 ^ k) := by
        have : 2 ^ bitLen a * 2 ^ k ≤ (2 * a) * 2 ^ k := Nat.mul_le_mul_right _ a2
        have e : (2 * a) * 2 ^ k = 2 * (a * 2 ^ k) := by ring
        omega
      have h1q : ((den : Nat) : ℚ) ≤ ((2 * (a * 2 ^ k) : Nat) : ℚ) := by exact_mod_cast h1
      have h2q : ((a * 2 ^ k : Nat) : ℚ) < ((den : Nat) : ℚ) := by exact_mod_cast hb
      push_cast at h1q h2q
      constructor
      · rw [mul_assoc, inv_mul_le_iff₀ hkq]
        linarith
      · rw [inv_mul_eq_div, lt_div_iff₀ hkq]
        exact h2q
    · simp only [hb, decide_False, Bool.false_eq_true, if_false]
      rw [zpow_add_one₀ (by norm_num), zpow_neg, zpow_natCast, le_div_iff₀ hdq,
        div_lt_iff₀ hdq]
      have h1 : den ≤ a * 2 ^ k := by omega
      have h2 : a * 2 ^ k < 2 * den := by
        have : a * 2 ^ k < 2 ^ bitLen a * 2 ^ k :=
          Nat.mul_lt_mul_of_pos_right a1 (by positivity)
        omega
      have h1q : ((den : Nat) : ℚ) ≤ ((a * 2 ^ k : Nat) : ℚ) := by exact_mod_cast h1
      have h2q : ((a * 2 ^ k : Nat) : ℚ) < ((2 * den : Nat) : ℚ) := by exact_mod_cast h2
      push_cast at h1q h2q
      constructor
      · rw [inv_mul_eq_div, div_le_iff₀ hkq]
        exact h1q
      · rw [mul_assoc, inv_mul_eq_div, lt_div_iff₀ hkq]
        nlinarith

/-- The rounded scaled quotient is within half of `2^u` of `a / den`. -/
theorem roundQuot_spec (a den : Nat) (hd : 0 < den) (u : Int) :
    |(a : ℚ) / den - (roundQuot a den u : ℚ) * (2 : ℚ) ^ u| ≤ (2 : ℚ) ^ u / 2 := by
  have hdq : (0 : ℚ) < den := by exact_mod_cast hd
  have hx : (a : ℚ) / den * den = a := div_mul_cancel₀ _ hdq.ne.symm
  generalize (a : ℚ) / den = x at hx ⊢
  unfold roundQuot
  by_cases h0 : 0 ≤ u
  · obtain ⟨k, rfl⟩ : ∃ k : Nat, u = (k : Int) := ⟨u.toNat, by omega⟩
    simp only [if_pos h0, Int.toNat_ofNat, zpow_natCast]
    obtain ⟨s1, s2⟩ := roundHalfEven_spec a (den * 2 ^ k) (by positivity)
    generalize roundHalfEven a (den * 2 ^ k) = R at s1 s2 ⊢
    have s1q : ((2 * a : Nat) : ℚ) ≤ ((2 * (den * 2 ^ k * R) + den * 2 ^ k : Nat) : ℚ) := by
      exact_mod_cast s1
    have s2q : ((2 * (den * 2 ^ k * R) : Nat) : ℚ) ≤ ((2 * a + den * 2 ^ k : Nat) : ℚ) := by
      exact_mod_cast s2
    push_cast at s1q s2q
    have hP : (0 : ℚ) < 2 ^ k := by positivity
    generalize (2 : ℚ) ^ k = P at s1q s2q hP ⊢
    rw [← hx] at s1q s2q
    rw [abs_le]
    constructor
    · by_contra hc
      push_neg at hc
      nlinarith [mul_pos hdq hP]
    · by_contra hc
      push_neg at hc
      nlinarith [mul_pos hdq hP]
  · obtain ⟨k, rfl⟩ : ∃ k : Nat, u = -(k : Int) := ⟨(-u).toNat, by omega⟩
    simp only [if_neg h0, neg_neg, Int.toNat_ofNat, zpow_neg, zpow_natCast]
    obtain ⟨s1, s2⟩ := roundHalfEven_spec (a * 2 ^ k) den hd
    generalize roundHalfEven (a * 2 ^ k) den = R at s1 s2 ⊢
    have s1q : ((2 * (a * 2 ^ k) : Nat) : ℚ) ≤ ((2 * (den * R) + den : Nat) : ℚ) := by
      exact_mod_cast s1
    have s2q : ((2 * (den * R) : Nat) : ℚ) ≤ ((2 * (a * 2 ^ k) + den : Nat) : ℚ) := by
      exact_mod_cast s2
    push_cast at s1q s2q
    have hP : (0 : ℚ) < 2 ^ k := by positivity
    have hPy : (2 : ℚ) ^ k * ((2 : ℚ) ^ k)⁻¹ = 1 := mul_inv_cancel₀ hP.ne.symm
    have hy : (0 : ℚ) < ((2 : ℚ) ^ k)⁻¹ := inv_pos.2 hP
    generalize ((2 : ℚ) ^ k)⁻¹ = y at hPy hy ⊢
    generalize (2 : ℚ) ^ k = P at s1q s2q hP hPy ⊢
    rw [← hx] at s1q s2q
    have h3 : 2 * (x * P) ≤ 2 * (R : ℚ) + 1 := by
      by_contra hc
      push_neg at hc
      nlinarith
    have h4 : 2 * (R : ℚ) ≤ 2 * (x * P) + 1 := by
      by_contra hc
      push_neg at hc
      nlinarith
    have h5 : x * P * y = x := by rw [mul_assoc, hPy, mul_one]
    have h6 := mul_le_mul_of_nonneg_right h3 hy.le
    have h7 := mul_le_mul_of_nonneg_right h4 hy.le
    rw [abs_le]
    constructor <;> nlinarith

theorem roundRatio_zero (den : Nat) : roundRatio 0 den = ⟨0, 0⟩ := rfl

/-- The result of `roundRatio` on a non-zero quotient is normalised, has the sign of the quotient,
and is within half a unit in the last place of it. -/
theorem roundRatio_nearest (num : Int) (den : Nat) (hd : 0 < den) (hn : num ≠ 0) :
    4503599627370496 ≤ |(roundRatio num den).m| ∧
    |(roundRatio num den).m| < 9007199254740992 ∧
    (0 < (roundRatio num den).m ↔ 0 < num) ∧
    |(num : ℚ) / den - (roundRatio num den).toRat| ≤ (2 : ℚ) ^ (roundRatio num den).e / 2 := by
  have ha : 0 < num.natAbs := Int.natAbs_pos.2 hn
  have hdq : (0 : ℚ) < den := by exact_mod_cast hd
  obtain ⟨f1, f2⟩ := floorLog2Ratio_spec num.natAbs den ha hd
  have hq := roundQuot_spec num.natAbs den hd (floorLog2Ratio num.natAbs den - 52)
  have hne : ¬ num.natAbs = 0 := by omega
  unfold roundRatio
  simp only [if_neg hne]
  generalize floorLog2Ratio num.natAbs den = f at f1 f2 hq ⊢
  generalize roundQuot num.natAbs den (f - 52) = m at hq ⊢
  have hU : (0 : ℚ) < (2 : ℚ) ^ (f - 52) := by positivity
  have e52 : (2 : ℚ) ^ (52 : Int) = 4503599627370496 := by norm_num
  have e1 : (2 : ℚ) ^ f = 4503599627370496 * (2 : ℚ) ^ (f - 52) := by
    rw [zpow_sub₀ (by norm_num), e52]
    ring
  have e2 : (2 : ℚ) ^ (f + 1) = 9007199254740992 * (2 : ℚ) ^ (f - 52) := by
    rw [zpow_add_one₀ (by norm_num), e1]
    ring
  have e3 : (2 : ℚ) ^ (f - 52 + 1) = 2 * (2 : ℚ) ^ (f - 52) := by
    rw [zpow_add_one₀ (by norm_num)]
    ring
  rw [e1] at f1
  rw [e2] at f2
  obtain ⟨U, hUdef⟩ : ∃ U : ℚ, (2 : ℚ) ^ (f - 52) = U := ⟨_, rfl⟩
  rw [hUdef] at hU f1 f2 hq e3
  rw [abs_le] at hq
  obtain ⟨q1, q2⟩ := hq
  have m1 : (4503599627370496 : ℚ) - 1 < (m : ℚ) := by
    by_contra hc
    push_neg at hc
    nlinarith
  have m2 : (m : ℚ) < 9007199254740992 + 1 := by
    by_contra hc
    push_neg at hc
    nlinarith
  have m1n : 4503599627370496 ≤ m := by
    have : ((4503599627370496 - 1 : Nat) : ℚ) < (m : ℚ) := by
      push_cast
      linarith
    have := Nat.cast_lt.1 this
    omega
  have m2n : m ≤ 9007199254740992 := by
    have : (m : ℚ) < ((9007199254740992 + 1 : Nat) : ℚ) := by
      push_cast
      linarith
    have := Nat.cast_lt.1 this
    omega
  obtain ⟨x, hx⟩ : ∃ x : ℚ, (num.natAbs : ℚ) / den = x := ⟨_, rfl⟩
  rw [hx] at f1 f2 q1 q2
  have hnum : (num : ℚ) / den = (if num < 0 then (-1 : ℚ) else 1) * x := by
    rw [← hx, Nat.cast_natAbs]
    split_ifs with hneg
    · have : (num : ℚ) < 0 := by exact_mod_cast hneg
      rw [Int.cast_abs, abs_of_neg this]
      ring
    · have : (0 : ℚ) ≤ (num : ℚ) := by exact_mod_cast (not_lt.1 hneg)
      rw [Int.cast_abs, abs_of_nonneg this]
      ring
  rw [hnum]
  by_cases hm : m = 9007199254740992
  · simp only [if_pos hm, Dyadic.toRat]
    subst hm
    push_cast at q1 q2
    rw [e3]
    refine ⟨?_, ?_, ?_, ?_⟩
    · split_ifs <;> norm_num
    · split_ifs <;> norm_num
    · split_ifs with hneg
      · constructor
        · intro h; norm_num at h
        · intro h; omega
      · constructor
        · intro _; omega
        · intro _; norm_num
    · rw [abs_le]
      split_ifs with hneg
      · push_cast
        constructor <;> linarith
      · push_cast
        constructor <;> linarith
  · simp only [if_neg hm, Dyadic.toRat]
    have m3 : m < 9007199254740992 := by omega
    rw [hUdef]
    refine ⟨?_, ?_, ?_, ?_⟩
    · split_ifs
      · rw [neg_one_mul, abs_neg, Nat.abs_cast]
        exact_mod_cast m1n
      · rw [one_mul, Nat.abs_cast]
        exact_mod_cast m1n
    · split_ifs
      · rw [neg_one_mul, abs_neg, Nat.abs_cast]
        exact_mod_cast m3
      · rw [one_mul, Nat.abs_cast]
        exact_mod_cast m3
    · split_ifs with hneg
      · constructor
        · intro h; omega
        · intro h; omega
      · constructor
        · intro _; omega
        · intro _; omega
    · rw [abs_le]
      split_ifs with hneg
      · push_cast
        constructor <;> linarith
      · push_cast
        constructor <;> linarith

/-- The `double` quotient is a correct rounding of the exact quotient. -/
theorem roundRatio_rounds (num : Int) (den : Nat) (hd : 0 < den) :
    (roundRatio num den).Rounds ((num : ℚ) / den) := by
  have hdq : (0 : ℚ) < den := by exact_mod_cast hd
  by_cases hn : num = 0
  · subst hn
    exact Or.inl ⟨by simp, rfl⟩
  · obtain ⟨h1, h2, h3, h4⟩ := roundRatio_nearest num den hd hn
    have hq : (num : ℚ) / den ≠ 0 := div_ne_zero (by exact_mod_cast hn) hdq.ne.symm
    refine Or.inr ⟨hq, h1, h2, ?_, h4⟩
    rw [h3, div_pos_iff_of_pos_right hdq]
    exact Int.cast_pos.symm

/-- A scaled integer is rounded correctly. -/
theorem roundScaled_rounds (M E : Int) : (roundScaled M E).Rounds ((M : ℚ) * (2 : ℚ) ^ E) := by
  unfold roundScaled
  by_cases h0 : 0 ≤ E
  · obtain ⟨k, rfl⟩ : ∃ k : Nat, E = (k : Int) := ⟨E.toNat, by omega⟩
    simp only [if_pos h0, Int.toNat_ofNat]
    have := roundRatio_rounds (M * 2 ^ k) 1 one_pos
    simpa using this
  · obtain ⟨k, rfl⟩ : ∃ k : Nat, E = -(k : Int) := ⟨(-E).toNat, by omega⟩
    simp only [if_neg h0, neg_neg, Int.toNat_ofNat]
    have := roundRatio_rounds M (2 ^ k) (by positivity)
    simpa [div_eq_mul_inv] using this

/-- Conversion of an integer to `double` is a correct rounding. -/
theorem ofIntD_rounds (k : Int) : (ofIntD k).Rounds (k : ℚ) := by
  have := roundRatio_rounds k 1 one_pos
  simpa using this

/-- The `double` product is a correct rounding of the exact product of its operands. -/
theorem mulD_rounds (x y : Dyadic) : (mulD x y).Rounds (x.toRat * y.toRat) := by
  have := roundScaled_rounds (x.m * y.m) (x.e + y.e)
  have e : ((x.m * y.m : Int) : ℚ) * (2 : ℚ) ^ (x.e + y.e) = x.toRat * y.toRat := by
    unfold Dyadic.toRat
    rw [zpow_add₀ (by norm_num)]
    push_cast
    ring
  rw [e] at this
  exact this

/-- The `double` difference is a correct rounding of the exact difference of its operands. -/
theorem subD_rounds (x y : Dyadic) : (subD x y).Rounds (x.toRat - y.toRat) := by
  have := roundScaled_rounds
    (x.m * 2 ^ (x.e - min x.e y.e).toNat - y.m * 2 ^ (y.e - min x.e y.e).toNat) (min x.e y.e)
  have e : ((x.m * 2 ^ (x.e - min x.e y.e).toNat - y.m * 2 ^ (y.e - min x.e y.e).toNat : Int) : ℚ)
      * (2 : ℚ) ^ (min x.e y.e) = x.toRat - y.toRat := by
    unfold Dyadic.toRat
    have hx : (2 : ℚ) ^ x.e = (2 : ℚ) ^ (x.e - min x.e y.e).toNat * (2 : ℚ) ^ (min x.e y.e) := by
      rw [← zpow_natCast, ← zpow_add₀ (by norm_num)]
      congr 1
      have : min x.e y.e ≤ x.e := min_le_left _ _
      omega
    have hy : (2 : ℚ) ^ y.e = (2 : ℚ) ^ (y.e - min x.e y.e).toNat * (2 : ℚ) ^ (min x.e y.e) := by
      rw [← zpow_natCast, ← zpow_add₀ (by norm_num)]
      congr 1
      have : min x.e y.e ≤ y.e := min_le_right _ _
      omega
    rw [hx, hy]
    push_cast
    ring
  rw [e] at this
  exact this

/-- The stored `ceoff` of line 45 is a correct rounding of the exact `1 / n`. -/
theorem ceoffDouble_rounds (win_r : Int) (hr : 0 ≤ win_r) :
    (ceoffDouble win_r).Rounds (ceoff win_r) := by
  have hpos : 0 < winArea win_r := by
    unfold winArea
    positivity
  have := roundRatio_rounds 1 (winArea win_r).toNat (by omega)
  have e : (((winArea win_r).toNat : Nat) : ℚ) = ((winArea win_r : Int) : ℚ) := by
    have : (((winArea win_r).toNat : Nat) : Int) = winArea win_r := Int.toNat_of_nonneg hpos.le
    exact_mod_cast this
  rw [e] at this
  simpa [ceoff] using this

theorem roundHalfEven_one (x : Nat) : roundHalfEven x 1 = x := by
  unfold roundHalfEven
  rw [Nat.mod_one]
  simp

/-- Integers below `2^53` in absolute value convert to `double` without error. -/
theorem ofIntD_exact (k : Int) (hk : |k| < 9007199254740992) : (ofIntD k).toRat = k := by
  by_cases hn : k = 0
  · subst hn
    simp [ofIntD, roundRatio, Dyadic.toRat]
  have ha : 0 < k.natAbs := Int.natAbs_pos.2 hn
  have hne : ¬ k.natAbs = 0 := by omega
  have ha53 : k.natAbs < 9007199254740992 := by
    have : (k.natAbs : Int) = |k| := Int.natCast_natAbs k
    omega
  obtain ⟨f1, f2⟩ := floorLog2Ratio_spec k.natAbs 1 ha one_pos
  simp only [Nat.cast_one, div_one] at f1 f2
  have hf : floorLog2Ratio k.natAbs 1 ≤ 52 := by
    by_contra hc
    push_neg at hc
    have h53 : (2 : ℚ) ^ (53 : Int) ≤ (2 : ℚ) ^ floorLog2Ratio k.natAbs 1 :=
      zpow_le_zpow_right₀ (by norm_num) (by omega)
    have : (k.natAbs : ℚ) < 9007199254740992 := by exact_mod_cast ha53
    norm_num at h53
    linarith
  unfold ofIntD roundRatio
  simp only [if_neg hne]
  generalize floorLog2Ratio k.natAbs 1 = f at f1 f2 hf ⊢
  obtain ⟨j, hj⟩ : ∃ j : Nat, f - 52 = -(j : Int) := ⟨(52 - f).toNat, by omega⟩
  have hq : roundQuot k.natAbs 1 (f - 52) = k.natAbs * 2 ^ j := by
    unfold roundQuot
    by_cases h0 : 0 ≤ f - 52
    · have : j = 0 := by omega
      subst this
      have e : f - 52 = 0 := by omega
      rw [if_pos h0, e]
      simp [roundHalfEven_one]
    · rw [if_neg h0, hj]
      simp [roundHalfEven_one]
  rw [hq, hj]
  have hP : (0 : ℚ) < (2 : ℚ) ^ j := by positivity
  have e2 : (2 : ℚ) ^ (f + 1) = 9007199254740992 * ((2 : ℚ) ^ j)⁻¹ := by
    have : f + 1 = 53 + -(j : Int) := by omega
    rw [this, zpow_add₀ (by norm_num), zpow_neg, zpow_natCast]
    norm_num
  rw [e2] at f2
  have hlt : k.natAbs * 2 ^ j < 9007199254740992 := by
    have : (k.natAbs : ℚ) * 2 ^ j < 9007199254740992 := by
      have := mul_lt_mul_of_pos_right f2 hP
      rwa [mul_assoc, inv_mul_cancel₀ hP.ne.symm, mul_one] at this
    exact_mod_cast this
  rw [if_neg (by omega)]
  unfold Dyadic.toRat
  simp only [zpow_neg, zpow_natCast]
  split_ifs with hneg
  · have h1 : (k : ℚ) < 0 := by exact_mod_cast hneg
    push_cast
    rw [abs_of_neg h1]
    field_simp
  · have h1 : (0 : ℚ) ≤ (k : ℚ) := by exact_mod_cast (not_lt.1 hneg)
    push_cast
    rw [abs_of_nonneg h1]
    field_simp

theorem isqrtAux_spec (fuel : Nat) : ∀ n lo hi : Nat, lo * lo ≤ n → n < hi * hi →
    hi ≤ lo + 2 ^ fuel →
    isqrtAux fuel n lo hi * isqrtAux fuel n lo hi ≤ n ∧
      n < (isqrtAux fuel n lo hi + 1) * (isqrtAux fuel n lo hi + 1) := by
  induction fuel with
  | zero =>
    intro n lo hi h1 h2 h3
    have hlt : lo < hi := by
      by_contra hc
      push_neg at hc
      have := Nat.mul_le_mul hc hc
      omega
    have : hi = lo + 1 := by
      simp only [pow_zero] at h3
      omega
    subst this
    exact ⟨h1, h2⟩
  | succ fuel ih =>
    intro n lo hi h1 h2 h3
    have hlt : lo < hi := by
      by_contra hc
      push_neg at hc
      have := Nat.mul_le_mul hc hc
      omega
    rw [pow_succ] at h3
    unfold isqrtAux
    by_cases hc : hi ≤ lo + 1
    · have : hi = lo + 1 := by omega
      subst this
      simp only [le_refl, if_true]
      exact ⟨h1, h2⟩
    · simp only [if_neg hc]
      by_cases hm : (lo + hi) / 2 * ((lo + hi) / 2) ≤ n
      · simp only [if_pos hm]
        exact ih n _ hi hm h2 (by omega)
      · simp only [if_neg hm]
        exact ih n lo _ h1 (by omega) (by omega)

/-- The integer square root: `isqrt n` is the largest `f` with `f^2 ≤ n`. -/
theorem isqrt_spec (n : Nat) : isqrt n * isqrt n ≤ n ∧ n < (isqrt n + 1) * (isqrt n + 1) := by
  unfold isqrt
  refine isqrtAux_spec _ n 0 (n + 1) (by omega) (by nlinarith) ?_
  rcases Nat.eq_zero_or_pos n with h | h
  · subst h
    simp [bitLen, bitLenFuel]
  · have := (bitLen_spec n h).1
    rw [pow_succ]
    omega

/-- The rounded leading digits of the integer root `f` of `y` are within half of `2^p` of the
real square root of `y`. -/
theorem rootMantissa_spec (f y p : Nat) (hp : 1 ≤ p) (hf : 2 ^ p ≤ f) (h1 : f * f ≤ y)
    (h2 : y < (f + 1) * (f + 1)) :
    f / 2 ^ p ≤ rootMantissa f (decide (f * f = y)) p ∧
    rootMantissa f (decide (f * f = y)) p ≤ f / 2 ^ p + 1 ∧
    2 ^ (p - 1) ≤ rootMantissa f (decide (f * f = y)) p * 2 ^ p ∧
    (rootMantissa f (decide (f * f = y)) p * 2 ^ p - 2 ^ (p - 1))
        * (rootMantissa f (decide (f * f = y)) p * 2 ^ p - 2 ^ (p - 1)) ≤ y ∧
    y ≤ (rootMantissa f (decide (f * f = y)) p * 2 ^ p + 2 ^ (p - 1))
        * (rootMantissa f (decide (f * f = y)) p * 2 ^ p + 2 ^ (p - 1)) := by
  obtain ⟨j, rfl⟩ : ∃ j : Nat, p = j + 1 := ⟨p - 1, by omega⟩
  have hdm := Nat.div_add_mod f (2 ^ (j + 1))
  have hr := Nat.mod_lt f (show 0 < 2 ^ (j + 1) by positivity)
  have hq1 : 1 ≤ f / 2 ^ (j + 1) := (Nat.one_le_div_iff (by positivity)).2 hf
  have hP : 2 ^ (j + 1) = 2 * 2 ^ j := by rw [pow_succ]; ring
  have hh : 0 < 2 ^ j := by positivity
  unfold rootMantissa
  simp only [Nat.add_sub_cancel]
  generalize f / 2 ^ (j + 1) = q at hdm hq1 ⊢
  generalize f % 2 ^ (j + 1) = r at hdm hr ⊢
  rw [hP] at hdm hr ⊢
  generalize 2 ^ j = h at hdm hr hh ⊢
  have key : ∀ mm : Nat, mm * (2 * h) - h ≤ f →
      (f ≤ mm * (2 * h) + h ∧ (f * f = y ∨ f + 1 ≤ mm * (2 * h) + h)) →
      (mm * (2 * h) - h) * (mm * (2 * h) - h) ≤ y ∧
        y ≤ (mm * (2 * h) + h) * (mm * (2 * h) + h) := by
    intro mm hlo hhi
    refine ⟨(Nat.mul_le_mul hlo hlo).trans h1, ?_⟩
    rcases hhi.2 with he | hs
    · rw [← he]
      exact Nat.mul_le_mul hhi.1 hhi.1
    · exact h2.le.trans (Nat.mul_le_mul hs hs)
  have e1 : (q + 1) * (2 * h) = q * (2 * h) + 2 * h := by ring
  have e2 : 2 * h * q = q * (2 * h) := by ring
  have e3 : 2 * h ≤ q * (2 * h) := Nat.le_mul_of_pos_left _ hq1
  rw [e2] at hdm
  have up : q ≤ q + 1 ∧ q + 1 ≤ q + 1 ∧ h ≤ (q + 1) * (2 * h) ∧
      (h ≤ r → (f * f = y ∨ h < r ∨ r = h) →
        ((q + 1) * (2 * h) - h) * ((q + 1) * (2 * h) - h) ≤ y ∧
        y ≤ ((q + 1) * (2 * h) + h) * ((q + 1) * (2 * h) + h)) := by
    refine ⟨by omega, le_rfl, by rw [e1]; omega, fun c _ => ?_⟩
    apply key
    · rw [e1]; omega
    · rw [e1]
      exact ⟨by omega, Or.inr (by omega)⟩
  have down : q ≤ q ∧ q ≤ q + 1 ∧ h ≤ q * (2 * h) ∧
      (r ≤ h → (f * f = y ∨ r < h) →
        (q * (2 * h) - h) * (q * (2 * h) - h) ≤ y ∧
        y ≤ (q * (2 * h) + h) * (q * (2 * h) + h)) := by
    refine ⟨le_rfl, by omega, by omega, fun c c2 => ?_⟩
    apply key
    · omega
    · refine ⟨by omega, ?_⟩
      rcases c2 with c2 | c2
      · exact Or.inl c2
      · exact Or.inr (by omega)
  by_cases c1 : h < r
  · simp only [if_pos c1]
    exact ⟨up.1, up.2.1, up.2.2.1, up.2.2.2 (by omega) (Or.inr (Or.inl c1))⟩
  · simp only [if_neg c1]
    by_cases c2 : r < h
    · simp only [if_pos c2]
      exact ⟨down.1, down.2.1, down.2.2.1, down.2.2.2 (by omega) (Or.inr c2)⟩
    · simp only [if_neg c2]
      have hrh : r = h := by omega
      by_cases c3 : f * f = y
      · simp only [c3, decide_True, if_true]
        split_ifs
        · exact ⟨up.1, up.2.1, up.2.2.1, up.2.2.2 (by omega) (Or.inl c3)⟩
        · exact ⟨down.1, down.2.1, down.2.2.1, down.2.2.2 (by omega) (Or.inl c3)⟩
      · simp only [c3, decide_False, Bool.false_eq_true, if_false]
        exact ⟨up.1, up.2.1, up.2.2.1, up.2.2.2 (by omega) (Or.inr (Or.inr hrh))⟩

/-- The square root of a negative `double` is NaN. -/
theorem sqrtD_neg (x : Dyadic) (hx : x.m < 0) : sqrtD x = none := by
  unfold sqrtD
  rw [if_pos hx]

/-- The square root of zero is zero. -/
theorem sqrtD_zero (x : Dyadic) (hx : x.m = 0) : sqrtD x = some ⟨0, 0⟩ := by
  unfold sqrtD
  rw [if_neg (by omega), if_pos hx]

/-- The square root of a positive `double` is a normalised `double` `d` within half a unit in the
last place of the real square root: `(d - ulp/2)^2 ≤ x ≤ (d + ulp/2)^2`. -/
theorem sqrtD_pos (x : Dyadic) (hx : 0 < x.m) :
    ∃ d : Dyadic, sqrtD x = some d ∧
      4503599627370496 ≤ d.m ∧ d.m < 9007199254740992 ∧
      (d.toRat - (2 : ℚ) ^ d.e / 2) ^ 2 ≤ x.toRat ∧
      x.toRat ≤ (d.toRat + (2 : ℚ) ^ d.e / 2) ^ 2 := by
  unfold sqrtD
  rw [if_neg (by omega), if_neg (by omega)]
  refine ⟨_, rfl, ?_⟩
  obtain ⟨m, hm⟩ : ∃ m : Nat, x.m = (m : Int) := ⟨x.m.toNat, by omega⟩
  have hm0 : 0 < m := by omega
  have hxr : x.toRat = (m : ℚ) * (2 : ℚ) ^ x.e := by
    unfold Dyadic.toRat
    rw [hm]
    push_cast
    rfl
  rw [hxr, hm, Int.natAbs_ofNat]
  generalize x.e = e
  unfold sqrtPos
  simp only
  obtain ⟨k, hk, g, hg⟩ : ∃ k : Nat, (if e % 2 = 0 then 0 else 1) = k ∧
      ∃ g : Int, e - (k : Int) - 120 = 2 * g := by
    by_cases h : e % 2 = 0
    · exact ⟨0, by rw [if_pos h], (e - 120) / 2, by push_cast; omega⟩
    · exact ⟨1, by rw [if_neg h], (e - 1 - 120) / 2, by push_cast; omega⟩
  rw [hk]
  have hdiv : (e - (k : Int) - 120) / 2 = g := by omega
  rw [hdiv]
  obtain ⟨y, hy⟩ : ∃ y : Nat, m * 2 ^ k * 2 ^ 120 = y := ⟨_, rfl⟩
  rw [hy]
  have hy120 : 2 ^ 120 ≤ y := by
    rw [← hy]
    have : 1 ≤ m * 2 ^ k := Nat.one_le_iff_ne_zero.2 (by positivity)
    calc 2 ^ 120 = 1 * 2 ^ 120 := by ring
      _ ≤ m * 2 ^ k * 2 ^ 120 := Nat.mul_le_mul_right _ this
  obtain ⟨s1, s2⟩ := isqrt_spec y
  generalize isqrt y = f at s1 s2 ⊢
  have hf60 : 2 ^ 60 ≤ f := by
    by_contra hc
    push_neg at hc
    have h1 : f + 1 ≤ 2 ^ 60 := hc
    have h2 := Nat.mul_le_mul h1 h1
    have h3 : (2 : Nat) ^ 60 * 2 ^ 60 = 2 ^ 120 := by norm_num
    omega
  obtain ⟨b1, b2⟩ := bitLen_spec f (by omega)
  have hL : 60 < bitLen f := by
    have : 2 ^ 60 < 2 ^ bitLen f := lt_of_le_of_lt hf60 b1
    exact (Nat.pow_lt_pow_iff_right (by norm_num)).1 this
  obtain ⟨p, hp⟩ : ∃ p : Nat, bitLen f = p + 53 := ⟨bitLen f - 53, by omega⟩
  have hp8 : 1 ≤ p := by omega
  rw [hp] at b1 b2
  simp only [hp, Nat.add_sub_cancel]
  have e53 : (2 : Nat) ^ 53 = 9007199254740992 := by norm_num
  rw [pow_add, e53] at b1 b2
  have hfp : 2 ^ p ≤ f := by
    have : 0 < 2 ^ p := by positivity
    omega
  obtain ⟨r1, r2, r3, r4, r5⟩ := rootMantissa_spec f y p hp8 hfp s1 s2
  have hq1 : 4503599627370496 ≤ f / 2 ^ p := by
    rw [Nat.le_div_iff_mul_le (by positivity)]
    omega
  have hq2 : f / 2 ^ p < 9007199254740992 := by
    rw [Nat.div_lt_iff_lt_mul (by positivity)]
    omega
  generalize rootMantissa f (decide (f * f = y)) p = mm at r1 r2 r3 r4 r5 ⊢
  have hmm1 : 4503599627370496 ≤ mm := by omega
  have hmm2 : mm ≤ 9007199254740992 := by omega
  obtain ⟨j, rfl⟩ : ∃ j : Nat, p = j + 1 := ⟨p - 1, by omega⟩
  simp only [Nat.add_sub_cancel] at r3 r4 r5
  have hP : 2 ^ (j + 1) = 2 * 2 ^ j := by rw [pow_succ]; ring
  -- the facts in ℚ
  have hG : (0 : ℚ) < (2 : ℚ) ^ g := by positivity
  have hH : (0 : ℚ) < (2 : ℚ) ^ j := by positivity
  have q3 : ((2 : ℚ) ^ j) ≤ (mm : ℚ) * (2 * (2 : ℚ) ^ j) := by
    have : ((2 ^ j : Nat) : ℚ) ≤ ((mm * 2 ^ (j + 1) : Nat) : ℚ) := by exact_mod_cast r3
    rw [hP] at this
    push_cast at this
    exact this
  have q4 : ((mm : ℚ) * (2 * (2 : ℚ) ^ j) - (2 : ℚ) ^ j) ^ 2 ≤ (y : ℚ) := by
    have : (((mm * 2 ^ (j + 1) - 2 ^ j) * (mm * 2 ^ (j + 1) - 2 ^ j) : Nat) : ℚ) ≤ (y : ℚ) := by
      exact_mod_cast r4
    rw [Nat.cast_mul, Nat.cast_sub r3, hP] at this
    push_cast at this
    rw [sq]
    exact this
  have q5 : (y : ℚ) ≤ ((mm : ℚ) * (2 * (2 : ℚ) ^ j) + (2 : ℚ) ^ j) ^ 2 := by
    have : (y : ℚ) ≤ (((mm * 2 ^ (j + 1) + 2 ^ j) * (mm * 2 ^ (j + 1) + 2 ^ j) : Nat) : ℚ) := by
      exact_mod_cast r5
    rw [hP] at this
    push_cast at this
    rw [sq]
    exact this
  have hxy : (m : ℚ) * (2 : ℚ) ^ e = (y : ℚ) * ((2 : ℚ) ^ g) ^ 2 := by
    have he : e = (k : Int) + 120 + (g + g) := by omega
    rw [he, zpow_add₀ (by norm_num), zpow_add₀ (by norm_num), zpow_add₀ (by norm_num),
      zpow_natCast, ← hy]
    push_cast
    have : (2 : ℚ) ^ (120 : Int) = 2 ^ 120 := by norm_num
    rw [this]
    ring
  rw [hxy]
  have eE : (2 : ℚ) ^ (g + ((j + 1 : Nat) : Int)) = (2 : ℚ) ^ g * (2 * (2 : ℚ) ^ j) := by
    rw [zpow_add₀ (by norm_num), zpow_natCast, pow_succ]
    ring
  have eE1 : (2 : ℚ) ^ (g + ((j + 1 : Nat) : Int) + 1) = 2 * ((2 : ℚ) ^ g * (2 * (2 : ℚ) ^ j)) := by
    rw [zpow_add_one₀ (by norm_num), eE]
    ring
  generalize (2 : ℚ) ^ g = G at hG eE eE1 ⊢
  generalize (2 : ℚ) ^ j = H at hH q3 q4 q5 eE eE1 ⊢
  have hmmq : (4503599627370496 : ℚ) ≤ (mm : ℚ) := by exact_mod_cast hmm1
  by_cases hc : mm = 9007199254740992
  · simp only [if_pos hc, Dyadic.toRat]
    rw [eE1]
    subst hc
    push_cast at q3 q4 q5 ⊢
    refine ⟨by norm_num, by norm_num, ?_, ?_⟩
    · have h1 : (4503599627370496 * (2 * (G * (2 * H))) - 2 * (G * (2 * H)) / 2) ^ 2
          = (9007199254740992 * (2 * H) - 2 * H) ^ 2 * G ^ 2 := by ring
      rw [h1]
      apply mul_le_mul_of_nonneg_right _ (sq_nonneg G)
      refine le_trans ?_ q4
      apply pow_le_pow_left₀ (by linarith)
      linarith
    · have h1 : (4503599627370496 * (2 * (G * (2 * H))) + 2 * (G * (2 * H)) / 2) ^ 2
          = (9007199254740992 * (2 * H) + 2 * H) ^ 2 * G ^ 2 := by ring
      rw [h1]
      apply mul_le_mul_of_nonneg_right _ (sq_nonneg G)
      refine le_trans q5 ?_
      apply pow_le_pow_left₀ (by linarith)
      linarith
  · simp only [if_neg hc, Dyadic.toRat]
    rw [eE]
    push_cast
    refine ⟨by exact_mod_cast hmm1, by omega, ?_, ?_⟩
    · have h1 : ((mm : ℚ) * (G * (2 * H)) - G * (2 * H) / 2) ^ 2
          = ((mm : ℚ) * (2 * H) - H) ^ 2 * G ^ 2 := by ring
      rw [h1]
      exact mul_le_mul_of_nonneg_right q4 (sq_nonneg G)
    · have h1 : ((mm : ℚ) * (G * (2 * H)) + G * (2 * H) / 2) ^ 2
          = ((mm : ℚ) * (2 * H) + H) ^ 2 * G ^ 2 := by ring
      rw [h1]
      exact mul_le_mul_of_nonneg_right q5 (sq_nonneg G)


/-- The returned `mean` of line 62 is a correct rounding of `s1` times the stored `ceoff`
(`s1` itself, below `2^53`, converts exactly). -/
theorem meanDouble_rounds (win_r s1 : Int) (h : |s1| < 9007199254740992) :
    (meanDouble win_r s1).Rounds ((s1 : ℚ) * (ceoffDouble win_r).toRat) := by
  have := mulD_rounds (ofIntD s1) (ceoffDouble win_r)
  rwa [ofIntD_exact s1 h] at this

/-- The argument of `std::sqrt` on line 63 is built by three correctly rounded operations: the
product `t` of the converted `s1 * s1` with the stored `ceoff`, the difference `d` of `s2`
(below `2^53`, converted exactly) and `t`, and the product of the stored `ceoff` with `d`. -/
theorem argDouble_rounds (win_r s1 s2 : Int) (h : |s2| < 9007199254740992) :
    (mulD (ofIntD (s1 * s1)) (ceoffDouble win_r)).Rounds
        ((ofIntD (s1 * s1)).toRat * (ceoffDouble win_r).toRat) ∧
    (subD (ofIntD s2) (mulD (ofIntD (s1 * s1)) (ceoffDouble win_r))).Rounds
        ((s2 : ℚ) - (mulD (ofIntD (s1 * s1)) (ceoffDouble win_r)).toRat) ∧
    (argDouble win_r s1 s2).Rounds
        ((ceoffDouble win_r).toRat
          * (subD (ofIntD s2) (mulD (ofIntD (s1 * s1)) (ceoffDouble win_r))).toRat) := by
  refine ⟨mulD_rounds _ _, ?_, mulD_rounds _ _⟩
  have := subD_rounds (ofIntD s2) (mulD (ofIntD (s1 * s1)) (ceoffDouble win_r))
  rwa [ofIntD_exact s2 h] at this

/-- On a uniform patch with tables built without overflow, every valid window has `s1 = v * n`
and `s2 = v^2 * n`, `n` the number of samples of the window. -/
theorem CalcMeanStd_sums_uniform (img : Int → Nat) (T : Tables) (x0 y0 w_full : Int)
    (H W v : Nat) (hz : ZeroInit T ((H : Int) + 1) ((W : Int) + 1))
    (hu : UniformPatch img x0 y0 w_full H W (v : Int))
    (hno : NoOverflow img x0 y0 w_full H W)
    (px py win_r : Int) (hv : ValidWindow ((H : Int) + 1) ((W : Int) + 1) px py win_r) :
    CalcMeanStd_s1
        (IntegralPatch img T x0 y0 ((H : Int) + 1) ((W : Int) + 1) w_full).patch_integ
        ((W : Int) + 1) px py win_r
      = (v : Int) * ((2 * win_r + 1) * (2 * win_r + 1)) ∧
    CalcMeanStd_s2
        (IntegralPatch img T x0 y0 ((H : Int) + 1) ((W : Int) + 1) w_full).patch_pow_integ
        ((W : Int) + 1) px py win_r
      = (v : Int) * (v : Int) * ((2 * win_r + 1) * (2 * win_r + 1)) := by
  have eH : ((H : Int) + 1 - 1).toNat = H := by omega
  have eW : ((W : Int) + 1 - 1).toNat = W := by omega
  have hno2 : NoOverflow img x0 y0 w_full ((H : Int) + 1 - 1).toNat ((W : Int) + 1 - 1).toNat := by
    rw [eH, eW]; exact hno
  obtain ⟨h1, h2⟩ := cornerSums_of_summedArea img x0 y0 w_full _ _ _ _ px py win_r
    (IntegralPatch_summedArea img T x0 y0 _ _ w_full hz hno2) hv
  have hwin := windowSum_uniform img x0 y0 w_full H W v hu px py win_r hv
  exact ⟨h1.trans hwin.1, h2.trans hwin.2⟩

/-! ## The claims -/

/-- C1. `IntegralPatch` computes exact prefix sums: for 8-bit samples, any origin `(x0, y0)`, row
stride `w_full` and table shape `h_integ x w_integ` with
`65025 * (h_integ - 1) * (w_integ - 1) < 2^32`, if both tables are zero on entry then on return,
for all `0 ≤ i ≤ h_integ - 1` and `0 ≤ j ≤ w_integ - 1`, `patch_integ[i * w_integ + j]` is the sum
over `1 ≤ a ≤ i`, `1 ≤ b ≤ j` of `img[(y0 + a) * w_full + x0 + b]`, and
`patch_pow_integ[i * w_integ + j]` is the sum of the squares of the same samples.  The buffer is a
total map here, so the patch is inside it for every geometry. -/
theorem IntegralPatch_exact_prefix_sums (img : Int → Nat) (T : Tables)
    (x0 y0 h_integ w_integ w_full : Int) (h8 : EightBit img)
    (hov : 65025 * (h_integ - 1) * (w_integ - 1) < 4294967296)
    (hz : ZeroInit T h_integ w_integ) (i j : Nat)
    (hi : (i : Int) ≤ h_integ - 1) (hj : (j : Int) ≤ w_integ - 1) :
    (IntegralPatch img T x0 y0 h_integ w_integ w_full).patch_integ ((i : Int) * w_integ + (j : Int))
        = ∑ a ∈ Finset.Icc 1 i, ∑ b ∈ Finset.Icc 1 j,
            (img ((y0 + (a : Int)) * w_full + x0 + (b : Int)) : Int) ∧
    (IntegralPatch img T x0 y0 h_integ w_integ w_full).patch_pow_integ
        ((i : Int) * w_integ + (j : Int))
        = ∑ a ∈ Finset.Icc 1 i, ∑ b ∈ Finset.Icc 1 j,
            (img ((y0 + (a : Int)) * w_full + x0 + (b : Int)) : Int) ^ 2 := by
  have cH : (((h_integ - 1).toNat : Nat) : Int) = h_integ - 1 := Int.toNat_of_nonneg (by omega)
  have cW : (((w_integ - 1).toNat : Nat) : Int) = w_integ - 1 := Int.toNat_of_nonneg (by omega)
  have hno : NoOverflow img x0 y0 w_full (h_integ - 1).toNat (w_integ - 1).toNat :=
    noOverflow_of_size img x0 y0 w_full _ _ h8 (by rw [cH, cW]; exact hov)
  have hex := IntegralPatch_cell_exact img T x0 y0 h_integ w_integ w_full hz hno i j hi hj
  rw [hex.1, hex.2, prefixSum_eq_Icc, prefixSumSq_eq_Icc]
  exact ⟨rfl, rfl⟩

/-- C1, exercised on the uniform `13 x 13` patch of the program's `main` geometry. -/
theorem IntegralPatch_exact_prefix_sums_witness :
    EightBit img100 ∧ 65025 * ((14 : Int) - 1) * ((14 : Int) - 1) < 4294967296 ∧
    ZeroInit zeroTables 14 14 ∧
    (IntegralPatch img100 zeroTables 169 149 14 14 640).patch_integ (13 * 14 + 13) = 16900 ∧
    (IntegralPatch img100 zeroTables 169 149 14 14 640).patch_pow_integ (13 * 14 + 13)
      = 1690000 := by
  have h8 : EightBit img100 := fun _ => (by decide : (100 : Nat) ≤ 255)
  have hov : 65025 * ((14 : Int) - 1) * ((14 : Int) - 1) < 4294967296 := by decide
  have hz : ZeroInit zeroTables 14 14 := fun _ _ _ => ⟨rfl, rfl⟩
  have key := IntegralPatch_exact_prefix_sums img100 zeroTables 169 149 14 14 640 h8 hov hz 13 13
    (by decide) (by decide)
  refine ⟨h8, hov, hz, key.1.trans ?_, key.2.trans ?_⟩
  · simp [img100]
  · simp [img100]

/-- C2. End-to-end agreement with brute force: for every sample grid, every patch whose tables
were built by `IntegralPatch` from zero-initialised tables without overflow and every valid
window, `CalcMeanStd` returns `mean = S / n` and `std = sqrt (Q / n - (S / n)^2)`, where
`n = (2 r + 1)^2` and `S`, `Q` are the sum and the sum of squares obtained by iterating the
pixels of the window `[px - r, px + r] x [py - r, py + r]` of the patch (the `double` arithmetic
read as exact real arithmetic); in particular `std` is a number, not NaN. -/
theorem CalcMeanStd_eq_brute_force (img : Int → Nat) (T : Tables)
    (x0 y0 h_integ w_integ w_full px py win_r : Int) (hz : ZeroInit T h_integ w_integ)
    (hno : NoOverflow img x0 y0 w_full (h_integ - 1).toNat (w_integ - 1).toNat)
    (hv : ValidWindow h_integ w_integ px py win_r) :
    CalcMeanStd (IntegralPatch img T x0 y0 h_integ w_integ w_full).patch_integ
        (IntegralPatch img T x0 y0 h_integ w_integ w_full).patch_pow_integ
        h_integ w_integ px py win_r
      = ((windowSum img x0 y0 w_full px py win_r : ℝ) / (2 * (win_r : ℝ) + 1) ^ 2,
          some (Real.sqrt
            ((windowSumSq img x0 y0 w_full px py win_r : ℝ) / (2 * (win_r : ℝ) + 1) ^ 2
              - ((windowSum img x0 y0 w_full px py win_r : ℝ) / (2 * (win_r : ℝ) + 1) ^ 2) ^ 2))) := by
  obtain ⟨h1, h2⟩ := cornerSums_of_summedArea img x0 y0 w_full _ _ h_integ w_integ px py win_r
    (IntegralPatch_summedArea img T x0 y0 h_integ w_integ w_full hz hno) hv
  exact CalcMeanStd_of_sums _ _ h_integ w_integ px py win_r _ _ h1 h2
    (windowSum_sq_le img x0 y0 w_full px py win_r hv.1)

set_option maxRecDepth 100000 in
/-- C2, exercised on the `5 x 5` window centred at `(3, 4)` of the `13 x 13` ramp patch: the
window holds `S = 1375`, `Q = 84125`, so `mean = 55` and `std = sqrt 340`. -/
theorem CalcMeanStd_eq_brute_force_witness :
    ZeroInit zeroTables 14 14 ∧
    NoOverflow imgRamp (-1) (-1) 13 ((14 : Int) - 1).toNat ((14 : Int) - 1).toNat ∧
    ValidWindow 14 14 3 4 2 ∧
    CalcMeanStd (IntegralPatch imgRamp zeroTables (-1) (-1) 14 14 13).patch_integ
        (IntegralPatch imgRamp zeroTables (-1) (-1) 14 14 13).patch_pow_integ 14 14 3 4 2
      = ((55 : ℝ), some (Real.sqrt 340)) := by
  have hz : ZeroInit zeroTables 14 14 := fun _ _ _ => ⟨rfl, rfl⟩
  have hno : NoOverflow imgRamp (-1) (-1) 13 ((14 : Int) - 1).toNat ((14 : Int) - 1).toNat := by
    unfold NoOverflow; decide
  have hv : ValidWindow 14 14 3 4 2 := by unfold ValidWindow; decide
  have key := CalcMeanStd_eq_brute_force imgRamp zeroTables (-1) (-1) 14 14 13 3 4 2 hz hno hv
  have hS : windowSum imgRamp (-1) (-1) 13 3 4 2 = 1375 := by decide
  have hQ : windowSumSq imgRamp (-1) (-1) 13 3 4 2 = 84125 := by decide
  rw [hS, hQ] at key
  refine ⟨hz, hno, hv, key.trans ?_⟩
  norm_num

/-- C3. Four-corner lookup yields the window sums: for every pair of tables that satisfy the
summed-area convention for some patch (cell `(i, j)` holds the sum, resp. the sum of squares, of
the patch samples in rows `0 .. i-1` and columns `0 .. j-1`, all values below `2^32`) and every
valid window with centre `(px, py)` and radius `r`, the integers `s1` and `s2` computed inside
`CalcMeanStd` as `table[d] + table[a] - table[b] - table[c]` equal the sum and the sum of squares
of the patch samples at local rows `py - r .. py + r` and columns `px - r .. px + r`. -/
theorem CalcMeanStd_corner_lookup (img : Int → Nat) (x0 y0 w_full : Int)
    (patch_integ patch_pow_integ : Int → Int) (h_integ w_integ px py win_r : Int)
    (hsa : SummedArea img x0 y0 w_full patch_integ patch_pow_integ h_integ w_integ)
    (hv : ValidWindow h_integ w_integ px py win_r) :
    CalcMeanStd_s1 patch_integ w_integ px py win_r = windowSum img x0 y0 w_full px py win_r ∧
    CalcMeanStd_s2 patch_pow_integ w_integ px py win_r
      = windowSumSq img x0 y0 w_full px py win_r :=
  cornerSums_of_summedArea img x0 y0 w_full patch_integ patch_pow_integ h_integ w_integ px py
    win_r hsa hv

set_option maxRecDepth 100000 in
/-- C3, exercised on hand-written tables of a `2 x 2` patch holding `1 2 / 3 4` (buffer
`imgRamp`, patch origin at sample `1`, stride `2`): the radius-0 window at `(1, 1)` gives
`s1 = 4`, `s2 = 16`. -/
theorem CalcMeanStd_corner_lookup_witness :
    SummedArea imgRamp 0 (-1) 2
      (fun q => if q = 4 then 1 else if q = 5 then 3 else if q = 7 then 4 else
        if q = 8 then 10 else 0)
      (fun q => if q = 4 then 1 else if q = 5 then 5 else if q = 7 then 10 else
        if q = 8 then 30 else 0) 3 3 ∧
    ValidWindow 3 3 1 1 0 ∧
    CalcMeanStd_s1 (fun q => if q = 4 then 1 else if q = 5 then 3 else if q = 7 then 4 else
        if q = 8 then 10 else 0) 3 1 1 0 = 4 ∧
    CalcMeanStd_s2 (fun q => if q = 4 then 1 else if q = 5 then 5 else if q = 7 then 10 else
        if q = 8 then 30 else 0) 3 1 1 0 = 16 := by
  have hsa : SummedArea imgRamp 0 (-1) 2
      (fun q => if q = 4 then 1 else if q = 5 then 3 else if q = 7 then 4 else
        if q = 8 then 10 else 0)
      (fun q => if q = 4 then 1 else if q = 5 then 5 else if q = 7 then 10 else
        if q = 8 then 30 else 0) 3 3 := by
    intro i j hi hj
    have hi2 : i ≤ 2 := by omega
    have hj2 : j ≤ 2 := by omega
    interval_cases i <;> interval_cases j <;> decide
  have hv : ValidWindow 3 3 1 1 0 := by unfold ValidWindow; decide
  have key := CalcMeanStd_corner_lookup imgRamp 0 (-1) 2 _ _ 3 3 1 1 0 hsa hv
  have hS : windowSum imgRamp 0 (-1) 2 1 1 0 = 4 := by decide
  have hQ : windowSumSq imgRamp 0 (-1) 2 1 1 0 = 16 := by decide
  exact ⟨hsa, hv, key.1.trans hS, key.2.trans hQ⟩

/-- C4, as stated, fails: for the saturated `4105 x 4105` patch (all samples `255`) built from
zero-initialised tables, the bottom-right cell of `patch_integ` holds `2044079`, whereas the
brute-force sum of the patch is `4297011375`. -/
theorem IntegralPatch_bottom_right_wraps :
    (IntegralPatch img255 zeroTables (-1) (-1) 4106 4106 4105).patch_integ (4105 * 4106 + 4105)
      = 2044079 ∧
    prefixSum img255 (-1) (-1) 4105 4105 4105 = 4297011375 ∧
    (IntegralPatch img255 zeroTables (-1) (-1) 4106 4106 4105).patch_integ (4105 * 4106 + 4105)
      ≠ prefixSum img255 (-1) (-1) 4105 4105 4105 := by
  have hsum : prefixSum img255 (-1) (-1) 4105 4105 4105 = 4297011375 :=
    (prefixSum_uniform img255 (-1) (-1) 4105 4105 4105 255 (fun _ _ _ _ => rfl) 4105 4105 le_rfl
      le_rfl).1.trans (by decide)
  have hcell := (IntegralPatch_cell_mod img255 zeroTables (-1) (-1) 4106 4106 4105
    (zeroTables_zeroInit 4106 4106) 4105 4105 (by decide) (by decide)).1
  rw [hsum] at hcell
  have hval : (IntegralPatch img255 zeroTables (-1) (-1) 4106 4106 4105).patch_integ
      (4105 * 4106 + 4105) = 2044079 := hcell.trans (by decide)
  refine ⟨hval, hsum, ?_⟩
  rw [hval, hsum]
  decide

/-- C4 (amended). For any sample grid and any patch of height `H` and width `W`, after
`IntegralPatch` runs on zero-initialised tables the bottom-right cell
`patch_integ[H * w_integ + W]` equals the brute-force sum of all samples of the patch reduced
modulo `2^32`; it equals the sum itself whenever that sum is below `2^32`, in particular whenever
the samples are 8-bit and `255 * H * W < 2^32`. -/
theorem IntegralPatch_bottom_right (img : Int → Nat) (T : Tables) (x0 y0 w_full : Int)
    (H W : Nat) (hz : ZeroInit T ((H : Int) + 1) ((W : Int) + 1)) :
    (IntegralPatch img T x0 y0 ((H : Int) + 1) ((W : Int) + 1) w_full).patch_integ
        ((H : Int) * ((W : Int) + 1) + (W : Int))
      = prefixSum img x0 y0 w_full H W % 4294967296 ∧
    (prefixSum img x0 y0 w_full H W < 4294967296 →
      (IntegralPatch img T x0 y0 ((H : Int) + 1) ((W : Int) + 1) w_full).patch_integ
          ((H : Int) * ((W : Int) + 1) + (W : Int))
        = prefixSum img x0 y0 w_full H W) ∧
    (EightBit img → 255 * (H : Int) * (W : Int) < 4294967296 →
      (IntegralPatch img T x0 y0 ((H : Int) + 1) ((W : Int) + 1) w_full).patch_integ
          ((H : Int) * ((W : Int) + 1) + (W : Int))
        = prefixSum img x0 y0 w_full H W) := by
  have hmod := (IntegralPatch_cell_mod img T x0 y0 ((H : Int) + 1) ((W : Int) + 1) w_full hz H W
    (by omega) (by omega)).1
  have h0 := prefixSum_nonneg img x0 y0 w_full H W
  refine ⟨hmod, fun hlt => ?_, fun h8 hsz => ?_⟩
  · rw [hmod]
    exact wrapU32_of_range _ h0 hlt
  · rw [hmod]
    refine wrapU32_of_range _ h0 (lt_of_le_of_lt ?_ hsz)
    apply rectSum_le_const
    intro a b
    unfold patchSample
    exact_mod_cast h8 _

set_option maxRecDepth 100000 in
/-- C4 (amended), exercised on the `13 x 13` ramp patch: the bottom-right cell is `14196`. -/
theorem IntegralPatch_bottom_right_witness :
    ZeroInit zeroTables (((13 : Nat) : Int) + 1) (((13 : Nat) : Int) + 1) ∧
    (IntegralPatch imgRamp zeroTables (-1) (-1) (((13 : Nat) : Int) + 1) (((13 : Nat) : Int) + 1)
        13).patch_integ (((13 : Nat) : Int) * (((13 : Nat) : Int) + 1) + ((13 : Nat) : Int))
      = 14196 := by
  have hz : ZeroInit zeroTables (((13 : Nat) : Int) + 1) (((13 : Nat) : Int) + 1) :=
    fun _ _ _ => ⟨rfl, rfl⟩
  have key := IntegralPatch_bottom_right imgRamp zeroTables (-1) (-1) 13 13 13 hz
  have hsum : prefixSum imgRamp (-1) (-1) 13 13 13 = 14196 := by decide
  exact ⟨hz, (key.2.1 (by rw [hsum]; decide)).trans hsum⟩

/-- C5, as stated, fails: for the `258 x 257` patch whose samples are all `255`, the bottom-right
cell of the sum-of-squares table built by `IntegralPatch` is `16580354`, the true value
`65025 * 258 * 257 = 4311547650` reduced modulo `2^32`, and not the true value. -/
theorem IntegralPatch_overflow_is_silent :
    (IntegralPatch img255 zeroTables (-1) (-1) 259 258 257).patch_pow_integ (258 * 258 + 257)
      = 16580354 ∧
    (16580354 : Int) = 65025 * 258 * 257 % 4294967296 ∧
    (IntegralPatch img255 zeroTables (-1) (-1) 259 258 257).patch_pow_integ (258 * 258 + 257)
      ≠ 65025 * 258 * 257 := by
  have hsum : prefixSumSq img255 (-1) (-1) 257 258 257 = 4311547650 :=
    (prefixSum_uniform img255 (-1) (-1) 257 258 257 255 (fun _ _ _ _ => rfl) 258 257 le_rfl
      le_rfl).2.trans (by decide)
  have hcell := (IntegralPatch_cell_mod img255 zeroTables (-1) (-1) 259 258 257
    (zeroTables_zeroInit 259 258) 258 257 (by decide) (by decide)).2
  rw [hsum] at hcell
  have hval : (IntegralPatch img255 zeroTables (-1) (-1) 259 258 257).patch_pow_integ
      (258 * 258 + 257) = 16580354 := hcell.trans (by decide)
  refine ⟨hval, by decide, ?_⟩
  rw [hval]
  decide

/-- C5 (amended). For a patch of height `H` and width `W` whose samples are all `255`, the
bottom-right cell of the sum-of-squares table produced by `IntegralPatch` from zero-initialised
tables is `65025 * H * W` reduced modulo `2^32`: the builder neither flags the overflow nor uses
a wider accumulator, and the cell is the true value `65025 * H * W` exactly when that value is
below `2^32`. -/
theorem IntegralPatch_saturated_bottom_right (img : Int → Nat) (T : Tables) (x0 y0 w_full : Int)
    (H W : Nat) (hz : ZeroInit T ((H : Int) + 1) ((W : Int) + 1))
    (hu : UniformPatch img x0 y0 w_full H W 255) :
    (IntegralPatch img T x0 y0 ((H : Int) + 1) ((W : Int) + 1) w_full).patch_pow_integ
        ((H : Int) * ((W : Int) + 1) + (W : Int))
      = 65025 * (H : Int) * (W : Int) % 4294967296 ∧
    ((IntegralPatch img T x0 y0 ((H : Int) + 1) ((W : Int) + 1) w_full).patch_pow_integ
        ((H : Int) * ((W : Int) + 1) + (W : Int))
      = 65025 * (H : Int) * (W : Int) ↔ 65025 * (H : Int) * (W : Int) < 4294967296) := by
  have hmod := (IntegralPatch_cell_mod img T x0 y0 ((H : Int) + 1) ((W : Int) + 1) w_full hz H W
    (by omega) (by omega)).2
  have hsq := (prefixSum_uniform img x0 y0 w_full H W 255 hu H W le_rfl le_rfl).2
  rw [hsq] at hmod
  have hm : (255 : Int) * 255 * H * W = 65025 * (H : Int) * (W : Int) := by ring
  rw [hm] at hmod
  unfold wrapU32 at hmod
  have hnn : (0 : Int) ≤ 65025 * (H : Int) * (W : Int) := by positivity
  refine ⟨hmod, ?_⟩
  rw [hmod]
  constructor
  · intro h; omega
  · intro h; omega

/-- C5 (amended), exercised on a `2 x 3` saturated patch: the cell is `65025 * 2 * 3`. -/
theorem IntegralPatch_saturated_bottom_right_witness :
    ZeroInit zeroTables (((2 : Nat) : Int) + 1) (((3 : Nat) : Int) + 1) ∧
    UniformPatch img255 (-1) (-1) 3 2 3 255 ∧
    (IntegralPatch img255 zeroTables (-1) (-1) (((2 : Nat) : Int) + 1) (((3 : Nat) : Int) + 1)
        3).patch_pow_integ (((2 : Nat) : Int) * (((3 : Nat) : Int) + 1) + ((3 : Nat) : Int))
      = 390150 := by
  have hz : ZeroInit zeroTables (((2 : Nat) : Int) + 1) (((3 : Nat) : Int) + 1) :=
    fun _ _ _ => ⟨rfl, rfl⟩
  have hu : UniformPatch img255 (-1) (-1) 3 2 3 255 := fun _ _ _ _ => rfl
  have key := IntegralPatch_saturated_bottom_right img255 zeroTables (-1) (-1) 3 2 3 hz hu
  exact ⟨hz, hu, key.1.trans (by decide)⟩

/-- C6. Padding border: `IntegralPatch` writes no cell of row `0` or column `0` of either table
(every cell with `i = 0` or `j = 0` holds on return the value it held on entry), so tables that
were zero-initialised before the call have row `0` and column `0` identically zero after it,
for every sample grid and patch geometry. -/
theorem IntegralPatch_border_untouched (img : Int → Nat) (T : Tables)
    (x0 y0 h_integ w_integ w_full : Int) (i j : Int)
    (hi0 : 0 ≤ i) (hi : i < h_integ) (hj0 : 0 ≤ j) (hj : j < w_integ) (hb : i = 0 ∨ j = 0) :
    ((IntegralPatch img T x0 y0 h_integ w_integ w_full).patch_integ (i * w_integ + j)
        = T.patch_integ (i * w_integ + j) ∧
      (IntegralPatch img T x0 y0 h_integ w_integ w_full).patch_pow_integ (i * w_integ + j)
        = T.patch_pow_integ (i * w_integ + j)) ∧
    (ZeroInit T h_integ w_integ →
      (IntegralPatch img T x0 y0 h_integ w_integ w_full).patch_integ (i * w_integ + j) = 0 ∧
      (IntegralPatch img T x0 y0 h_integ w_integ w_full).patch_pow_integ (i * w_integ + j) = 0) := by
  have h1 : (IntegralPatch img T x0 y0 h_integ w_integ w_full).patch_integ (i * w_integ + j)
      = T.patch_integ (i * w_integ + j) := by
    rw [IntegralPatch_integ]
    exact rowsStep_border _ w_integ _ _ i j hj0 hj hb
  have h2 : (IntegralPatch img T x0 y0 h_integ w_integ w_full).patch_pow_integ (i * w_integ + j)
      = T.patch_pow_integ (i * w_integ + j) := by
    rw [IntegralPatch_pow]
    exact rowsStep_border _ w_integ _ _ i j hj0 hj hb
  refine ⟨⟨h1, h2⟩, fun hz => ?_⟩
  have hb2 := idx_bounds h_integ w_integ i j hi0 (by omega) hj0 (by omega)
  rw [h1, h2]
  exact hz _ hb2.1 hb2.2

/-- C6, exercised on tables that are not zero on entry: cell `(3, 0)` of a `14 x 14` table keeps
its entry values `42 + 7` and `42 + 9`. -/
theorem IntegralPatch_border_untouched_witness :
    (0 : Int) ≤ 3 ∧ (3 : Int) < 14 ∧ (0 : Int) ≤ 0 ∧ (0 : Int) < 14 ∧ ((3 : Int) = 0 ∨ (0 : Int) = 0) ∧
    (IntegralPatch imgRamp ⟨fun q => q + 7, fun q => q + 9⟩ 169 149 14 14 640).patch_integ
        (3 * 14 + 0) = 49 ∧
    (IntegralPatch imgRamp ⟨fun q => q + 7, fun q => q + 9⟩ 169 149 14 14 640).patch_pow_integ
        (3 * 14 + 0) = 51 :=
  ⟨by decide, by decide, by decide, by decide, Or.inr rfl,
    (IntegralPatch_border_untouched imgRamp ⟨fun q => q + 7, fun q => q + 9⟩ 169 149 14 14 640 3 0
      (by decide) (by decide) (by decide) (by decide) (Or.inr rfl)).1.1.trans (by decide),
    (IntegralPatch_border_untouched imgRamp ⟨fun q => q + 7, fun q => q + 9⟩ 169 149 14 14 640 3 0
      (by decide) (by decide) (by decide) (by decide) (Or.inr rfl)).1.2.trans (by decide)⟩

/-- C7. Radius-0 window: for every patch whose tables were built by `IntegralPatch` from
zero-initialised tables without overflow and every centre `(px, py)` with `0 ≤ px ≤ W - 1` and
`0 ≤ py ≤ H - 1` (`W = w_integ - 1`, `H = h_integ - 1`), `CalcMeanStd` with `win_r = 0` returns
`mean` equal to the single sample `img[(y0 + 1 + py) * w_full + x0 + 1 + px]` and `std = 0`
(exact arithmetic). -/
theorem CalcMeanStd_radius_zero (img : Int → Nat) (T : Tables)
    (x0 y0 h_integ w_integ w_full px py : Int) (hz : ZeroInit T h_integ w_integ)
    (hno : NoOverflow img x0 y0 w_full (h_integ - 1).toNat (w_integ - 1).toNat)
    (hx0 : 0 ≤ px) (hx : px ≤ w_integ - 1 - 1) (hy0 : 0 ≤ py) (hy : py ≤ h_integ - 1 - 1) :
    CalcMeanStd (IntegralPatch img T x0 y0 h_integ w_integ w_full).patch_integ
        (IntegralPatch img T x0 y0 h_integ w_integ w_full).patch_pow_integ
        h_integ w_integ px py 0
      = ((img ((y0 + 1 + py) * w_full + x0 + 1 + px) : ℝ), some 0) := by
  have hv : ValidWindow h_integ w_integ px py 0 := by
    unfold ValidWindow; omega
  obtain ⟨h1, h2⟩ := cornerSums_of_summedArea img x0 y0 w_full _ _ h_integ w_integ px py 0
    (IntegralPatch_summedArea img T x0 y0 h_integ w_integ w_full hz hno) hv
  have hS : windowSum img x0 y0 w_full px py 0 = patchSample img x0 y0 w_full px py := by
    simp [windowSum]
  have hQ : windowSumSq img x0 y0 w_full px py 0
      = patchSample img x0 y0 w_full px py * patchSample img x0 y0 w_full px py := by
    simp [windowSumSq]
  rw [hS] at h1
  rw [hQ] at h2
  rw [CalcMeanStd_of_sums _ _ h_integ w_integ px py 0 _ _ h1 h2 (by simp)]
  unfold patchSample
  refine Prod.ext ?_ ?_
  · simp
  · simp
    rw [← sq, sub_self, Real.sqrt_zero]

set_option maxRecDepth 100000 in
/-- C7, exercised on the `13 x 13` ramp patch: the radius-0 window at `(5, 2)` has mean
`13 * 2 + 5 = 31` and `std = 0`. -/
theorem CalcMeanStd_radius_zero_witness :
    ZeroInit zeroTables 14 14 ∧
    NoOverflow imgRamp (-1) (-1) 13 ((14 : Int) - 1).toNat ((14 : Int) - 1).toNat ∧
    (0 : Int) ≤ 5 ∧ (5 : Int) ≤ 14 - 1 - 1 ∧ (0 : Int) ≤ 2 ∧ (2 : Int) ≤ 14 - 1 - 1 ∧
    CalcMeanStd (IntegralPatch imgRamp zeroTables (-1) (-1) 14 14 13).patch_integ
        (IntegralPatch imgRamp zeroTables (-1) (-1) 14 14 13).patch_pow_integ 14 14 5 2 0
      = ((31 : ℝ), some 0) := by
  have hz : ZeroInit zeroTables 14 14 := fun _ _ _ => ⟨rfl, rfl⟩
  have hno : NoOverflow imgRamp (-1) (-1) 13 ((14 : Int) - 1).toNat ((14 : Int) - 1).toNat := by
    unfold NoOverflow; decide
  have key := CalcMeanStd_radius_zero imgRamp zeroTables (-1) (-1) 14 14 13 5 2 hz hno
    (by decide) (by decide) (by decide) (by decide)
  have hsample : imgRamp ((-1 + 1 + 2) * 13 + -1 + 1 + 5) = 31 := by decide
  rw [hsample] at key
  refine ⟨hz, hno, by decide, by decide, by decide, by decide, key.trans ?_⟩
  norm_num

/-- C8, as stated, fails for the `double`s the code returns.  The `31 x 31` patch whose samples
are all `1` (`r = 15`, tables `32 x 32` built from zeroed tables, no overflow) has sum and sum of
squares `961`, so its global mean is `1` and its global std is `0`; `s1 = s2 = 961` are the
bottom-right cells.  Line 45 stores `ceoff = 4798840810018094 * 2^-62`, the `double` nearest to
`1 / 961` (`961 * 4798840810018094 = 2^62 + 430`).  Then
`s1 * s1 * ceoff = 961 + 413230 * 2^-62` rounds up to `961 + 2^-43`, `s2` minus that is `-2^-43`,
and the argument of `sqrt` is `-ceoff * 2^-43`, about `-1.18e-16`: the returned `std` is NaN
(while the returned `mean` is `1.0`). -/
theorem CalcMeanStd_whole_patch_nan :
    ZeroInit zeroTables 32 32 ∧
    NoOverflow img1 (-1) (-1) 31 31 31 ∧
    ValidWindow 32 32 15 15 15 ∧
    prefixSum img1 (-1) (-1) 31 31 31 = 961 ∧
    prefixSumSq img1 (-1) (-1) 31 31 31 = 961 ∧
    (IntegralPatch img1 zeroTables (-1) (-1) 32 32 31).patch_integ (31 * 32 + 31) = 961 ∧
    (IntegralPatch img1 zeroTables (-1) (-1) 32 32 31).patch_pow_integ (31 * 32 + 31) = 961 ∧
    CalcMeanStd_s1 (IntegralPatch img1 zeroTables (-1) (-1) 32 32 31).patch_integ 32 15 15 15
      = 961 ∧
    CalcMeanStd_s2 (IntegralPatch img1 zeroTables (-1) (-1) 32 32 31).patch_pow_integ 32 15 15 15
      = 961 ∧
    ceoffDouble 15 = ⟨4798840810018094, -62⟩ ∧
    argDouble 15 961 961 = ⟨-4798840810018094, -105⟩ ∧
    CalcMeanStd_double (IntegralPatch img1 zeroTables (-1) (-1) 32 32 31).patch_integ
        (IntegralPatch img1 zeroTables (-1) (-1) 32 32 31).patch_pow_integ 32 32 15 15 15
      = (ofIntD 1, none) := by
  have hz : ZeroInit zeroTables (((31 : Nat) : Int) + 1) (((31 : Nat) : Int) + 1) :=
    fun _ _ _ => ⟨rfl, rfl⟩
  have hu : UniformPatch img1 (-1) (-1) 31 31 31 ((1 : Nat) : Int) := fun _ _ _ _ => rfl
  have hp := prefixSum_uniform img1 (-1) (-1) 31 31 31 1 hu 31 31 le_rfl le_rfl
  have hS : prefixSum img1 (-1) (-1) 31 31 31 = 961 := hp.1.trans (by decide)
  have hQ : prefixSumSq img1 (-1) (-1) 31 31 31 = 961 := hp.2.trans (by decide)
  have hno : NoOverflow img1 (-1) (-1) 31 31 31 := by
    unfold NoOverflow
    rw [hQ]
    decide
  have hv : ValidWindow (((31 : Nat) : Int) + 1) (((31 : Nat) : Int) + 1) 15 15 15 := by
    unfold ValidWindow; decide
  have hcell := IntegralPatch_cell_exact img1 zeroTables (-1) (-1) 32 32 31
    (fun _ _ _ => ⟨rfl, rfl⟩) hno 31 31 (by decide) (by decide)
  push_cast at hcell
  obtain ⟨h1, h2⟩ := CalcMeanStd_sums_uniform img1 zeroTables (-1) (-1) 31 31 31 1 hz hu hno
    15 15 15 hv
  have s1 : CalcMeanStd_s1 (IntegralPatch img1 zeroTables (-1) (-1) 32 32 31).patch_integ
      32 15 15 15 = 961 := h1
  have s2 : CalcMeanStd_s2 (IntegralPatch img1 zeroTables (-1) (-1) 32 32 31).patch_pow_integ
      32 15 15 15 = 961 := h2
  have hm : meanDouble 15 961 = ofIntD 1 := by
    set_option maxRecDepth 1000000 in decide
  have ha : argDouble 15 961 961 = ⟨-4798840810018094, -105⟩ := by
    set_option maxRecDepth 1000000 in decide
  have hs : sqrtD ⟨-4798840810018094, -105⟩ = none := by
    set_option maxRecDepth 1000000 in decide
  have hc : ceoffDouble 15 = ⟨4798840810018094, -62⟩ := by
    set_option maxRecDepth 1000000 in decide
  refine ⟨fun _ _ _ => ⟨rfl, rfl⟩, hno, hv, hS, hQ, hcell.1.trans hS, hcell.2.trans hQ, s1, s2,
    hc, ha, ?_⟩
  unfold CalcMeanStd_double
  rw [s1, s2, hm, ha, hs]

set_option maxRecDepth 1000000 in
/-- C8 (amended). Whole-patch window: for every square patch of side `2 r + 1`
(`H = W = 2 r + 1`) whose tables were built from zero-initialised tables without overflow,
`CalcMeanStd` with centre `(r, r)` and radius `r` uses `s1 = patch_integ[H * w_integ + W]` and
`s2 = patch_pow_integ[H * w_integ + W]`, these are the sum and the sum of squares of the whole
patch, and, with the `double` operations of lines 45, 62 and 63 read as exact arithmetic, it
returns the global mean `sum / (H * W)` and the global std `sqrt (sumSq / (H * W) - mean^2)`
(the `double`s the code returns can differ by rounding, up to a NaN `std`).  In particular, for
the `13 x 13` patch holding `0 .. 168` row-major with centre `(6, 6)` and radius `6`:
`s1 = 14196`, `s2 = 1594684`, `mean = 84` and `std^2 = 2380`; there the `double`s agree: the
returned `mean` is the `double` `84.0`, the argument of `sqrt` is the `double` `2380.0`, and the
returned `std` is its correctly rounded root `6865912663003170 * 2^-47`. -/
theorem CalcMeanStd_whole_patch :
    (∀ (img : Int → Nat) (T : Tables) (x0 y0 w_full : Int) (r : Nat),
      ZeroInit T (2 * (r : Int) + 2) (2 * (r : Int) + 2) →
      NoOverflow img x0 y0 w_full (2 * r + 1) (2 * r + 1) →
      CalcMeanStd_s1
          (IntegralPatch img T x0 y0 (2 * (r : Int) + 2) (2 * (r : Int) + 2) w_full).patch_integ
          (2 * (r : Int) + 2) r r r
        = (IntegralPatch img T x0 y0 (2 * (r : Int) + 2) (2 * (r : Int) + 2) w_full).patch_integ
            ((2 * (r : Int) + 1) * (2 * (r : Int) + 2) + (2 * (r : Int) + 1)) ∧
      CalcMeanStd_s2
          (IntegralPatch img T x0 y0 (2 * (r : Int) + 2) (2 * (r : Int) + 2)
            w_full).patch_pow_integ
          (2 * (r : Int) + 2) r r r
        = (IntegralPatch img T x0 y0 (2 * (r : Int) + 2) (2 * (r : Int) + 2)
            w_full).patch_pow_integ
            ((2 * (r : Int) + 1) * (2 * (r : Int) + 2) + (2 * (r : Int) + 1)) ∧
      CalcMeanStd_s1
          (IntegralPatch img T x0 y0 (2 * (r : Int) + 2) (2 * (r : Int) + 2) w_full).patch_integ
          (2 * (r : Int) + 2) r r r
        = prefixSum img x0 y0 w_full (2 * r + 1) (2 * r + 1) ∧
      CalcMeanStd_s2
          (IntegralPatch img T x0 y0 (2 * (r : Int) + 2) (2 * (r : Int) + 2)
            w_full).patch_pow_integ
          (2 * (r : Int) + 2) r r r
        = prefixSumSq img x0 y0 w_full (2 * r + 1) (2 * r + 1) ∧
      CalcMeanStd
          (IntegralPatch img T x0 y0 (2 * (r : Int) + 2) (2 * (r : Int) + 2) w_full).patch_integ
          (IntegralPatch img T x0 y0 (2 * (r : Int) + 2) (2 * (r : Int) + 2)
            w_full).patch_pow_integ
          (2 * (r : Int) + 2) (2 * (r : Int) + 2) r r r
        = ((prefixSum img x0 y0 w_full (2 * r + 1) (2 * r + 1) : ℝ)
              / ((2 * (r : ℝ) + 1) * (2 * (r : ℝ) + 1)),
            some (Real.sqrt ((prefixSumSq img x0 y0 w_full (2 * r + 1) (2 * r + 1) : ℝ)
                / ((2 * (r : ℝ) + 1) * (2 * (r : ℝ) + 1))
              - ((prefixSum img x0 y0 w_full (2 * r + 1) (2 * r + 1) : ℝ)
                / ((2 * (r : ℝ) + 1) * (2 * (r : ℝ) + 1))) ^ 2)))) ∧
    (CalcMeanStd_s1 (IntegralPatch imgRamp zeroTables (-1) (-1) 14 14 13).patch_integ 14 6 6 6
        = 14196 ∧
      CalcMeanStd_s2 (IntegralPatch imgRamp zeroTables (-1) (-1) 14 14 13).patch_pow_integ
        14 6 6 6 = 1594684 ∧
      (CalcMeanStd (IntegralPatch imgRamp zeroTables (-1) (-1) 14 14 13).patch_integ
        (IntegralPatch imgRamp zeroTables (-1) (-1) 14 14 13).patch_pow_integ 14 14 6 6 6).1
        = 84 ∧
      ∃ std : ℝ,
        (CalcMeanStd (IntegralPatch imgRamp zeroTables (-1) (-1) 14 14 13).patch_integ
          (IntegralPatch imgRamp zeroTables (-1) (-1) 14 14 13).patch_pow_integ 14 14 6 6 6).2
          = some std ∧ std ^ 2 = 2380) ∧
    (CalcMeanStd_double (IntegralPatch imgRamp zeroTables (-1) (-1) 14 14 13).patch_integ
        (IntegralPatch imgRamp zeroTables (-1) (-1) 14 14 13).patch_pow_integ 14 14 6 6 6
        = (ofIntD 84, some ⟨6865912663003170, -47⟩) ∧
      argDouble 6 14196 1594684 = ofIntD 2380 ∧
      sqrtD (ofIntD 2380) = some ⟨6865912663003170, -47⟩) := by
  have general : ∀ (img : Int → Nat) (T : Tables) (x0 y0 w_full : Int) (r : Nat),
      ZeroInit T (2 * (r : Int) + 2) (2 * (r : Int) + 2) →
      NoOverflow img x0 y0 w_full (2 * r + 1) (2 * r + 1) →
      (CalcMeanStd_s1
          (IntegralPatch img T x0 y0 (2 * (r : Int) + 2) (2 * (r : Int) + 2) w_full).patch_integ
          (2 * (r : Int) + 2) r r r
        = prefixSum img x0 y0 w_full (2 * r + 1) (2 * r + 1) ∧
      CalcMeanStd_s2
          (IntegralPatch img T x0 y0 (2 * (r : Int) + 2) (2 * (r : Int) + 2)
            w_full).patch_pow_integ
          (2 * (r : Int) + 2) r r r
        = prefixSumSq img x0 y0 w_full (2 * r + 1) (2 * r + 1)) ∧
      prefixSum img x0 y0 w_full (2 * r + 1) (2 * r + 1)
          * prefixSum img x0 y0 w_full (2 * r + 1) (2 * r + 1)
        ≤ (2 * (r : Int) + 1) * (2 * (r : Int) + 1)
          * prefixSumSq img x0 y0 w_full (2 * r + 1) (2 * r + 1) := by
    intro img T x0 y0 w_full r hz hno
    have eN : (2 * (r : Int) + 2 - 1).toNat = 2 * r + 1 := by omega
    have hno2 : NoOverflow img x0 y0 w_full (2 * (r : Int) + 2 - 1).toNat
        (2 * (r : Int) + 2 - 1).toNat := by rw [eN]; exact hno
    have hv : ValidWindow (2 * (r : Int) + 2) (2 * (r : Int) + 2) r r r := by
      unfold ValidWindow; omega
    obtain ⟨h1, h2⟩ := cornerSums_of_summedArea img x0 y0 w_full _ _ _ _ _ _ _
      (IntegralPatch_summedArea img T x0 y0 _ _ w_full hz hno2) hv
    have hcs := windowSum_sq_le img x0 y0 w_full r r r (by omega)
    have w1 : windowSum img x0 y0 w_full r r r
        = prefixSum img x0 y0 w_full (2 * r + 1) (2 * r + 1) :=
      windowSum_whole (fun x y => patchSample img x0 y0 w_full x y) r
    have w2 : windowSumSq img x0 y0 w_full r r r
        = prefixSumSq img x0 y0 w_full (2 * r + 1) (2 * r + 1) :=
      windowSum_whole
        (fun x y => patchSample img x0 y0 w_full x y * patchSample img x0 y0 w_full x y) r
    rw [w1, w2] at hcs
    rw [w1] at h1
    rw [w2] at h2
    exact ⟨⟨h1, h2⟩, hcs⟩
  have hno13 : NoOverflow imgRamp (-1) (-1) 13 (2 * 6 + 1) (2 * 6 + 1) := by
    unfold NoOverflow; decide
  have hS13 : prefixSum imgRamp (-1) (-1) 13 (2 * 6 + 1) (2 * 6 + 1) = 14196 := by decide
  have hQ13 : prefixSumSq imgRamp (-1) (-1) 13 (2 * 6 + 1) (2 * 6 + 1) = 1594684 := by decide
  have g13 := (general imgRamp zeroTables (-1) (-1) 13 6 (fun _ _ _ => ⟨rfl, rfl⟩) hno13).1
  have s13 : CalcMeanStd_s1 (IntegralPatch imgRamp zeroTables (-1) (-1) 14 14 13).patch_integ
      14 6 6 6 = 14196 := g13.1.trans hS13
  have q13 : CalcMeanStd_s2 (IntegralPatch imgRamp zeroTables (-1) (-1) 14 14 13).patch_pow_integ
      14 6 6 6 = 1594684 := g13.2.trans hQ13
  have r13 := CalcMeanStd_of_sums _ _ 14 14 6 6 6 _ _ s13 q13 (by decide)
  have e13 : ((1594684 : Int) : ℝ) / (2 * ((6 : Int) : ℝ) + 1) ^ 2
      - (((14196 : Int) : ℝ) / (2 * ((6 : Int) : ℝ) + 1) ^ 2) ^ 2 = 2380 := by norm_num
  rw [e13] at r13
  have hm13 : meanDouble 6 14196 = ofIntD 84 := by decide
  have ha13 : argDouble 6 14196 1594684 = ofIntD 2380 := by decide
  have hs13 : sqrtD (ofIntD 2380) = some ⟨6865912663003170, -47⟩ := by decide
  refine ⟨?_, ⟨s13, q13, ?_, ?_⟩, ?_, ha13, hs13⟩
  · intro img T x0 y0 w_full r hz hno
    obtain ⟨⟨h1, h2⟩, hcs⟩ := general img T x0 y0 w_full r hz hno
    have eN : (2 * (r : Int) + 2 - 1).toNat = 2 * r + 1 := by omega
    have hno2 : NoOverflow img x0 y0 w_full (2 * (r : Int) + 2 - 1).toNat
        (2 * (r : Int) + 2 - 1).toNat := by rw [eN]; exact hno
    have hcell := IntegralPatch_cell_exact img T x0 y0 (2 * (r : Int) + 2) (2 * (r : Int) + 2)
      w_full hz hno2 (2 * r + 1) (2 * r + 1) (by push_cast; omega) (by push_cast; omega)
    push_cast at hcell
    refine ⟨h1.trans hcell.1.symm, h2.trans hcell.2.symm, h1, h2, ?_⟩
    rw [CalcMeanStd_of_sums _ _ (2 * (r : Int) + 2) (2 * (r : Int) + 2) r r r _ _ h1 h2 hcs]
    push_cast
    rw [sq (2 * (r : ℝ) + 1)]
  · rw [r13]
    norm_num
  · refine ⟨Real.sqrt 2380, ?_, Real.sq_sqrt (by norm_num)⟩
    rw [r13]
  · unfold CalcMeanStd_double
    rw [s13, q13, hm13, ha13, hs13]

set_option maxRecDepth 100000 in
/-- C8, exercised on the `3 x 3` ramp patch `0 .. 8` (`r = 1`): `s1` is the bottom-right cell and
equals the patch sum `36`. -/
theorem CalcMeanStd_whole_patch_witness :
    ZeroInit zeroTables (2 * ((1 : Nat) : Int) + 2) (2 * ((1 : Nat) : Int) + 2) ∧
    NoOverflow imgRamp (-1) (-1) 3 (2 * 1 + 1) (2 * 1 + 1) ∧
    CalcMeanStd_s1
        (IntegralPatch imgRamp zeroTables (-1) (-1) (2 * ((1 : Nat) : Int) + 2)
          (2 * ((1 : Nat) : Int) + 2) 3).patch_integ
        (2 * ((1 : Nat) : Int) + 2) ((1 : Nat) : Int) ((1 : Nat) : Int) ((1 : Nat) : Int)
      = 36 := by
  have hz : ZeroInit zeroTables (2 * ((1 : Nat) : Int) + 2) (2 * ((1 : Nat) : Int) + 2) :=
    fun _ _ _ => ⟨rfl, rfl⟩
  have hno : NoOverflow imgRamp (-1) (-1) 3 (2 * 1 + 1) (2 * 1 + 1) := by
    unfold NoOverflow; decide
  have key := CalcMeanStd_whole_patch.1 imgRamp zeroTables (-1) (-1) 3 1 hz hno
  exact ⟨hz, hno, key.2.2.1.trans (by decide)⟩

set_option maxRecDepth 1000000 in
/-- C9, as stated, fails for the `double`s the code returns.  On the specification's `13 x 13`
patch of value `100` (tables built from zeroed tables, no overflow), the valid `7 x 7` window
centred at `(4, 8)` has `s1 = 4900`, `s2 = 490000`, and line 45 stores
`ceoff = 5882252574524729 * 2^-58`, the `double` nearest to `1 / 49`
(`49 * 5882252574524729 = 2^58 - 23`).  Then `s1 * ceoff = 100 - 2300 * 2^-58` rounds to
`100 - 2^-46`, `s1 * s1 * ceoff = 490000 - 11270000 * 2^-58` rounds to `490000 - 2^-34`, and the
argument of `sqrt` is `ceoff * 2^-34 > 0`: the call returns
`mean = 7036874417766399 * 2^-46 = 99.99999999999999`, not `100`, and
`std = 5146971002709138 * 2^-72`, about `1.09e-6`, not `0`. -/
theorem CalcMeanStd_uniform_patch_rounds :
    ZeroInit zeroTables 14 14 ∧
    UniformPatch img100 169 149 640 13 13 100 ∧
    NoOverflow img100 169 149 640 13 13 ∧
    ValidWindow 14 14 4 8 3 ∧
    CalcMeanStd_s1 (IntegralPatch img100 zeroTables 169 149 14 14 640).patch_integ 14 4 8 3
      = 4900 ∧
    CalcMeanStd_s2 (IntegralPatch img100 zeroTables 169 149 14 14 640).patch_pow_integ 14 4 8 3
      = 490000 ∧
    ceoffDouble 3 = ⟨5882252574524729, -58⟩ ∧
    Dyadic.toRat ⟨5882252574524729, -58⟩ ≠ ceoff 3 ∧
    argDouble 3 4900 490000 = ⟨5882252574524729, -92⟩ ∧
    CalcMeanStd_double (IntegralPatch img100 zeroTables 169 149 14 14 640).patch_integ
        (IntegralPatch img100 zeroTables 169 149 14 14 640).patch_pow_integ 14 14 4 8 3
      = (⟨7036874417766399, -46⟩, some ⟨5146971002709138, -72⟩) ∧
    Dyadic.toRat ⟨7036874417766399, -46⟩ = 100 - 1 / 2 ^ 46 ∧
    Dyadic.toRat ⟨7036874417766399, -46⟩ ≠ 100 ∧
    1 / 1000000 < Dyadic.toRat ⟨5146971002709138, -72⟩ := by
  have hz : ZeroInit zeroTables (((13 : Nat) : Int) + 1) (((13 : Nat) : Int) + 1) :=
    fun _ _ _ => ⟨rfl, rfl⟩
  have hu : UniformPatch img100 169 149 640 13 13 ((100 : Nat) : Int) := fun _ _ _ _ => rfl
  have hno : NoOverflow img100 169 149 640 13 13 := by
    unfold NoOverflow
    rw [(prefixSum_uniform img100 169 149 640 13 13 100 hu 13 13 le_rfl le_rfl).2]
    decide
  have hv : ValidWindow (((13 : Nat) : Int) + 1) (((13 : Nat) : Int) + 1) 4 8 3 := by
    unfold ValidWindow; decide
  obtain ⟨h1, h2⟩ := CalcMeanStd_sums_uniform img100 zeroTables 169 149 640 13 13 100 hz hu hno
    4 8 3 hv
  have s1 : CalcMeanStd_s1 (IntegralPatch img100 zeroTables 169 149 14 14 640).patch_integ
      14 4 8 3 = 4900 := h1
  have s2 : CalcMeanStd_s2 (IntegralPatch img100 zeroTables 169 149 14 14 640).patch_pow_integ
      14 4 8 3 = 490000 := h2
  have hm : meanDouble 3 4900 = ⟨7036874417766399, -46⟩ := by decide
  have ha : argDouble 3 4900 490000 = ⟨5882252574524729, -92⟩ := by decide
  have hs : sqrtD ⟨5882252574524729, -92⟩ = some ⟨5146971002709138, -72⟩ := by decide
  refine ⟨hz, hu, hno, hv, s1, s2, by decide, ?_, ha, ?_, ?_, ?_, ?_⟩
  · norm_num [Dyadic.toRat, ceoff, winArea]
  · unfold CalcMeanStd_double
    rw [s1, s2, hm, ha, hs]
  · norm_num [Dyadic.toRat]
  · norm_num [Dyadic.toRat]
  · norm_num [Dyadic.toRat]

set_option maxRecDepth 1000000 in
/-- C9 (amended). Uniform patch: for every patch whose samples all equal one value `v` (the
specification's case is `13 x 13`, `v = 100`), with tables built by `IntegralPatch` from
zero-initialised tables without overflow, table cell `(i, j)` equals `v * i * j` in the sum table
and `v^2 * i * j` in the sum-of-squares table, and for every valid window `s1 = v * n` and
`s2 = v^2 * n` (`n = (2 r + 1)^2`), so that `CalcMeanStd` returns `mean = v` and `std = 0` when
the `double` operations of lines 45, 62 and 63 are read as exact arithmetic.  The `double`s the
code returns can differ by rounding: on the `13 x 13` patch of value `100` they are exactly
`(100.0, 0.0)` for every valid window of radius `0, 1, 2, 4, 5, 6`, and
`(100 - 2^-46, 5146971002709138 * 2^-72)`, about `(99.99999999999999, 1.09e-6)`, for every
valid window of radius `3`. -/
theorem CalcMeanStd_uniform_patch (img : Int → Nat) (T : Tables) (x0 y0 w_full : Int)
    (H W v : Nat) (hz : ZeroInit T ((H : Int) + 1) ((W : Int) + 1))
    (hu : UniformPatch img x0 y0 w_full H W (v : Int))
    (hno : NoOverflow img x0 y0 w_full H W) :
    (∀ i j : Nat, i ≤ H → j ≤ W →
      (IntegralPatch img T x0 y0 ((H : Int) + 1) ((W : Int) + 1) w_full).patch_integ
          ((i : Int) * ((W : Int) + 1) + (j : Int)) = (v : Int) * i * j ∧
      (IntegralPatch img T x0 y0 ((H : Int) + 1) ((W : Int) + 1) w_full).patch_pow_integ
          ((i : Int) * ((W : Int) + 1) + (j : Int)) = (v : Int) ^ 2 * i * j) ∧
    (∀ px py win_r : Int, ValidWindow ((H : Int) + 1) ((W : Int) + 1) px py win_r →
      CalcMeanStd_s1
          (IntegralPatch img T x0 y0 ((H : Int) + 1) ((W : Int) + 1) w_full).patch_integ
          ((W : Int) + 1) px py win_r
        = (v : Int) * ((2 * win_r + 1) * (2 * win_r + 1)) ∧
      CalcMeanStd_s2
          (IntegralPatch img T x0 y0 ((H : Int) + 1) ((W : Int) + 1) w_full).patch_pow_integ
          ((W : Int) + 1) px py win_r
        = (v : Int) ^ 2 * ((2 * win_r + 1) * (2 * win_r + 1)) ∧
      CalcMeanStd
          (IntegralPatch img T x0 y0 ((H : Int) + 1) ((W : Int) + 1) w_full).patch_integ
          (IntegralPatch img T x0 y0 ((H : Int) + 1) ((W : Int) + 1) w_full).patch_pow_integ
          ((H : Int) + 1) ((W : Int) + 1) px py win_r
        = ((v : ℝ), some 0)) ∧
    (∀ px py win_r : Int, ValidWindow 14 14 px py win_r →
      CalcMeanStd_double (IntegralPatch img100 zeroTables 169 149 14 14 640).patch_integ
          (IntegralPatch img100 zeroTables 169 149 14 14 640).patch_pow_integ 14 14 px py win_r
        = if win_r = 3 then (⟨7036874417766399, -46⟩, some ⟨5146971002709138, -72⟩)
          else (ofIntD 100, some ⟨0, 0⟩)) := by
  have eH : ((H : Int) + 1 - 1).toNat = H := by omega
  have eW : ((W : Int) + 1 - 1).toNat = W := by omega
  have hno2 : NoOverflow img x0 y0 w_full ((H : Int) + 1 - 1).toNat ((W : Int) + 1 - 1).toNat := by
    rw [eH, eW]; exact hno
  refine ⟨?_, ?_, ?_⟩
  · intro i j hi hj
    have hcell := IntegralPatch_cell_exact img T x0 y0 ((H : Int) + 1) ((W : Int) + 1) w_full hz
      hno2 i j (by omega) (by omega)
    have hun := prefixSum_uniform img x0 y0 w_full H W v hu i j hi hj
    rw [hcell.1, hcell.2, hun.1, hun.2, sq]
    exact ⟨rfl, rfl⟩
  · intro px py win_r hv
    obtain ⟨h1, h2⟩ := CalcMeanStd_sums_uniform img T x0 y0 w_full H W v hz hu hno px py win_r hv
    refine ⟨h1, by rw [h2, sq], ?_⟩
    rw [CalcMeanStd_of_sums _ _ _ _ px py win_r _ _ h1 h2 (le_of_eq (by ring))]
    have hn : (2 * (win_r : ℝ) + 1) ≠ 0 := by
      have : (2 * win_r + 1 : Int) ≠ 0 := by omega
      exact_mod_cast this
    have emean : (((v : Int) * ((2 * win_r + 1) * (2 * win_r + 1)) : Int) : ℝ)
        / (2 * (win_r : ℝ) + 1) ^ 2 = (v : ℝ) := by
      rw [div_eq_iff (pow_ne_zero 2 hn)]
      push_cast
      ring
    have evar : (((v : Int) * (v : Int) * ((2 * win_r + 1) * (2 * win_r + 1)) : Int) : ℝ)
          / (2 * (win_r : ℝ) + 1) ^ 2
        - ((((v : Int) * ((2 * win_r + 1) * (2 * win_r + 1)) : Int) : ℝ)
          / (2 * (win_r : ℝ) + 1) ^ 2) ^ 2 = 0 := by
      have esq : (((v : Int) * (v : Int) * ((2 * win_r + 1) * (2 * win_r + 1)) : Int) : ℝ)
          / (2 * (win_r : ℝ) + 1) ^ 2 = (v : ℝ) ^ 2 := by
        rw [div_eq_iff (pow_ne_zero 2 hn)]
        push_cast
        ring
      rw [emean, esq, sub_self]
    rw [evar, emean, Real.sqrt_zero]
  · intro px py win_r hv
    have hz13 : ZeroInit zeroTables (((13 : Nat) : Int) + 1) (((13 : Nat) : Int) + 1) :=
      fun _ _ _ => ⟨rfl, rfl⟩
    have hu13 : UniformPatch img100 169 149 640 13 13 ((100 : Nat) : Int) := fun _ _ _ _ => rfl
    have hno13 : NoOverflow img100 169 149 640 13 13 := by
      unfold NoOverflow
      rw [(prefixSum_uniform img100 169 149 640 13 13 100 hu13 13 13 le_rfl le_rfl).2]
      decide
    obtain ⟨h1, h2⟩ := CalcMeanStd_sums_uniform img100 zeroTables 169 149 640 13 13 100
      hz13 hu13 hno13 px py win_r hv
    have s1 : CalcMeanStd_s1 (IntegralPatch img100 zeroTables 169 149 14 14 640).patch_integ
        14 px py win_r = 100 * ((2 * win_r + 1) * (2 * win_r + 1)) := h1
    have s2 : CalcMeanStd_s2 (IntegralPatch img100 zeroTables 169 149 14 14 640).patch_pow_integ
        14 px py win_r = 100 * 100 * ((2 * win_r + 1) * (2 * win_r + 1)) := h2
    have hr0 : 0 ≤ win_r := hv.1
    have hr6 : win_r ≤ 6 := by
      unfold ValidWindow at hv
      omega
    unfold CalcMeanStd_double
    rw [s1, s2]
    clear s1 s2 h1 h2 hv
    interval_cases win_r <;> decide

/-- C9, exercised on the specification's case, the `13 x 13` patch of value `100`: the
bottom-right cells are `100 * 13 * 13` and `100^2 * 13 * 13`, and the `7 x 7` window centred at
`(4, 8)` has `s1 = 100 * 49` and, in exact arithmetic, mean `100` and std `0`. -/
theorem CalcMeanStd_uniform_patch_witness :
    ZeroInit zeroTables (((13 : Nat) : Int) + 1) (((13 : Nat) : Int) + 1) ∧
    UniformPatch img100 169 149 640 13 13 ((100 : Nat) : Int) ∧
    NoOverflow img100 169 149 640 13 13 ∧
    ValidWindow (((13 : Nat) : Int) + 1) (((13 : Nat) : Int) + 1) 4 8 3 ∧
    (IntegralPatch img100 zeroTables 169 149 (((13 : Nat) : Int) + 1) (((13 : Nat) : Int) + 1)
        640).patch_integ (((13 : Nat) : Int) * (((13 : Nat) : Int) + 1) + ((13 : Nat) : Int))
      = 16900 ∧
    CalcMeanStd_s1
        (IntegralPatch img100 zeroTables 169 149 (((13 : Nat) : Int) + 1)
          (((13 : Nat) : Int) + 1) 640).patch_integ
        (((13 : Nat) : Int) + 1) 4 8 3
      = 4900 ∧
    CalcMeanStd
        (IntegralPatch img100 zeroTables 169 149 (((13 : Nat) : Int) + 1)
          (((13 : Nat) : Int) + 1) 640).patch_integ
        (IntegralPatch img100 zeroTables 169 149 (((13 : Nat) : Int) + 1)
          (((13 : Nat) : Int) + 1) 640).patch_pow_integ
        (((13 : Nat) : Int) + 1) (((13 : Nat) : Int) + 1) 4 8 3
      = ((100 : ℝ), some 0) := by
  have hz : ZeroInit zeroTables (((13 : Nat) : Int) + 1) (((13 : Nat) : Int) + 1) :=
    fun _ _ _ => ⟨rfl, rfl⟩
  have hu : UniformPatch img100 169 149 640 13 13 ((100 : Nat) : Int) := fun _ _ _ _ => rfl
  have hno : NoOverflow img100 169 149 640 13 13 := by
    unfold NoOverflow
    rw [(prefixSum_uniform img100 169 149 640 13 13 100 hu 13 13 le_rfl le_rfl).2]
    decide
  have hv : ValidWindow (((13 : Nat) : Int) + 1) (((13 : Nat) : Int) + 1) 4 8 3 := by
    unfold ValidWindow; decide
  have key := CalcMeanStd_uniform_patch img100 zeroTables 169 149 640 13 13 100 hz hu hno
  refine ⟨hz, hu, hno, hv, (key.1 13 13 le_rfl le_rfl).1.trans (by decide),
    (key.2.1 4 8 3 hv).1.trans (by decide), ?_⟩
  have := (key.2.1 4 8 3 hv).2.2
  simpa using this

/-- C10. Evaluator lookups are in bounds: for every valid window (which forces
`h_integ, w_integ ≥ 2`), each of the four flat indices `a_pos`, `b_pos`, `c_pos`, `d_pos`
computed by `CalcMeanStd` lies in `[0, h_integ * w_integ)` and addresses exactly the table cell
named for that corner: its row (index divided by the stride) and column (index modulo the
stride) are `(py - r, px - r)`, `(py - r, px + 1 + r)`, `(py + 1 + r, px - r)` and
`(py + 1 + r, px + 1 + r)`; no index wraps into a neighbouring row. -/
theorem CalcMeanStd_indices_in_bounds (h_integ w_integ px py win_r : Int)
    (hv : ValidWindow h_integ w_integ px py win_r) :
    (0 ≤ a_pos w_integ px py win_r ∧ a_pos w_integ px py win_r < h_integ * w_integ ∧
      a_pos w_integ px py win_r / w_integ = py - win_r ∧
      a_pos w_integ px py win_r % w_integ = px - win_r) ∧
    (0 ≤ b_pos w_integ px py win_r ∧ b_pos w_integ px py win_r < h_integ * w_integ ∧
      b_pos w_integ px py win_r / w_integ = py - win_r ∧
      b_pos w_integ px py win_r % w_integ = px + 1 + win_r) ∧
    (0 ≤ c_pos w_integ px py win_r ∧ c_pos w_integ px py win_r < h_integ * w_integ ∧
      c_pos w_integ px py win_r / w_integ = py + 1 + win_r ∧
      c_pos w_integ px py win_r % w_integ = px - win_r) ∧
    (0 ≤ d_pos w_integ px py win_r ∧ d_pos w_integ px py win_r < h_integ * w_integ ∧
      d_pos w_integ px py win_r / w_integ = py + 1 + win_r ∧
      d_pos w_integ px py win_r % w_integ = px + 1 + win_r) := by
  obtain ⟨hr, hx, hy, hxw, hyh⟩ := hv
  unfold a_pos b_pos c_pos d_pos
  have cell : ∀ i j : Int, 0 ≤ i → i ≤ h_integ - 1 → 0 ≤ j → j ≤ w_integ - 1 →
      0 ≤ i * w_integ + j ∧ i * w_integ + j < h_integ * w_integ ∧
        (i * w_integ + j) / w_integ = i ∧ (i * w_integ + j) % w_integ = j := by
    intro i j hi0 hi hj0 hj
    have hb := idx_bounds h_integ w_integ i j hi0 hi hj0 hj
    have hd := idx_div_mod w_integ i j hj0 (by omega)
    exact ⟨hb.1, hb.2, hd.1, hd.2⟩
  exact ⟨cell _ _ hy (by omega) hx (by omega), cell _ _ hy (by omega) (by omega) hxw,
    cell _ _ (by omega) hyh hx (by omega), cell _ _ (by omega) hyh (by omega) hxw⟩

/-- C10, exercised on the program's own call (`14 x 14` tables, centre `(6, 6)`, radius `6`):
the corners are the flat indices `0`, `13`, `182` and `195`. -/
theorem CalcMeanStd_indices_in_bounds_witness :
    ValidWindow 14 14 6 6 6 ∧
    a_pos 14 6 6 6 = 0 ∧ b_pos 14 6 6 6 = 13 ∧ c_pos 14 6 6 6 = 182 ∧ d_pos 14 6 6 6 = 195 ∧
    d_pos 14 6 6 6 < 14 * 14 ∧ d_pos 14 6 6 6 / 14 = 6 + 1 + 6 ∧ d_pos 14 6 6 6 % 14 = 6 + 1 + 6 :=
  ⟨by unfold ValidWindow; decide, by decide, by decide, by decide, by decide,
    (CalcMeanStd_indices_in_bounds 14 14 6 6 6 (by unfold ValidWindow; decide)).2.2.2.2.1,
    (CalcMeanStd_indices_in_bounds 14 14 6 6 6 (by unfold ValidWindow; decide)).2.2.2.2.2.1,
    (CalcMeanStd_indices_in_bounds 14 14 6 6 6 (by unfold ValidWindow; decide)).2.2.2.2.2.2⟩

/-! ## Claims on the evaluator's arithmetic -/

theorem CalcMeanStd_mean_eq (patch_integ : Int → Int) (w_integ px py win_r : Int) :
    CalcMeanStd_mean patch_integ w_integ px py win_r
      = meanOfSums win_r (CalcMeanStd_s1 patch_integ w_integ px py win_r) := rfl

theorem CalcMeanStd_var_eq (patch_integ patch_pow_integ : Int → Int) (w_integ px py win_r : Int) :
    CalcMeanStd_var patch_integ patch_pow_integ w_integ px py win_r
      = varOfSums win_r (CalcMeanStd_s1 patch_integ w_integ px py win_r)
          (CalcMeanStd_s2 patch_pow_integ w_integ px py win_r) := rfl

/-- The returned pair depends on the tables only through the four corner cells of each. -/
theorem CalcMeanStd_depends_on_corners (t1 t2 u1 u2 : Int → Int)
    (h_integ k_integ w_integ px py win_r : Int)
    (h1 : ∀ q : Int, q = a_pos w_integ px py win_r ∨ q = b_pos w_integ px py win_r ∨
      q = c_pos w_integ px py win_r ∨ q = d_pos w_integ px py win_r → t1 q = u1 q ∧ t2 q = u2 q) :
    CalcMeanStd t1 t2 h_integ w_integ px py win_r = CalcMeanStd u1 u2 k_integ w_integ px py win_r := by
  have ha := h1 _ (Or.inl rfl)
  have hb := h1 _ (Or.inr (Or.inl rfl))
  have hc := h1 _ (Or.inr (Or.inr (Or.inl rfl)))
  have hd := h1 _ (Or.inr (Or.inr (Or.inr rfl)))
  unfold CalcMeanStd CalcMeanStd_mean CalcMeanStd_var CalcMeanStd_s1 CalcMeanStd_s2 cornerSum
  rw [ha.1, hb.1, hc.1, hd.1, ha.2, hb.2, hc.2, hd.2]

/-- The pair returned by the statement-by-statement run is the rounded evaluator applied to the
tables of the entry state, whatever the locals held on entry. -/
theorem CalcMeanStd_exec_returned (st : EvalState) (h_integ w_integ px py win_r : Int) :
    CalcMeanStd_returned (CalcMeanStd_exec h_integ w_integ px py win_r st)
      = CalcMeanStd_double st.patch_integ st.patch_pow_integ h_integ w_integ px py win_r := rfl

/-- C11. Determinism of the evaluator: for every pair of tables, dimensions, centre and radius,
two calls of `CalcMeanStd` with identical inputs return identical `(mean, std)` pairs, and the
call leaves both tables unchanged.  The two calls start from machine states `st1`, `st2` that hold
the same tables and are otherwise unrelated (leftover values of the locals, access log): the
returned pairs of `double`s are equal, NaN included.  Every call returns with the memory behind
both pointers as it was on entry, and its memory accesses are eight loads, from the four corner
cells of each table, and no store. -/
theorem CalcMeanStd_exec_deterministic (st1 st2 : EvalState)
    (h_integ w_integ px py win_r : Int)
    (h1 : st1.patch_integ = st2.patch_integ)
    (h2 : st1.patch_pow_integ = st2.patch_pow_integ) :
    CalcMeanStd_returned (CalcMeanStd_exec h_integ w_integ px py win_r st1)
        = CalcMeanStd_returned (CalcMeanStd_exec h_integ w_integ px py win_r st2) ∧
    (∀ st : EvalState,
      (CalcMeanStd_exec h_integ w_integ px py win_r st).patch_integ = st.patch_integ ∧
      (CalcMeanStd_exec h_integ w_integ px py win_r st).patch_pow_integ = st.patch_pow_integ ∧
      (CalcMeanStd_exec h_integ w_integ px py win_r st).accesses
        = st.accesses ++
          [Access.integRead (d_pos w_integ px py win_r),
            Access.integRead (a_pos w_integ px py win_r),
            Access.integRead (b_pos w_integ px py win_r),
            Access.integRead (c_pos w_integ px py win_r),
            Access.powRead (d_pos w_integ px py win_r),
            Access.powRead (a_pos w_integ px py win_r),
            Access.powRead (b_pos w_integ px py win_r),
            Access.powRead (c_pos w_integ px py win_r)]) := by
  refine ⟨?_, fun st => ⟨?_, ?_, ?_⟩⟩
  · rw [CalcMeanStd_exec_returned, CalcMeanStd_exec_returned, h1, h2]
  · simp only [CalcMeanStd_exec, CalcMeanStd_line63, CalcMeanStd_line62, CalcMeanStd_line57,
      CalcMeanStd_line53, CalcMeanStd_line51, CalcMeanStd_line50, CalcMeanStd_line49,
      CalcMeanStd_line48, CalcMeanStd_line45]
  · simp only [CalcMeanStd_exec, CalcMeanStd_line63, CalcMeanStd_line62, CalcMeanStd_line57,
      CalcMeanStd_line53, CalcMeanStd_line51, CalcMeanStd_line50, CalcMeanStd_line49,
      CalcMeanStd_line48, CalcMeanStd_line45]
  · simp [CalcMeanStd_exec, CalcMeanStd_line63, CalcMeanStd_line62, CalcMeanStd_line57,
      CalcMeanStd_line53, CalcMeanStd_line51, CalcMeanStd_line50, CalcMeanStd_line49,
      CalcMeanStd_line48, CalcMeanStd_line45, d_pos, a_pos, b_pos, c_pos]

/-- C11, exercised on the tables of the `13 x 13` ramp patch and the program's window: a call
entered with every local `0` and an empty access log and a call entered with every local `12345`
and a non-empty log return the same pair, and the first leaves the sum table as built. -/
theorem CalcMeanStd_exec_deterministic_witness :
    (entryState (IntegralPatch imgRamp zeroTables (-1) (-1) 14 14 13) 0 []).patch_integ
        = (entryState (IntegralPatch imgRamp zeroTables (-1) (-1) 14 14 13) 12345
            [Access.imgRead 7]).patch_integ ∧
    (entryState (IntegralPatch imgRamp zeroTables (-1) (-1) 14 14 13) 0 []).patch_pow_integ
        = (entryState (IntegralPatch imgRamp zeroTables (-1) (-1) 14 14 13) 12345
            [Access.imgRead 7]).patch_pow_integ ∧
    CalcMeanStd_returned (CalcMeanStd_exec 14 14 6 6 6
        (entryState (IntegralPatch imgRamp zeroTables (-1) (-1) 14 14 13) 0 []))
      = CalcMeanStd_returned (CalcMeanStd_exec 14 14 6 6 6
        (entryState (IntegralPatch imgRamp zeroTables (-1) (-1) 14 14 13) 12345
          [Access.imgRead 7])) ∧
    (CalcMeanStd_exec 14 14 6 6 6
        (entryState (IntegralPatch imgRamp zeroTables (-1) (-1) 14 14 13) 0 [])).patch_integ
      = (IntegralPatch imgRamp zeroTables (-1) (-1) 14 14 13).patch_integ :=
  ⟨rfl, rfl,
    (CalcMeanStd_exec_deterministic
      (entryState (IntegralPatch imgRamp zeroTables (-1) (-1) 14 14 13) 0 [])
      (entryState (IntegralPatch imgRamp zeroTables (-1) (-1) 14 14 13) 12345
        [Access.imgRead 7]) 14 14 6 6 6 rfl rfl).1,
    ((CalcMeanStd_exec_deterministic
      (entryState (IntegralPatch imgRamp zeroTables (-1) (-1) 14 14 13) 0 [])
      (entryState (IntegralPatch imgRamp zeroTables (-1) (-1) 14 14 13) 12345
        [Access.imgRead 7]) 14 14 6 6 6 rfl rfl).2
      (entryState (IntegralPatch imgRamp zeroTables (-1) (-1) 14 14 13) 0 [])).1⟩

/-- C12, as stated, fails: in a `3 x 3` table whose corner cells for the window at `(0, 0)` with
radius `0` are `a = 0`, `b = 1`, `c = 0`, `d = 0`, the mathematical integer `d + a - b - c` is
`-1`, but `s1` is `4294967295`: the expression is evaluated in 32-bit unsigned arithmetic and
only its result is converted to `long long`. -/
theorem CalcMeanStd_s1_not_widened :
    ValidWindow 3 3 0 0 0 ∧
    a_pos 3 0 0 0 = 0 ∧ b_pos 3 0 0 0 = 1 ∧ c_pos 3 0 0 0 = 3 ∧ d_pos 3 0 0 0 = 4 ∧
    (fun q : Int => if q = 1 then (1 : Int) else 0) (d_pos 3 0 0 0)
        + (fun q : Int => if q = 1 then (1 : Int) else 0) (a_pos 3 0 0 0)
        - (fun q : Int => if q = 1 then (1 : Int) else 0) (b_pos 3 0 0 0)
        - (fun q : Int => if q = 1 then (1 : Int) else 0) (c_pos 3 0 0 0) = -1 ∧
    CalcMeanStd_s1 (fun q => if q = 1 then 1 else 0) 3 0 0 0 = 4294967295 := by
  refine ⟨by unfold ValidWindow; decide, by decide, by decide, by decide, by decide, by decide,
    by decide⟩

/-- C12 (amended). For all corner values `a`, `b`, `c`, `d` read from a table, the values `s1`
and `s2` computed by `CalcMeanStd` equal `d + a - b - c` reduced modulo `2^32`: the expression is
evaluated in 32-bit unsigned arithmetic and its result is converted to the signed 64-bit
variable afterwards.  They equal the mathematical integer `d + a - b - c` exactly when that
integer lies in `[0, 2^32)`. -/
theorem CalcMeanStd_sums_mod (patch_integ patch_pow_integ : Int → Int)
    (w_integ px py win_r : Int) :
    (CalcMeanStd_s1 patch_integ w_integ px py win_r
        = (patch_integ (d_pos w_integ px py win_r) + patch_integ (a_pos w_integ px py win_r)
            - patch_integ (b_pos w_integ px py win_r) - patch_integ (c_pos w_integ px py win_r))
          % 4294967296 ∧
      (CalcMeanStd_s1 patch_integ w_integ px py win_r
          = patch_integ (d_pos w_integ px py win_r) + patch_integ (a_pos w_integ px py win_r)
            - patch_integ (b_pos w_integ px py win_r) - patch_integ (c_pos w_integ px py win_r)
        ↔ 0 ≤ patch_integ (d_pos w_integ px py win_r) + patch_integ (a_pos w_integ px py win_r)
              - patch_integ (b_pos w_integ px py win_r) - patch_integ (c_pos w_integ px py win_r)
          ∧ patch_integ (d_pos w_integ px py win_r) + patch_integ (a_pos w_integ px py win_r)
              - patch_integ (b_pos w_integ px py win_r) - patch_integ (c_pos w_integ px py win_r)
            < 4294967296)) ∧
    (CalcMeanStd_s2 patch_pow_integ w_integ px py win_r
        = (patch_pow_integ (d_pos w_integ px py win_r)
            + patch_pow_integ (a_pos w_integ px py win_r)
            - patch_pow_integ (b_pos w_integ px py win_r)
            - patch_pow_integ (c_pos w_integ px py win_r)) % 4294967296 ∧
      (CalcMeanStd_s2 patch_pow_integ w_integ px py win_r
          = patch_pow_integ (d_pos w_integ px py win_r)
            + patch_pow_integ (a_pos w_integ px py win_r)
            - patch_pow_integ (b_pos w_integ px py win_r)
            - patch_pow_integ (c_pos w_integ px py win_r)
        ↔ 0 ≤ patch_pow_integ (d_pos w_integ px py win_r)
              + patch_pow_integ (a_pos w_integ px py win_r)
              - patch_pow_integ (b_pos w_integ px py win_r)
              - patch_pow_integ (c_pos w_integ px py win_r)
          ∧ patch_pow_integ (d_pos w_integ px py win_r)
              + patch_pow_integ (a_pos w_integ px py win_r)
              - patch_pow_integ (b_pos w_integ px py win_r)
              - patch_pow_integ (c_pos w_integ px py win_r) < 4294967296)) := by
  have key : ∀ t : Int → Int,
      cornerSum t w_integ px py win_r
          = (t (d_pos w_integ px py win_r) + t (a_pos w_integ px py win_r)
              - t (b_pos w_integ px py win_r) - t (c_pos w_integ px py win_r)) % 4294967296 ∧
        (cornerSum t w_integ px py win_r
            = t (d_pos w_integ px py win_r) + t (a_pos w_integ px py win_r)
              - t (b_pos w_integ px py win_r) - t (c_pos w_integ px py win_r)
          ↔ 0 ≤ t (d_pos w_integ px py win_r) + t (a_pos w_integ px py win_r)
                - t (b_pos w_integ px py win_r) - t (c_pos w_integ px py win_r)
            ∧ t (d_pos w_integ px py win_r) + t (a_pos w_integ px py win_r)
                - t (b_pos w_integ px py win_r) - t (c_pos w_integ px py win_r)
              < 4294967296) := by
    intro t
    have h := cornerSum_wrap t w_integ px py win_r
    unfold wrapU32 at h
    refine ⟨h, ?_⟩
    rw [h]
    constructor
    · intro e; omega
    · intro e; omega
  exact ⟨key patch_integ, key patch_pow_integ⟩

/-- C14. Variance factoring: for every radius `r ≥ 0` with `n = (2 r + 1)^2` and `ceoff = 1 / n`,
and all integers `s1`, `s2`, the quantity `ceoff * (s2 - s1 * s1 * ceoff)` evaluated by
`CalcMeanStd` equals `s2 / n - (s1 / n)^2` and equals `(s2 - s1^2 / n) / n` over the rationals,
and the mean `s1 * ceoff` equals `s1 / n`. -/
theorem CalcMeanStd_variance_factoring (win_r s1 s2 : Int) (hr : 0 ≤ win_r) :
    ceoff win_r = 1 / ((2 * win_r + 1) ^ 2 : ℚ) ∧
    varOfSums win_r s1 s2
      = (s2 : ℚ) / ((2 * win_r + 1) ^ 2 : ℚ) - ((s1 : ℚ) / ((2 * win_r + 1) ^ 2 : ℚ)) ^ 2 ∧
    varOfSums win_r s1 s2
      = ((s2 : ℚ) - (s1 : ℚ) ^ 2 / ((2 * win_r + 1) ^ 2 : ℚ)) / ((2 * win_r + 1) ^ 2 : ℚ) ∧
    meanOfSums win_r s1 = (s1 : ℚ) / ((2 * win_r + 1) ^ 2 : ℚ) := by
  have hn : (2 * (win_r : ℚ) + 1) ≠ 0 := by
    have : (2 * win_r + 1 : Int) ≠ 0 := by omega
    exact_mod_cast this
  have hc : ceoff win_r = 1 / ((2 * win_r + 1) ^ 2 : ℚ) := by
    unfold ceoff winArea
    push_cast
    congr 1
    ring
  refine ⟨hc, ?_, ?_, ?_⟩
  · unfold varOfSums
    rw [hc]
    push_cast
    field_simp
    ring
  · unfold varOfSums
    rw [hc]
    push_cast
    field_simp
    ring
  · unfold meanOfSums
    rw [hc]
    field_simp

/-- C14, exercised on the sums of the `13 x 13` ramp patch (`r = 6`, `n = 169`): the variance
is `2380` and the mean `84`. -/
theorem CalcMeanStd_variance_factoring_witness :
    (0 : Int) ≤ 6 ∧ varOfSums 6 14196 1594684 = 2380 ∧ meanOfSums 6 14196 = 84 := by
  have key := CalcMeanStd_variance_factoring 6 14196 1594684 (by decide)
  refine ⟨by decide, key.2.1.trans (by norm_num), key.2.2.2.trans (by norm_num)⟩

/-! ## Claims on the builder's accesses -/

theorem mem_row_accesses (x0 y0 w_integ w_full i : Int) (n : Nat) (acc : Access) :
    acc ∈ IntegralPatch_row_accesses x0 y0 w_integ w_full i n
      ↔ ∃ j : Nat, 1 ≤ j ∧ j ≤ n ∧
          acc ∈ IntegralPatch_body_accesses x0 y0 w_integ w_full i (j : Int) := by
  induction n with
  | zero =>
    simp only [IntegralPatch_row_accesses, List.not_mem_nil, false_iff]
    rintro ⟨j, h1, h2, _⟩
    omega
  | succ n ih =>
    simp only [IntegralPatch_row_accesses, List.mem_append, ih]
    constructor
    · rintro (⟨j, h1, h2, h3⟩ | h)
      · exact ⟨j, h1, by omega, h3⟩
      · exact ⟨n + 1, by omega, le_rfl, by push_cast; exact h⟩
    · rintro ⟨j, h1, h2, h3⟩
      rcases Nat.lt_or_ge j (n + 1) with hlt | hge
      · exact Or.inl ⟨j, h1, by omega, h3⟩
      · have hj : j = n + 1 := by omega
        subst hj
        right
        push_cast at h3
        exact h3

theorem mem_rows_accesses (x0 y0 w_integ w_full : Int) (m : Nat) (acc : Access) :
    acc ∈ IntegralPatch_rows_accesses x0 y0 w_integ w_full m
      ↔ ∃ i j : Nat, 1 ≤ i ∧ i ≤ m ∧ 1 ≤ j ∧ j ≤ (w_integ - 1).toNat ∧
          acc ∈ IntegralPatch_body_accesses x0 y0 w_integ w_full (i : Int) (j : Int) := by
  induction m with
  | zero =>
    simp only [IntegralPatch_rows_accesses, List.not_mem_nil, false_iff]
    rintro ⟨i, j, h1, h2, _⟩
    omega
  | succ m ih =>
    simp only [IntegralPatch_rows_accesses, List.mem_append, ih, mem_row_accesses]
    constructor
    · rintro (⟨i, j, h1, h2, h3, h4, h5⟩ | ⟨j, h3, h4, h5⟩)
      · exact ⟨i, j, h1, by omega, h3, h4, h5⟩
      · exact ⟨m + 1, j, by omega, le_rfl, h3, h4, by push_cast; exact h5⟩
    · rintro ⟨i, j, h1, h2, h3, h4, h5⟩
      rcases Nat.lt_or_ge i (m + 1) with hlt | hge
      · exact Or.inl ⟨i, j, h1, by omega, h3, h4, h5⟩
      · have hi : i = m + 1 := by omega
        subst hi
        right
        push_cast at h5
        exact ⟨j, h3, h4, h5⟩

/-- The accesses of `IntegralPatch` are those of the loop bodies with `1 ≤ i < h_integ` and
`1 ≤ j < w_integ`. -/
theorem mem_accesses (x0 y0 h_integ w_integ w_full : Int) (acc : Access) :
    acc ∈ IntegralPatch_accesses x0 y0 h_integ w_integ w_full
      ↔ ∃ i j : Int, 1 ≤ i ∧ i < h_integ ∧ 1 ≤ j ∧ j < w_integ ∧
          acc ∈ IntegralPatch_body_accesses x0 y0 w_integ w_full i j := by
  unfold IntegralPatch_accesses
  rw [mem_rows_accesses]
  constructor
  · rintro ⟨i, j, h1, h2, h3, h4, h5⟩
    exact ⟨i, j, by omega, by omega, by omega, by omega, h5⟩
  · rintro ⟨i, j, h1, h2, h3, h4, h5⟩
    refine ⟨i.toNat, j.toNat, by omega, by omega, by omega, by omega, ?_⟩
    rw [Int.toNat_of_nonneg (by omega), Int.toNat_of_nonneg (by omega)]
    exact h5

/-- C15. Builder accesses are in bounds: for every backing buffer of `h_full` rows and `w_full`
columns and every `x0`, `y0`, `h_integ`, `w_integ` (in particular `h_integ ≥ 1`, `w_integ ≥ 1`)
with `x0 + 1 ≥ 0`, `y0 + 1 ≥ 0`,
`x0 + (w_integ - 1) ≤ w_full - 1` and `y0 + (h_integ - 1) ≤ h_full - 1`: every access of
`IntegralPatch` is in bounds (image indices in `[0, h_full * w_full)`, table indices read or
written in `[0, h_integ * w_integ)`); the image indices read are exactly
`pos = (y0 + i) * w_full + x0 + j` for `1 ≤ i < h_integ`, `1 ≤ j < w_integ`, and such a `pos`
addresses row `y0 + i`, column `x0 + j`; when `h_integ = 1` or `w_integ = 1` the builder reads and
writes nothing. -/
theorem IntegralPatch_accesses_in_bounds (x0 y0 h_integ w_integ w_full h_full : Int)
    (hx : 0 ≤ x0 + 1) (hy : 0 ≤ y0 + 1)
    (hxw : x0 + (w_integ - 1) ≤ w_full - 1) (hyh : y0 + (h_integ - 1) ≤ h_full - 1) :
    (∀ acc ∈ IntegralPatch_accesses x0 y0 h_integ w_integ w_full,
      acc.InBounds h_full w_full h_integ w_integ) ∧
    (∀ pos : Int, Access.imgRead pos ∈ IntegralPatch_accesses x0 y0 h_integ w_integ w_full ↔
      ∃ i j : Int, 1 ≤ i ∧ i < h_integ ∧ 1 ≤ j ∧ j < w_integ ∧
        pos = (y0 + i) * w_full + x0 + j) ∧
    (∀ i j : Int, 1 ≤ i → i < h_integ → 1 ≤ j → j < w_integ →
      0 ≤ (y0 + i) * w_full + x0 + j ∧ (y0 + i) * w_full + x0 + j < h_full * w_full ∧
      ((y0 + i) * w_full + x0 + j) / w_full = y0 + i ∧
      ((y0 + i) * w_full + x0 + j) % w_full = x0 + j) ∧
    (h_integ = 1 ∨ w_integ = 1 → IntegralPatch_accesses x0 y0 h_integ w_integ w_full = []) := by
  have himg : ∀ i j : Int, 1 ≤ i → i < h_integ → 1 ≤ j → j < w_integ →
      0 ≤ (y0 + i) * w_full + x0 + j ∧ (y0 + i) * w_full + x0 + j < h_full * w_full ∧
      ((y0 + i) * w_full + x0 + j) / w_full = y0 + i ∧
      ((y0 + i) * w_full + x0 + j) % w_full = x0 + j := by
    intro i j hi1 hi2 hj1 hj2
    have e : (y0 + i) * w_full + x0 + j = (y0 + i) * w_full + (x0 + j) := by ring
    rw [e]
    have hb := idx_bounds h_full w_full (y0 + i) (x0 + j) (by omega) (by omega) (by omega)
      (by omega)
    have hd := idx_div_mod w_full (y0 + i) (x0 + j) (by omega) (by omega)
    exact ⟨hb.1, hb.2, hd.1, hd.2⟩
  have htab : ∀ i j : Int, 1 ≤ i → i < h_integ → 1 ≤ j → j < w_integ →
      (0 ≤ i * w_integ + j - 1 ∧ i * w_integ + j - 1 < h_integ * w_integ) ∧
      (0 ≤ (i - 1) * w_integ + j ∧ (i - 1) * w_integ + j < h_integ * w_integ) ∧
      (0 ≤ (i - 1) * w_integ + j - 1 ∧ (i - 1) * w_integ + j - 1 < h_integ * w_integ) ∧
      (0 ≤ i * w_integ + j ∧ i * w_integ + j < h_integ * w_integ) := by
    intro i j hi1 hi2 hj1 hj2
    have e1 : i * w_integ + j - 1 = i * w_integ + (j - 1) := by ring
    have e3 : (i - 1) * w_integ + j - 1 = (i - 1) * w_integ + (j - 1) := by ring
    rw [e1, e3]
    exact ⟨idx_bounds h_integ w_integ i (j - 1) (by omega) (by omega) (by omega) (by omega),
      idx_bounds h_integ w_integ (i - 1) j (by omega) (by omega) (by omega) (by omega),
      idx_bounds h_integ w_integ (i - 1) (j - 1) (by omega) (by omega) (by omega) (by omega),
      idx_bounds h_integ w_integ i j (by omega) (by omega) (by omega) (by omega)⟩
  refine ⟨?_, ?_, himg, ?_⟩
  · intro acc hacc
    rw [mem_accesses] at hacc
    obtain ⟨i, j, hi1, hi2, hj1, hj2, hmem⟩ := hacc
    have hI := himg i j hi1 hi2 hj1 hj2
    have hT := htab i j hi1 hi2 hj1 hj2
    simp only [IntegralPatch_body_accesses, List.mem_cons, List.mem_singleton,
      List.not_mem_nil, or_false] at hmem
    rcases hmem with h | h | h | h | h | h | h | h | h | h | h <;> subst h
    · exact ⟨hI.1, hI.2.1⟩
    · exact hT.1
    · exact hT.2.1
    · exact hT.2.2.1
    · exact hT.2.2.2
    · exact ⟨hI.1, hI.2.1⟩
    · exact ⟨hI.1, hI.2.1⟩
    · exact hT.1
    · exact hT.2.1
    · exact hT.2.2.1
    · exact hT.2.2.2
  · intro pos
    rw [mem_accesses]
    constructor
    · rintro ⟨i, j, hi1, hi2, hj1, hj2, hmem⟩
      refine ⟨i, j, hi1, hi2, hj1, hj2, ?_⟩
      simp only [IntegralPatch_body_accesses, List.mem_cons, List.mem_singleton,
        List.not_mem_nil, or_false, Access.imgRead.injEq, reduceCtorEq, false_or] at hmem
      rcases hmem with h | h | h <;> exact h
    · rintro ⟨i, j, hi1, hi2, hj1, hj2, hpos⟩
      refine ⟨i, j, hi1, hi2, hj1, hj2, ?_⟩
      subst hpos
      simp [IntegralPatch_body_accesses]
  · intro h1
    have hne : ∀ acc : Access, acc ∉ IntegralPatch_accesses x0 y0 h_integ w_integ w_full := by
      intro acc hacc
      rw [mem_accesses] at hacc
      obtain ⟨i, j, hi1, hi2, hj1, hj2, _⟩ := hacc
      omega
    exact List.eq_nil_iff_forall_not_mem.mpr hne

/-- C15, exercised on the program's own call (`13 x 13` patch at column `170`, row `150` of a
`640 x 480` image): the first iteration reads `img[150 * 640 + 170]`, row `150`, column `170`,
and the last store, at table index `195`, is in bounds. -/
theorem IntegralPatch_accesses_in_bounds_witness :
    (0 : Int) ≤ 169 + 1 ∧ (0 : Int) ≤ 149 + 1 ∧
    (169 : Int) + (14 - 1) ≤ 640 - 1 ∧ (149 : Int) + (14 - 1) ≤ 480 - 1 ∧
    Access.imgRead 96170 ∈ IntegralPatch_accesses 169 149 14 14 640 ∧
    (96170 : Int) / 640 = 150 ∧ (96170 : Int) % 640 = 170 ∧
    (Access.integWrite 195).InBounds 480 640 14 14 := by
  have key := IntegralPatch_accesses_in_bounds 169 149 14 14 640 480 (by decide) (by decide)
    (by decide) (by decide)
  have hmem : Access.imgRead 96170 ∈ IntegralPatch_accesses 169 149 14 14 640 :=
    (key.2.1 96170).2 ⟨1, 1, by decide, by decide, by decide, by decide, by decide⟩
  refine ⟨by decide, by decide, by decide, by decide, hmem, by decide, by decide, ?_⟩
  exact key.1 _ ((mem_accesses 169 149 14 14 640 _).2
    ⟨13, 13, by decide, by decide, by decide, by decide, by simp [IntegralPatch_body_accesses]⟩)

/-! ## Claims on wrapped tables and on the sign of the variance -/

/-- Four-corner lookup in a table that holds a non-negative summed-area function modulo `2^32`:
the unsigned 32-bit result is the window sum modulo `2^32`. -/
theorem cornerSum_of_table_mod (F : Int → Int → Int) (t : Int → Int)
    (h_integ w_integ px py win_r : Int)
    (htab : ∀ i j : Nat, (i : Int) ≤ h_integ - 1 → (j : Int) ≤ w_integ - 1 →
      t ((i : Int) * w_integ + (j : Int)) = wrapU32 (rectSum (fun a b => F b a) i j))
    (hv : ValidWindow h_integ w_integ px py win_r) :
    cornerSum t w_integ px py win_r
      = wrapU32 (∑ y ∈ Finset.Icc (py - win_r) (py + win_r),
          ∑ x ∈ Finset.Icc (px - win_r) (px + win_r), F x y) := by
  obtain ⟨hr, hx, hy, hxw, hyh⟩ := hv
  have hD := htab (py + 1 + win_r).toNat (px + 1 + win_r).toNat (by omega) (by omega)
  have hA := htab (py - win_r).toNat (px - win_r).toNat (by omega) (by omega)
  have hB := htab (py - win_r).toNat (px + 1 + win_r).toNat (by omega) (by omega)
  have hC := htab (py + 1 + win_r).toNat (px - win_r).toNat (by omega) (by omega)
  have c1 : (((py + 1 + win_r).toNat : Nat) : Int) = py + 1 + win_r :=
    Int.toNat_of_nonneg (by omega)
  have c2 : (((px + 1 + win_r).toNat : Nat) : Int) = px + 1 + win_r :=
    Int.toNat_of_nonneg (by omega)
  have c3 : (((py - win_r).toNat : Nat) : Int) = py - win_r := Int.toNat_of_nonneg hy
  have c4 : (((px - win_r).toNat : Nat) : Int) = px - win_r := Int.toNat_of_nonneg hx
  rw [c1, c2] at hD
  rw [c3, c4] at hA
  rw [c3, c2] at hB
  rw [c1, c4] at hC
  rw [cornerSum_wrap, window_corners F px py win_r hr hx hy]
  unfold d_pos a_pos b_pos c_pos
  rw [hD, hA, hB, hC]
  apply wrapU32_congr
  exact (((wrapU32_modEq _).add (wrapU32_modEq _)).sub (wrapU32_modEq _)).sub (wrapU32_modEq _)

/-- A sum of natural-number samples over a window is at most the sum of their squares. -/
theorem windowSum_le_windowSumSq (img : Int → Nat) (x0 y0 w_full px py r : Int) :
    windowSum img x0 y0 w_full px py r ≤ windowSumSq img x0 y0 w_full px py r := by
  unfold windowSum windowSumSq
  apply Finset.sum_le_sum; intro y _
  apply Finset.sum_le_sum; intro x _
  have h0 := patchSample_nonneg img x0 y0 w_full x y
  nlinarith

theorem windowSum_nonneg (img : Int → Nat) (x0 y0 w_full px py r : Int) :
    0 ≤ windowSum img x0 y0 w_full px py r :=
  Finset.sum_nonneg (fun y _ => Finset.sum_nonneg (fun x _ =>
    patchSample_nonneg img x0 y0 w_full x y))

/-- Window sums of 8-bit samples: at most `255` (resp. `65025`) per pixel. -/
theorem windowSum_le_of_eightBit (img : Int → Nat) (x0 y0 w_full px py r : Int)
    (h8 : EightBit img) (hr : 0 ≤ r) :
    windowSum img x0 y0 w_full px py r ≤ 255 * ((2 * r + 1) * (2 * r + 1)) ∧
    windowSumSq img x0 y0 w_full px py r ≤ 65025 * ((2 * r + 1) * (2 * r + 1)) := by
  have hcx : ((Finset.Icc (px - r) (px + r)).card : Int) = 2 * r + 1 := by
    rw [Int.card_Icc, Int.toNat_of_nonneg (by omega)]; ring
  have hcy : ((Finset.Icc (py - r) (py + r)).card : Int) = 2 * r + 1 := by
    rw [Int.card_Icc, Int.toNat_of_nonneg (by omega)]; ring
  have hs : ∀ x y : Int, patchSample img x0 y0 w_full x y ≤ 255 := by
    intro x y
    unfold patchSample
    exact_mod_cast h8 _
  unfold windowSum windowSumSq
  constructor
  · calc ∑ y ∈ Finset.Icc (py - r) (py + r), ∑ x ∈ Finset.Icc (px - r) (px + r),
          patchSample img x0 y0 w_full x y
        ≤ ∑ _y ∈ Finset.Icc (py - r) (py + r), ∑ _x ∈ Finset.Icc (px - r) (px + r), (255 : Int) :=
          Finset.sum_le_sum (fun y _ => Finset.sum_le_sum (fun x _ => hs x y))
      _ = 255 * ((2 * r + 1) * (2 * r + 1)) := by
          simp only [Finset.sum_const, nsmul_eq_mul, hcx, hcy]; ring
  · calc ∑ y ∈ Finset.Icc (py - r) (py + r), ∑ x ∈ Finset.Icc (px - r) (px + r),
          patchSample img x0 y0 w_full x y * patchSample img x0 y0 w_full x y
        ≤ ∑ _y ∈ Finset.Icc (py - r) (py + r), ∑ _x ∈ Finset.Icc (px - r) (px + r),
            (65025 : Int) :=
          Finset.sum_le_sum (fun y _ => Finset.sum_le_sum (fun x _ => by
            have h0 := patchSample_nonneg img x0 y0 w_full x y
            have h1 := hs x y
            nlinarith))
      _ = 65025 * ((2 * r + 1) * (2 * r + 1)) := by
          simp only [Finset.sum_const, nsmul_eq_mul, hcx, hcy]; ring

/-- C16. Window sums survive table wrap-around: for every patch and zero-initialised tables,
even when cells of the tables built by `IntegralPatch` have wrapped modulo `2^32`, for every valid
window whose true sum of squares is below `2^32` (for instance whenever the samples are 8-bit and
`(2 r + 1)^2 * 65025 < 2^32`) the values `s1` and `s2` computed by `CalcMeanStd` equal the exact
sum and sum of squares of the window's samples: both the recurrence and the four-corner
combination are carried out modulo `2^32`. -/
theorem CalcMeanStd_sums_survive_wrap (img : Int → Nat) (T : Tables)
    (x0 y0 h_integ w_integ w_full px py win_r : Int) (hz : ZeroInit T h_integ w_integ)
    (hv : ValidWindow h_integ w_integ px py win_r) :
    (windowSumSq img x0 y0 w_full px py win_r < 4294967296 →
      CalcMeanStd_s1 (IntegralPatch img T x0 y0 h_integ w_integ w_full).patch_integ
          w_integ px py win_r = windowSum img x0 y0 w_full px py win_r ∧
      CalcMeanStd_s2 (IntegralPatch img T x0 y0 h_integ w_integ w_full).patch_pow_integ
          w_integ px py win_r = windowSumSq img x0 y0 w_full px py win_r) ∧
    (EightBit img → (2 * win_r + 1) ^ 2 * 65025 < 4294967296 →
      CalcMeanStd_s1 (IntegralPatch img T x0 y0 h_integ w_integ w_full).patch_integ
          w_integ px py win_r = windowSum img x0 y0 w_full px py win_r ∧
      CalcMeanStd_s2 (IntegralPatch img T x0 y0 h_integ w_integ w_full).patch_pow_integ
          w_integ px py win_r = windowSumSq img x0 y0 w_full px py win_r) := by
  have h1 : CalcMeanStd_s1 (IntegralPatch img T x0 y0 h_integ w_integ w_full).patch_integ
      w_integ px py win_r = wrapU32 (windowSum img x0 y0 w_full px py win_r) :=
    cornerSum_of_table_mod (fun x y => patchSample img x0 y0 w_full x y) _ h_integ w_integ px py
      win_r (fun i j hi hj =>
        (IntegralPatch_cell_mod img T x0 y0 h_integ w_integ w_full hz i j hi hj).1) hv
  have h2 : CalcMeanStd_s2 (IntegralPatch img T x0 y0 h_integ w_integ w_full).patch_pow_integ
      w_integ px py win_r = wrapU32 (windowSumSq img x0 y0 w_full px py win_r) :=
    cornerSum_of_table_mod
      (fun x y => patchSample img x0 y0 w_full x y * patchSample img x0 y0 w_full x y) _
      h_integ w_integ px py win_r (fun i j hi hj =>
        (IntegralPatch_cell_mod img T x0 y0 h_integ w_integ w_full hz i j hi hj).2) hv
  have hle := windowSum_le_windowSumSq img x0 y0 w_full px py win_r
  have h0 := windowSum_nonneg img x0 y0 w_full px py win_r
  have main : windowSumSq img x0 y0 w_full px py win_r < 4294967296 →
      CalcMeanStd_s1 (IntegralPatch img T x0 y0 h_integ w_integ w_full).patch_integ
          w_integ px py win_r = windowSum img x0 y0 w_full px py win_r ∧
      CalcMeanStd_s2 (IntegralPatch img T x0 y0 h_integ w_integ w_full).patch_pow_integ
          w_integ px py win_r = windowSumSq img x0 y0 w_full px py win_r := by
    intro hq
    rw [h1, h2]
    exact ⟨wrapU32_of_range _ h0 (by omega), wrapU32_of_range _ (by omega) hq⟩
  refine ⟨main, fun h8 hsz => main ?_⟩
  have hb := (windowSum_le_of_eightBit img x0 y0 w_full px py win_r h8 hv.1).2
  have e : (2 * win_r + 1) ^ 2 * 65025 = 65025 * ((2 * win_r + 1) * (2 * win_r + 1)) := by ring
  omega

/-- C16, exercised on tables that did wrap: in the saturated `4105 x 4105` patch the
bottom-right cell of `patch_integ` holds `2044079` instead of `4297011375`, yet the radius-0
window at the last pixel `(4104, 4104)` gives `s1 = 255` and `s2 = 65025`. -/
theorem CalcMeanStd_sums_survive_wrap_witness :
    ZeroInit zeroTables 4106 4106 ∧ ValidWindow 4106 4106 4104 4104 0 ∧
    windowSumSq img255 (-1) (-1) 4105 4104 4104 0 < 4294967296 ∧
    CalcMeanStd_s1 (IntegralPatch img255 zeroTables (-1) (-1) 4106 4106 4105).patch_integ
      4106 4104 4104 0 = 255 ∧
    CalcMeanStd_s2 (IntegralPatch img255 zeroTables (-1) (-1) 4106 4106 4105).patch_pow_integ
      4106 4104 4104 0 = 65025 := by
  have hz : ZeroInit zeroTables 4106 4106 := fun _ _ _ => ⟨rfl, rfl⟩
  have hv : ValidWindow 4106 4106 4104 4104 0 := by unfold ValidWindow; decide
  have hS : windowSum img255 (-1) (-1) 4105 4104 4104 0 = 255 := by
    unfold windowSum
    simp only [sub_zero, add_zero, Finset.Icc_self, Finset.sum_singleton]
    rfl
  have hQ : windowSumSq img255 (-1) (-1) 4105 4104 4104 0 = 65025 := by
    unfold windowSumSq
    simp only [sub_zero, add_zero, Finset.Icc_self, Finset.sum_singleton]
    rfl
  have hq : windowSumSq img255 (-1) (-1) 4105 4104 4104 0 < 4294967296 := by
    rw [hQ]; decide
  have key := (CalcMeanStd_sums_survive_wrap img255 zeroTables (-1) (-1) 4106 4106 4105
    4104 4104 0 hz hv).1 hq
  exact ⟨hz, hv, hq, key.1.trans hS, key.2.trans hQ⟩

/-- Sum of the squared pairwise differences of a finite family of integers. -/
theorem sum_sq_diff {ι : Type} (s : Finset ι) (f : ι → Int) :
    ∑ i ∈ s, ∑ j ∈ s, (f i - f j) ^ 2
      = 2 * ((s.card : Int) * ∑ i ∈ s, f i ^ 2 - (∑ i ∈ s, f i) ^ 2) := by
  have h1 : ∀ i, ∑ j ∈ s, (f i - f j) ^ 2
      = (s.card : Int) * f i ^ 2 - 2 * f i * (∑ j ∈ s, f j) + ∑ j ∈ s, f j ^ 2 := by
    intro i
    simp only [sub_sq, Finset.sum_add_distrib, Finset.sum_sub_distrib, Finset.sum_const,
      nsmul_eq_mul, ← Finset.mul_sum]
  simp only [h1, Finset.sum_add_distrib, Finset.sum_sub_distrib, Finset.sum_const,
      nsmul_eq_mul, ← Finset.mul_sum, ← Finset.sum_mul]
  ring

/-- Equality in Cauchy-Schwarz against the constant family: all members are equal. -/
theorem card_mul_sum_sq_eq_iff {ι : Type} (s : Finset ι) (f : ι → Int) :
    (s.card : Int) * ∑ i ∈ s, f i ^ 2 = (∑ i ∈ s, f i) ^ 2 ↔ ∀ i ∈ s, ∀ j ∈ s, f i = f j := by
  have h := sum_sq_diff s f
  constructor
  · intro e i hi j hj
    have hz : ∑ i ∈ s, ∑ j ∈ s, (f i - f j) ^ 2 = 0 := by rw [h, e]; ring
    have h1 := (Finset.sum_eq_zero_iff_of_nonneg
      (fun i _ => Finset.sum_nonneg (fun j _ => sq_nonneg (f i - f j)))).1 hz i hi
    have h2 := (Finset.sum_eq_zero_iff_of_nonneg (fun j _ => sq_nonneg (f i - f j))).1 h1 j hj
    have h3 : f i - f j = 0 := sq_eq_zero_iff.1 h2
    omega
  · intro hall
    have hz : ∑ i ∈ s, ∑ j ∈ s, (f i - f j) ^ 2 = 0 :=
      Finset.sum_eq_zero (fun i hi => Finset.sum_eq_zero (fun j hj => by
        rw [hall i hi j hj, sub_self]; ring))
    rw [h] at hz
    omega

/-- Equality case of `windowSum_sq_le`: the window is constant. -/
theorem windowSum_sq_eq_iff (img : Int → Nat) (x0 y0 w_full px py r : Int) (hr : 0 ≤ r) :
    (2 * r + 1) ^ 2 * windowSumSq img x0 y0 w_full px py r
        = windowSum img x0 y0 w_full px py r * windowSum img x0 y0 w_full px py r
      ↔ WindowConstant img x0 y0 w_full px py r := by
  have hcard : ((Finset.Icc (py - r) (py + r) ×ˢ Finset.Icc (px - r) (px + r)).card : Int)
      = (2 * r + 1) ^ 2 := by
    rw [Finset.card_product, Int.card_Icc, Int.card_Icc]
    push_cast
    rw [Int.toNat_of_nonneg (by omega), Int.toNat_of_nonneg (by omega)]
    ring
  have key := card_mul_sum_sq_eq_iff
    (Finset.Icc (py - r) (py + r) ×ˢ Finset.Icc (px - r) (px + r))
    (fun p : Int × Int => patchSample img x0 y0 w_full p.2 p.1)
  rw [hcard] at key
  have e1 : windowSumSq img x0 y0 w_full px py r
      = ∑ y ∈ Finset.Icc (py - r) (py + r), ∑ x ∈ Finset.Icc (px - r) (px + r),
          patchSample img x0 y0 w_full x y ^ 2 := by
    unfold windowSumSq
    simp only [sq]
  rw [e1, ← sq]
  unfold windowSum
  rw [← Finset.sum_product', ← Finset.sum_product']
  rw [key]
  constructor
  · intro hall x y u v hx1 hx2 hy1 hy2 hu1 hu2 hv1 hv2
    exact hall (y, x) (Finset.mem_product.2 ⟨Finset.mem_Icc.2 ⟨hy1, hy2⟩,
      Finset.mem_Icc.2 ⟨hx1, hx2⟩⟩) (v, u) (Finset.mem_product.2 ⟨Finset.mem_Icc.2 ⟨hv1, hv2⟩,
      Finset.mem_Icc.2 ⟨hu1, hu2⟩⟩)
  · intro hc p hp q hq
    have hp1 := Finset.mem_product.1 hp
    have hq1 := Finset.mem_product.1 hq
    have hpy := Finset.mem_Icc.1 hp1.1
    have hpx := Finset.mem_Icc.1 hp1.2
    have hqy := Finset.mem_Icc.1 hq1.1
    have hqx := Finset.mem_Icc.1 hq1.2
    exact hc p.2 p.1 q.2 q.1 hpx.1 hpx.2 hpy.1 hpy.2 hqx.1 hqx.2 hqy.1 hqy.2

/-- The variance and the mean as single fractions over `n = (2 r + 1)^2`. -/
theorem varOfSums_eq_div (win_r s1 s2 : Int) :
    varOfSums win_r s1 s2
        = (((2 * win_r + 1) ^ 2 * s2 - s1 * s1 : Int) : ℚ) / (((2 * win_r + 1) ^ 2 : Int) : ℚ) ^ 2 ∧
    meanOfSums win_r s1 = (s1 : ℚ) / (((2 * win_r + 1) ^ 2 : Int) : ℚ) := by
  have hn : (2 * (win_r : ℚ) + 1) ≠ 0 := by
    have : (2 * win_r + 1 : Int) ≠ 0 := by omega
    exact_mod_cast this
  have hc : ceoff win_r = 1 / ((2 * win_r + 1) ^ 2 : ℚ) := by
    unfold ceoff winArea
    push_cast
    congr 1
    ring
  constructor
  · unfold varOfSums
    rw [hc]
    push_cast
    field_simp
    ring
  · unfold meanOfSums
    rw [hc]
    push_cast
    field_simp

/-- C17. Variance is non-negative at the integer level: for every patch of 8-bit samples with
tables built from zero-initialised tables without overflow and every valid window with
`n = (2 r + 1)^2`, the integers computed by `CalcMeanStd` satisfy `n * s2 - s1 * s1 ≥ 0` and
`0 ≤ s1 ≤ 255 * n`, so under exact arithmetic the argument of `sqrt` on line 63 is not negative
and the mean lies in `[0, 255]`; `n * s2 = s1 * s1` holds exactly when all samples of the window
are equal. -/
theorem CalcMeanStd_variance_nonneg (img : Int → Nat) (T : Tables)
    (x0 y0 h_integ w_integ w_full px py win_r : Int) (h8 : EightBit img)
    (hz : ZeroInit T h_integ w_integ)
    (hno : NoOverflow img x0 y0 w_full (h_integ - 1).toNat (w_integ - 1).toNat)
    (hv : ValidWindow h_integ w_integ px py win_r) :
    (0 ≤ (2 * win_r + 1) ^ 2
          * CalcMeanStd_s2 (IntegralPatch img T x0 y0 h_integ w_integ w_full).patch_pow_integ
              w_integ px py win_r
        - CalcMeanStd_s1 (IntegralPatch img T x0 y0 h_integ w_integ w_full).patch_integ
              w_integ px py win_r
          * CalcMeanStd_s1 (IntegralPatch img T x0 y0 h_integ w_integ w_full).patch_integ
              w_integ px py win_r ∧
      0 ≤ CalcMeanStd_s1 (IntegralPatch img T x0 y0 h_integ w_integ w_full).patch_integ
              w_integ px py win_r ∧
      CalcMeanStd_s1 (IntegralPatch img T x0 y0 h_integ w_integ w_full).patch_integ
              w_integ px py win_r ≤ 255 * (2 * win_r + 1) ^ 2) ∧
    (0 ≤ CalcMeanStd_var (IntegralPatch img T x0 y0 h_integ w_integ w_full).patch_integ
          (IntegralPatch img T x0 y0 h_integ w_integ w_full).patch_pow_integ w_integ px py win_r ∧
      0 ≤ CalcMeanStd_mean (IntegralPatch img T x0 y0 h_integ w_integ w_full).patch_integ
          w_integ px py win_r ∧
      CalcMeanStd_mean (IntegralPatch img T x0 y0 h_integ w_integ w_full).patch_integ
          w_integ px py win_r ≤ 255) ∧
    ((2 * win_r + 1) ^ 2
          * CalcMeanStd_s2 (IntegralPatch img T x0 y0 h_integ w_integ w_full).patch_pow_integ
              w_integ px py win_r
        = CalcMeanStd_s1 (IntegralPatch img T x0 y0 h_integ w_integ w_full).patch_integ
              w_integ px py win_r
          * CalcMeanStd_s1 (IntegralPatch img T x0 y0 h_integ w_integ w_full).patch_integ
              w_integ px py win_r
      ↔ WindowConstant img x0 y0 w_full px py win_r) := by
  obtain ⟨h1, h2⟩ := cornerSums_of_summedArea img x0 y0 w_full _ _ h_integ w_integ px py win_r
    (IntegralPatch_summedArea img T x0 y0 h_integ w_integ w_full hz hno) hv
  have hcs := windowSum_sq_le img x0 y0 w_full px py win_r hv.1
  have h0 := windowSum_nonneg img x0 y0 w_full px py win_r
  have hub := (windowSum_le_of_eightBit img x0 y0 w_full px py win_r h8 hv.1).1
  have heq := windowSum_sq_eq_iff img x0 y0 w_full px py win_r hv.1
  have hn : (0 : Int) < (2 * win_r + 1) ^ 2 := by
    have := hv.1
    positivity
  have hnQ : (0 : ℚ) < (((2 * win_r + 1) ^ 2 : Int) : ℚ) := by exact_mod_cast hn
  have esq : (2 * win_r + 1) ^ 2 = (2 * win_r + 1) * (2 * win_r + 1) := by ring
  have hfrac := varOfSums_eq_div win_r (windowSum img x0 y0 w_full px py win_r)
    (windowSumSq img x0 y0 w_full px py win_r)
  rw [CalcMeanStd_var_eq, CalcMeanStd_mean_eq, h1, h2, hfrac.1, hfrac.2]
  refine ⟨⟨by rw [esq]; omega, h0, by rw [esq]; omega⟩, ⟨?_, ?_, ?_⟩, heq⟩
  · apply div_nonneg
    · have : (0 : Int) ≤ (2 * win_r + 1) ^ 2 * windowSumSq img x0 y0 w_full px py win_r
          - windowSum img x0 y0 w_full px py win_r * windowSum img x0 y0 w_full px py win_r := by
        rw [esq]; omega
      exact_mod_cast this
    · exact sq_nonneg _
  · apply div_nonneg
    · exact_mod_cast h0
    · exact le_of_lt hnQ
  · rw [div_le_iff₀ hnQ]
    have : windowSum img x0 y0 w_full px py win_r ≤ 255 * (2 * win_r + 1) ^ 2 := by
      rw [esq]; omega
    exact_mod_cast this

set_option maxRecDepth 100000 in
/-- C17, exercised on the `5 x 5` window centred at `(3, 4)` of the `13 x 13` ramp patch
(`s1 = 1375`, `s2 = 84125`, `n = 25`): `n * s2 - s1 * s1 = 212500`. -/
theorem CalcMeanStd_variance_nonneg_witness :
    EightBit imgRamp ∧ ZeroInit zeroTables 14 14 ∧
    NoOverflow imgRamp (-1) (-1) 13 ((14 : Int) - 1).toNat ((14 : Int) - 1).toNat ∧
    ValidWindow 14 14 3 4 2 ∧
    0 ≤ (2 * (2 : Int) + 1) ^ 2
          * CalcMeanStd_s2 (IntegralPatch imgRamp zeroTables (-1) (-1) 14 14 13).patch_pow_integ
              14 3 4 2
        - CalcMeanStd_s1 (IntegralPatch imgRamp zeroTables (-1) (-1) 14 14 13).patch_integ
              14 3 4 2
          * CalcMeanStd_s1 (IntegralPatch imgRamp zeroTables (-1) (-1) 14 14 13).patch_integ
              14 3 4 2 ∧
    ¬ WindowConstant imgRamp (-1) (-1) 13 3 4 2 := by
  have h8 : EightBit imgRamp := fun p => Nat.le_of_lt_succ (Nat.mod_lt _ (by decide))
  have hz : ZeroInit zeroTables 14 14 := fun _ _ _ => ⟨rfl, rfl⟩
  have hno : NoOverflow imgRamp (-1) (-1) 13 ((14 : Int) - 1).toNat ((14 : Int) - 1).toNat := by
    unfold NoOverflow; decide
  have hv : ValidWindow 14 14 3 4 2 := by unfold ValidWindow; decide
  have key := CalcMeanStd_variance_nonneg imgRamp zeroTables (-1) (-1) 14 14 13 3 4 2 h8 hz hno hv
  refine ⟨h8, hz, hno, hv, key.1.1, ?_⟩
  intro hc
  have := hc 1 2 2 2 (by decide) (by decide) (by decide) (by decide) (by decide) (by decide)
    (by decide) (by decide)
  revert this
  decide

/-! ## What the built tables depend on -/

/-- With any table on entry, an interior cell `(i, j)` holds on return the entry values of the
border cells `(i, 0)` and `(0, j)` minus that of `(0, 0)`, plus the brute-force sum of the sample
terms above and to the left, reduced modulo `2^32`. -/
theorem rowsStep_general (g : Int → Int → Int) (h w : Int) (t : Int → Int) (i j : Nat)
    (hi1 : 1 ≤ i) (hi : (i : Int) ≤ h - 1) (hj1 : 1 ≤ j) (hj : (j : Int) ≤ w - 1) :
    rowsStep g w (h - 1).toNat t ((i : Int) * w + (j : Int))
      = wrapU32 (t ((i : Int) * w) + t (j : Int) - t 0
          + rectSum (fun a b => g ((a : Int) + 1) ((b : Int) + 1)) i j) := by
  have hrec : ∀ a b : Nat,
      (fun a b : Nat => t ((a : Int) * w) + t (b : Int) - t 0
          + rectSum (fun a b => g ((a : Int) + 1) ((b : Int) + 1)) a b) (a + 1) (b + 1)
        = g ((a : Int) + 1) ((b : Int) + 1)
          + (fun a b : Nat => t ((a : Int) * w) + t (b : Int) - t 0
              + rectSum (fun a b => g ((a : Int) + 1) ((b : Int) + 1)) a b) (a + 1) b
          + (fun a b : Nat => t ((a : Int) * w) + t (b : Int) - t 0
              + rectSum (fun a b => g ((a : Int) + 1) ((b : Int) + 1)) a b) a (b + 1)
          - (fun a b : Nat => t ((a : Int) * w) + t (b : Int) - t 0
              + rectSum (fun a b => g ((a : Int) + 1) ((b : Int) + 1)) a b) a b := by
    intro a b
    simp only [rectSum_rec]
    ring
  exact rowsStep_value g w
    (fun a b : Nat => t ((a : Int) * w) + t (b : Int) - t 0
      + rectSum (fun a b => g ((a : Int) + 1) ((b : Int) + 1)) a b)
    hrec t (h - 1).toNat
    (by
      intro b _
      simp only [Nat.cast_zero, zero_mul, rectSum_zero_left]
      have e : t 0 + t (b : Int) - t 0 + 0 = t (b : Int) := by ring
      rw [e])
    (by
      intro a _
      simp only [Nat.cast_zero, rectSum_zero_right]
      have e : t ((a : Int) * w) + t 0 - t 0 + 0 = t ((a : Int) * w) := by ring
      rw [e])
    i j hi1 (by omega) hj1 (by omega)

/-- Two runs of the single-table loops agree on every cell of the table when the sample terms
agree on the patch and the tables on entry agree on row `0` and column `0`. -/
theorem rowsStep_agree (g1 g2 : Int → Int → Int) (h w : Int) (t1 t2 : Int → Int)
    (hg : ∀ a b : Int, 1 ≤ a → a ≤ h - 1 → 1 ≤ b → b ≤ w - 1 → g1 a b = g2 a b)
    (hrow : ∀ j : Int, 0 ≤ j → j < w → t1 j = t2 j)
    (hcol : ∀ i : Int, 0 ≤ i → i < h → t1 (i * w) = t2 (i * w))
    (i j : Int) (hi0 : 0 ≤ i) (hi : i < h) (hj0 : 0 ≤ j) (hj : j < w) :
    rowsStep g1 w (h - 1).toNat t1 (i * w + j) = rowsStep g2 w (h - 1).toNat t2 (i * w + j) := by
  rcases eq_or_lt_of_le hi0 with hi00 | hipos
  · subst hi00
    rw [rowsStep_border g1 w _ t1 0 j hj0 hj (Or.inl rfl),
      rowsStep_border g2 w _ t2 0 j hj0 hj (Or.inl rfl)]
    simp only [zero_mul, zero_add]
    exact hrow j hj0 hj
  rcases eq_or_lt_of_le hj0 with hj00 | hjpos
  · subst hj00
    rw [rowsStep_border g1 w _ t1 i 0 le_rfl hj (Or.inr rfl),
      rowsStep_border g2 w _ t2 i 0 le_rfl hj (Or.inr rfl)]
    simp only [add_zero]
    exact hcol i hi0 hi
  obtain ⟨a, ha⟩ : ∃ a : Nat, (a : Int) = i := ⟨i.toNat, Int.toNat_of_nonneg hi0⟩
  obtain ⟨b, hb⟩ : ∃ b : Nat, (b : Int) = j := ⟨j.toNat, Int.toNat_of_nonneg hj0⟩
  subst ha hb
  rw [rowsStep_general g1 h w t1 a b (by omega) (by omega) (by omega) (by omega),
    rowsStep_general g2 h w t2 a b (by omega) (by omega) (by omega) (by omega),
    hcol (a : Int) hi0 hi, hrow (b : Int) hj0 hj, hrow 0 le_rfl (by omega)]
  have hsum : rectSum (fun c d => g1 ((c : Int) + 1) ((d : Int) + 1)) a b
      = rectSum (fun c d => g2 ((c : Int) + 1) ((d : Int) + 1)) a b := by
    unfold rectSum
    apply Finset.sum_congr rfl; intro c hc
    apply Finset.sum_congr rfl; intro d hd
    have hc1 := Finset.mem_range.1 hc
    have hd1 := Finset.mem_range.1 hd
    exact hg _ _ (by omega) (by omega) (by omega) (by omega)
  rw [hsum]

/-- C18. Builder output depends only on the patch and the border: for two runs of
`IntegralPatch` with the same `x0`, `y0`, `h_integ`, `w_integ`, `w_full`, whose backing buffers
agree on every sample of the patch (rows `y0 + 1 .. y0 + H`, columns `x0 + 1 .. x0 + W`) and whose
input tables agree on row `0` and column `0`, the output tables are identical (cell by cell, on
all `h_integ x w_integ` cells), whatever the buffers hold outside the patch and whatever the
input tables held in their interior cells. -/
theorem IntegralPatch_depends_on_patch_and_border (img1 img2 : Int → Nat) (T1 T2 : Tables)
    (x0 y0 h_integ w_integ w_full : Int)
    (himg : PatchAgree img1 img2 x0 y0 h_integ w_integ w_full)
    (hborder : BorderAgree T1 T2 h_integ w_integ)
    (i j : Int) (hi0 : 0 ≤ i) (hi : i < h_integ) (hj0 : 0 ≤ j) (hj : j < w_integ) :
    (IntegralPatch img1 T1 x0 y0 h_integ w_integ w_full).patch_integ (i * w_integ + j)
        = (IntegralPatch img2 T2 x0 y0 h_integ w_integ w_full).patch_integ (i * w_integ + j) ∧
    (IntegralPatch img1 T1 x0 y0 h_integ w_integ w_full).patch_pow_integ (i * w_integ + j)
        = (IntegralPatch img2 T2 x0 y0 h_integ w_integ w_full).patch_pow_integ
            (i * w_integ + j) := by
  rw [IntegralPatch_integ, IntegralPatch_integ, IntegralPatch_pow, IntegralPatch_pow]
  constructor
  · exact rowsStep_agree _ _ h_integ w_integ _ _
      (fun a b ha1 ha2 hb1 hb2 => by
        unfold sampleTerm
        rw [himg a b ha1 ha2 hb1 hb2])
      (fun j hj0 hj => (hborder.1 j hj0 hj).1) (fun i hi0 hi => (hborder.2 i hi0 hi).1)
      i j hi0 hi hj0 hj
  · exact rowsStep_agree _ _ h_integ w_integ _ _
      (fun a b ha1 ha2 hb1 hb2 => by
        unfold sampleSqTerm
        rw [himg a b ha1 ha2 hb1 hb2])
      (fun j hj0 hj => (hborder.1 j hj0 hj).2) (fun i hi0 hi => (hborder.2 i hi0 hi).2)
      i j hi0 hi hj0 hj

/-- C18, exercised on a `2 x 2` patch (`1 2 / 3 4`, buffer positions `1 .. 4`): a buffer that
differs outside the patch (position `0`) and tables with a zero border but garbage in the
interior cells `(1, 1)` and `(2, 2)` give the same bottom-right cells as the ramp buffer with
zero tables, namely `10` and `30`. -/
theorem IntegralPatch_depends_on_patch_and_border_witness :
    PatchAgree (fun p => if p = 0 then 99 else imgRamp p) imgRamp 0 (-1) 3 3 2 ∧
    BorderAgree ⟨fun q => if q = 4 then 77 else 0, fun q => if q = 8 then 5 else 0⟩ zeroTables
      3 3 ∧
    (0 : Int) ≤ 2 ∧ (2 : Int) < 3 ∧
    (IntegralPatch (fun p => if p = 0 then 99 else imgRamp p)
        ⟨fun q => if q = 4 then 77 else 0, fun q => if q = 8 then 5 else 0⟩ 0 (-1) 3 3
        2).patch_integ (2 * 3 + 2) = 10 ∧
    (IntegralPatch (fun p => if p = 0 then 99 else imgRamp p)
        ⟨fun q => if q = 4 then 77 else 0, fun q => if q = 8 then 5 else 0⟩ 0 (-1) 3 3
        2).patch_pow_integ (2 * 3 + 2) = 30 := by
  have himg : PatchAgree (fun p => if p = 0 then 99 else imgRamp p) imgRamp 0 (-1) 3 3 2 := by
    intro a b ha1 _ hb1 _
    show (if (-1 + a) * 2 + 0 + b = 0 then 99 else imgRamp ((-1 + a) * 2 + 0 + b))
      = imgRamp ((-1 + a) * 2 + 0 + b)
    rw [if_neg (by omega)]
  have hborder : BorderAgree
      ⟨fun q => if q = 4 then 77 else 0, fun q => if q = 8 then 5 else 0⟩ zeroTables 3 3 := by
    constructor
    · intro j hj0 hj
      show (if j = 4 then (77 : Int) else 0) = 0 ∧ (if j = 8 then (5 : Int) else 0) = 0
      rw [if_neg (by omega), if_neg (by omega)]
      exact ⟨rfl, rfl⟩
    · intro i hi0 hi
      show (if i * 3 = 4 then (77 : Int) else 0) = 0 ∧ (if i * 3 = 8 then (5 : Int) else 0) = 0
      rw [if_neg (by omega), if_neg (by omega)]
      exact ⟨rfl, rfl⟩
  have key := IntegralPatch_depends_on_patch_and_border
    (fun p => if p = 0 then 99 else imgRamp p) imgRamp
    ⟨fun q => if q = 4 then 77 else 0, fun q => if q = 8 then 5 else 0⟩ zeroTables
    0 (-1) 3 3 2 himg hborder 2 2 (by decide) (by decide) (by decide) (by decide)
  exact ⟨himg, hborder, by decide, by decide, key.1.trans (by decide), key.2.trans (by decide)⟩

end MeanStd
